import Mathlib

/-!
Shallow embedding of the VFS-Rust single-file virtual file system
(`src/lib.rs`, `src/file.rs`, `src/models.rs`).

Modelling conventions:
* The image is represented region-wise instead of as one flat byte file:
  the two bitmaps are byte lists, the inode table is a function from inode
  id to the decoded `Inode` record, and the data region is a function from
  physical block id to block content (offset `0..4096` to byte value).
  All region-start offset arithmetic of the source
  (`inode_bitmap_start + …`, `data_blocks_start + block*4096 + offset`)
  collapses to indexing the corresponding region.
* Machine integers (`u8`/`u32`/`u64`) are `Nat`; where the source depends
  on their bit width (LE codecs, bit masks) the width appears explicitly.
* `io::Result` becomes `Except VfsError`; host I/O errors (which the
  in-memory image cannot produce) are not modelled, so only the
  structured error kinds remain.
* Wall-clock timestamps (`SystemTime::now()`) are passed in as a `now`
  argument.
* The source reads bitmaps in buffered 512-byte chunks
  (`allocate_bit`); the chunking only batches syscalls and visits exactly
  the bytes of `[start, end)` in increasing order, which is how it is
  modelled here.
-/

namespace Vfs

/-- `BLOCK_SIZE` from `models.rs`. -/
def BLOCK_SIZE : Nat := 4096

/-- `MAX_NAME_LEN` from `models.rs`. -/
def MAX_NAME_LEN : Nat := 32

/-- `DIR_SIZE` from `models.rs`: one directory entry is 40 bytes. -/
def DIR_SIZE : Nat := 40

/-- `BLOCK_SIZE / 4`: number of `u32` pointers in the indirect block. -/
def POINTERS_PER_BLOCK : Nat := 1024

/-- Structured error kinds surfaced by the library (`io::ErrorKind` uses in
the source; `Error::other` exhaustion messages are all mapped to
`exhausted`). -/
inductive VfsError where
  | invalidData
  | notFound
  | invalidInput
  | fileTooLarge
  | exhausted
  | notADirectory
  deriving DecidableEq, Repr

/-- `Inode` record from `models.rs` (decoded form; the 6+4 padding bytes
carry no information). `direct_blocks` is the 10-element list of direct
pointers. -/
structure Inode where
  inode_type : Nat
  is_valid : Nat
  size : Nat
  created_at : Nat
  modified_at : Nat
  direct_blocks : List Nat
  indirect_blocks : Nat
  deriving Repr, DecidableEq

/-- The whole image, region by region.  `blocks b o` is the byte at offset
`o` of physical data block `b` (i.e. image offset
`data_blocks_start + b*4096 + o`); only offsets `< 4096` are ever
accessed. -/
structure VfsState where
  inodeBitmap : List Nat
  dataBitmap : List Nat
  inodes : Nat → Inode
  blocks : Nat → Nat → Nat

/-- Open-file handle state (`VfsFile` minus the shared image handle, which
is the explicit `VfsState` argument of every operation). -/
structure FileHandle where
  inode_id : Nat
  position : Nat
  deriving Repr, DecidableEq

/-! ### Bit-level helpers (`1 << bit`, `byte & !(1 << bit)`, `byte | (1 << bit)`) -/

/-- Test bit `i` of a byte (`(byte & (1 << i)) != 0`). -/
def byteTestBit (b i : Nat) : Bool := Nat.testBit b i

/-- `byte | (1 << i)`. -/
def setBitInByte (b i : Nat) : Nat := b ||| (1 <<< i)

/-- `byte & !(1 << i)` on a `u8`: the complement of a one-bit mask in 8
bits is `255 ^^^ (1 <<< i)`. -/
def clearBitInByte (b i : Nat) : Nat := b &&& (255 ^^^ (1 <<< i))

/-- Bit `idx` of a bitmap region: bit `idx % 8` of byte `idx / 8`.
Reading past the end of the region is modelled as 0 (the source would
read into the following region; no claim exercises that). -/
def bitGet (bm : List Nat) (idx : Nat) : Bool :=
  byteTestBit (bm.getD (idx / 8) 0) (idx % 8)

/-- `Vfs::free_bit` / `Vfs::deallocate_inode`: read the byte containing
`idx`, clear the bit, write the byte back. -/
def freeBit (bm : List Nat) (idx : Nat) : List Nat :=
  bm.set (idx / 8) (clearBitInByte (bm.getD (idx / 8) 0) (idx % 8))

/-- Inner loop of `Vfs::allocate_bit`: `for bit_idx in 0..8 { if bit
clear { … } }` — the lowest clear bit of a byte, if any. -/
def findFreeBitInByte (b : Nat) : Option Nat :=
  if ¬ byteTestBit b 0 then some 0
  else if ¬ byteTestBit b 1 then some 1
  else if ¬ byteTestBit b 2 then some 2
  else if ¬ byteTestBit b 3 then some 3
  else if ¬ byteTestBit b 4 then some 4
  else if ¬ byteTestBit b 5 then some 5
  else if ¬ byteTestBit b 6 then some 6
  else if ¬ byteTestBit b 7 then some 7
  else none

/-- `Vfs::allocate_bit` over the byte region `[start, end)`: scan bytes in
increasing order, skip bytes equal to `0xFF`, take the lowest clear bit of
the first remaining byte, set it, persist the single byte.  Returns the
bit index and the updated region, or `none` on exhaustion
(`Error::other("No more free inodes!")` in the source). -/
def allocateBit : List Nat → Option (Nat × List Nat)
  | [] => none
  | b :: rest =>
    match (if b ≠ 255 then findFreeBitInByte b else none) with
    | some i => some (i, setBitInByte b i :: rest)
    | none =>
      match allocateBit rest with
      | none => none
      | some (i, rest') => some (i + 8, b :: rest')

/-- Number of clear bits in a bitmap region (used to express "enough free
space" hypotheses; not a source function). -/
def freeCount (bm : List Nat) : Nat :=
  (bm.map (fun b => ((List.range 8).filter (fun i => ¬ byteTestBit b i)).length)).sum

/-! ### Little-endian u32 access inside a block (`u32::from_le_bytes` /
`to_le_bytes` on 4 bytes of a data block) -/

/-- `u32::from_le_bytes` of the 4 bytes at offset `off` of a block. -/
def u32leGet (blk : Nat → Nat) (off : Nat) : Nat :=
  blk off + 256 * blk (off + 1) + 65536 * blk (off + 2) + 16777216 * blk (off + 3)

/-- The `j`-th byte of `v.to_le_bytes()` for a `u32` value `v`. -/
def u32leByte (v j : Nat) : Nat := v / 256 ^ j % 256

/-- `v.to_le_bytes()` as a 4-byte list. -/
def u32leBytes (v : Nat) : List Nat :=
  [u32leByte v 0, u32leByte v 1, u32leByte v 2, u32leByte v 3]

/-- Overwrite `data.length` bytes of a block starting at offset `off`
(the effect of `file.write_all(&data)` at a position inside the block). -/
def writeBytes (blk : Nat → Nat) (off : Nat) (data : List Nat) : Nat → Nat :=
  fun o => if off ≤ o ∧ o < off + data.length then data.getD (o - off) 0 else blk o

/-! ### Inode table and bitmap operations of `Vfs` -/

/-- `Vfs::is_inode_allocated`: test bit `inode_id` of the inode bitmap. -/
def isInodeAllocated (s : VfsState) (inode_id : Nat) : Bool :=
  bitGet s.inodeBitmap inode_id

/-- `Vfs::get_inode` (the inode table is stored decoded). -/
def getInode (s : VfsState) (id : Nat) : Inode := s.inodes id

/-- `Vfs::save_inode`. -/
def saveInode (s : VfsState) (id : Nat) (inode : Inode) : VfsState :=
  { s with inodes := Function.update s.inodes id inode }

/-- `Vfs::allocate_inode` = `allocate_bit` over the inode bitmap. -/
def allocateInode (s : VfsState) : Except VfsError (Nat × VfsState) :=
  match allocateBit s.inodeBitmap with
  | none => .error .exhausted
  | some (i, bm) => .ok (i, { s with inodeBitmap := bm })

/-- `Vfs::allocate_data_block` (also `VfsFile::allocate_data_block`,
which is a verbatim copy) = `allocate_bit` over the data bitmap. -/
def allocateDataBlock (s : VfsState) : Except VfsError (Nat × VfsState) :=
  match allocateBit s.dataBitmap with
  | none => .error .exhausted
  | some (i, bm) => .ok (i, { s with dataBitmap := bm })

/-- `Vfs::deallocate_inode` (clear one inode-bitmap bit; byte-identical to
`free_bit` on the inode bitmap region). -/
def deallocateInode (s : VfsState) (inode_id : Nat) : VfsState :=
  { s with inodeBitmap := freeBit s.inodeBitmap inode_id }

/-! ### Block map (`allocate_indirect_or_direct_blocks`, `just_read`).
`Vfs::allocate_indirect_or_direct_blocks` (lib.rs) and
`VfsFile::allocate_indirect_or_direct_blocks` (file.rs) are verbatim
copies of each other; one definition embeds both. Likewise `just_read`. -/

/-- The allocating logical-block-index → physical-block-id translation. -/
def allocateIndirectOrDirectBlocks (s : VfsState) (inode_id block_index : Nat) :
    Except VfsError (VfsState × Nat) :=
  let inode := getInode s inode_id
  if block_index < 10 then
    let direct_block := inode.direct_blocks.getD block_index 0
    if direct_block = 0 then
      match allocateDataBlock s with
      | .error e => .error e
      | .ok (new_block_id, s) =>
        let inode := { inode with direct_blocks := inode.direct_blocks.set block_index new_block_id }
        .ok (saveInode s inode_id inode, new_block_id)
    else .ok (s, direct_block)
  else
    let indirect_block_index := block_index - 10
    if indirect_block_index ≥ POINTERS_PER_BLOCK then .error .fileTooLarge
    else
      match (if inode.indirect_blocks = 0 then
               -- allocate a fresh pointer block and zero-fill its 4096 bytes
               match allocateDataBlock s with
               | .error e => .error e
               | .ok (new_pointer_block, s) =>
                 let inode := { inode with indirect_blocks := new_pointer_block }
                 let s := saveInode s inode_id inode
                 .ok ({ s with blocks := Function.update s.blocks new_pointer_block (fun _ => 0) },
                      inode)
             else .ok (s, inode) : Except VfsError (VfsState × Inode)) with
      | .error e => .error e
      | .ok (s, inode) =>
        let ptrOff := indirect_block_index * 4
        let data_block_pointer := u32leGet (s.blocks inode.indirect_blocks) ptrOff
        if data_block_pointer = 0 then
          match allocateDataBlock s with
          | .error e => .error e
          | .ok (p, s) =>
            .ok ({ s with blocks := (Function.update s.blocks inode.indirect_blocks
                     (writeBytes (s.blocks inode.indirect_blocks) ptrOff (u32leBytes p))) }, p)
        else .ok (s, data_block_pointer)

/-- `just_read`: the read-only translation; `none` when the slot or the
indirect chain is zero. -/
def justRead (s : VfsState) (inode : Inode) (block_index : Nat) : Option Nat :=
  if block_index < 10 then
    let id := inode.direct_blocks.getD block_index 0
    if id = 0 then none else some id
  else if inode.indirect_blocks = 0 then none
  else
    let id := u32leGet (s.blocks inode.indirect_blocks) ((block_index - 10) * 4)
    if id = 0 then none else some id

/-! ### File stream (`impl Write/Read/Seek for VfsFile`) -/

/-- `VfsFile::write` (one call; short writes are normal).  Returns the new
state, the handle with its advanced position, and the byte count
written. -/
def fwrite (s : VfsState) (h : FileHandle) (buf : List Nat) (now : Nat) :
    Except VfsError (VfsState × FileHandle × Nat) :=
  if buf.isEmpty then .ok (s, h, 0)
  else
    let inode := getInode s h.inode_id
    -- torn-write window: mark the inode in-flight before touching data
    let s := if inode.is_valid = 1 then saveInode s h.inode_id { inode with is_valid := 0 } else s
    let block_idx := h.position / BLOCK_SIZE
    let offset := h.position % BLOCK_SIZE
    match allocateIndirectOrDirectBlocks s h.inode_id block_idx with
    | .error e => .error e
    | .ok (s, physical_block_id) =>
      let space_left_in_block := BLOCK_SIZE - offset
      let to_write := min space_left_in_block buf.length
      let s := { s with blocks := (Function.update s.blocks physical_block_id
                   (writeBytes (s.blocks physical_block_id) offset (buf.take to_write))) }
      let position := h.position + to_write
      -- reload the inode (block-map allocation may have updated it)
      let inode := getInode s h.inode_id
      let inode := { inode with size := if position > inode.size then position else inode.size,
                                modified_at := now, is_valid := 1 }
      .ok (saveInode s h.inode_id inode, { h with position := position }, to_write)

/-- `VfsFile::read` (one call).  The state is read-only; the result is the
handle with its advanced position and the bytes read (whose length is the
source's return count). -/
def fread (s : VfsState) (h : FileHandle) (bufLen : Nat) : FileHandle × List Nat :=
  if bufLen = 0 then (h, [])
  else
    let inode := getInode s h.inode_id
    if h.position ≥ inode.size then (h, [])
    else
      let block_idx := h.position / BLOCK_SIZE
      let offset := h.position % BLOCK_SIZE
      match justRead s inode block_idx with
      | none =>
        -- hole: synthesize zero bytes
        let to_read := min (BLOCK_SIZE - offset) bufLen
        let available_in_file := inode.size - h.position
        let final_read := min to_read available_in_file
        ({ h with position := h.position + final_read }, List.replicate final_read 0)
      | some block_id =>
        let available_in_file := inode.size - h.position
        let available_in_block := BLOCK_SIZE - offset
        let to_read := min (min available_in_block available_in_file) bufLen
        ({ h with position := h.position + to_read },
         (List.range to_read).map (fun i => s.blocks block_id (offset + i)))

/-- `std::io::SeekFrom`. -/
inductive SeekFrom where
  | start (n : Nat)
  | current (n : Int)
  | fromEnd (n : Int)
  deriving Repr, DecidableEq

/-- `n as i64` for a `u64` value `n` (the cast in `SeekFrom::Start(n) => n
as i64`). -/
def i64ofU64 (n : Nat) : Int :=
  if n < 2 ^ 63 then (n : Int) else (n : Int) - 2 ^ 64

/-- The `new_position: i64` computed by `VfsFile::seek` (i64 overflow of
the additions, impossible for positions/sizes this library can produce, is
not modelled). -/
def seekNewPosition (s : VfsState) (h : FileHandle) (pos : SeekFrom) : Int :=
  match pos with
  | .start n => i64ofU64 n
  | .current n => i64ofU64 h.position + n
  | .fromEnd n => i64ofU64 (getInode s h.inode_id).size + n

/-- `VfsFile::seek`: fails with `InvalidInput` on a negative final
position, otherwise stores it.  Touches neither the image nor the
inode. -/
def fseek (s : VfsState) (h : FileHandle) (pos : SeekFrom) : Except VfsError FileHandle :=
  let new_position := seekNewPosition s h pos
  if new_position < 0 then .error .invalidInput
  else .ok { h with position := new_position.toNat }

/-- The byte of an open file at logical offset `j`, as `VfsFile::read`
retrieves it (0 inside a hole). -/
def fileByte (s : VfsState) (inode : Inode) (j : Nat) : Nat :=
  match justRead s inode (j / BLOCK_SIZE) with
  | none => 0
  | some blk => s.blocks blk (j % BLOCK_SIZE)

/-- `io::Write::write_all`'s retry loop over `VfsFile::write`: drop the
written prefix after each call until the buffer is exhausted.  Each
successful non-empty `write` writes at least one byte, so `|buf|` calls
suffice; the fuel only forces termination. -/
def writeAll :
    Nat → VfsState → FileHandle → List Nat → Nat → Except VfsError (VfsState × FileHandle)
  | _, s, h, [], _ => .ok (s, h)
  | 0, _, _, _ :: _, _ => .error .invalidInput
  | fuel + 1, s, h, buf, now =>
    match fwrite s h buf now with
    | .error e => .error e
    | .ok (s', h', n) => writeAll fuel s' h' (buf.drop n) now

/-- `io::Read::read_to_end`'s loop over `VfsFile::read` with 4096-byte
read calls: append chunks until a call returns no bytes. -/
def readToEnd : Nat → VfsState → FileHandle → List Nat → List Nat
  | 0, _, _, acc => acc
  | fuel + 1, s, h, acc =>
    let r := fread s h BLOCK_SIZE
    if r.2.isEmpty then acc else readToEnd fuel s r.1 (acc ++ r.2)

/-- Proof invariant of the write loop: after the first `p` bytes of `B`
have been written into the fresh file `fid`, the inode's size is `p`, its
record is valid, every logical block below the write frontier is mapped
to a distinct, allocated physical block different from the pointer block,
every block at or beyond the frontier is unmapped, and the stored bytes
are the written prefix of `B`. -/
def WInv (fid : Nat) (B : List Nat) (s : VfsState) (p : Nat) : Prop :=
  (getInode s fid).size = p ∧
  (getInode s fid).is_valid = 1 ∧
  (getInode s fid).direct_blocks.length = 10 ∧
  bitGet s.dataBitmap 0 = true ∧
  (∀ b ∈ s.dataBitmap, b < 256) ∧
  8 * s.dataBitmap.length < 4294967296 ∧
  ((getInode s fid).indirect_blocks ≠ 0 →
    bitGet s.dataBitmap (getInode s fid).indirect_blocks = true) ∧
  (∀ bj, p ≤ bj * BLOCK_SIZE → justRead s (getInode s fid) bj = none) ∧
  (∀ bi, bi * BLOCK_SIZE < p → ∃ blk,
    justRead s (getInode s fid) bi = some blk ∧
    bitGet s.dataBitmap blk = true ∧
    blk ≠ (getInode s fid).indirect_blocks ∧
    ∀ bj blkj, bj ≠ bi → justRead s (getInode s fid) bj = some blkj → blkj ≠ blk) ∧
  (∀ j, j < p → fileByte s (getInode s fid) j = B.getD j 0)

/-! ### Name decoding.  Rust strings are modelled by their UTF-8 byte
lists.  `std::str::from_utf8(&entry.name).unwrap_or("")` keeps the 32
stored bytes when they are valid UTF-8 and yields `""` otherwise;
`.trim_matches('\x7b0\x7d')` strips NUL bytes from both ends. -/

/-- Is `c` a UTF-8 continuation byte (`0x80..=0xBF`)? -/
def isCont (c : Nat) : Bool := 0x80 ≤ c ∧ c ≤ 0xBF

/-- UTF-8 validity of a byte list (the check performed by
`std::str::from_utf8`). -/
def utf8Valid : List Nat → Bool
  | [] => true
  | b :: l =>
    if b ≤ 0x7F then utf8Valid l
    else if b < 0xC2 then false
    else if b ≤ 0xDF then
      match l with
      | c :: l2 => isCont c && utf8Valid l2
      | [] => false
    else if b ≤ 0xEF then
      match l with
      | c1 :: c2 :: l3 =>
        (if b = 0xE0 then decide (0xA0 ≤ c1 ∧ c1 ≤ 0xBF)
         else if b = 0xED then decide (0x80 ≤ c1 ∧ c1 ≤ 0x9F)
         else isCont c1) && isCont c2 && utf8Valid l3
      | _ => false
    else if b ≤ 0xF4 then
      match l with
      | c1 :: c2 :: c3 :: l4 =>
        (if b = 0xF0 then decide (0x90 ≤ c1 ∧ c1 ≤ 0xBF)
         else if b = 0xF4 then decide (0x80 ≤ c1 ∧ c1 ≤ 0x8F)
         else isCont c1) && isCont c2 && isCont c3 && utf8Valid l4
      | _ => false
    else false

/-- Drop leading NUL bytes. -/
def dropLeadingNul : List Nat → List Nat
  | 0 :: l => dropLeadingNul l
  | l => l

/-- `trim_matches('\x7b0\x7d')`: strip NUL bytes from both ends. -/
def trimNul (l : List Nat) : List Nat :=
  (dropLeadingNul (dropLeadingNul l).reverse).reverse

/-- `std::str::from_utf8(bytes).unwrap_or("").trim_matches('\x7b0\x7d')`. -/
def decodeName (bytes : List Nat) : List Nat :=
  if utf8Valid bytes then trimNul bytes else []

/-! ### Directory entries.
A directory data block holds `4096 / 40 = 102` packed 40-byte entries
(`DirEntry::to_bytes`: `inode_id` as 4 LE bytes, 32 name bytes,
`is_active`, 3 padding bytes). -/

/-- The 32 raw name bytes of slot `i` of a block (`entry.name`). -/
def entryNameBytes (blk : Nat → Nat) (i : Nat) : List Nat :=
  (List.range MAX_NAME_LEN).map (fun j => blk (i * DIR_SIZE + 4 + j))

/-- The `inode_id` field of slot `i` (`u32::from_le_bytes(data[0..4])`). -/
def entryInodeId (blk : Nat → Nat) (i : Nat) : Nat :=
  u32leGet blk (i * DIR_SIZE)

/-- The `is_active` byte of slot `i` (`data[36]`). -/
def entryIsActive (blk : Nat → Nat) (i : Nat) : Nat :=
  blk (i * DIR_SIZE + 36)

/-- `DirEntry \x7b inode_id, name (NUL-padded to 32), is_active: 1 \x7d.to_bytes()`
for an insertion: `name_bytes` holds the first `min(|name|, 32)` bytes of
the name (`Vfs::add_entry_to_parent`'s silent truncation). -/
def entryBytesFor (name : List Nat) (child_id : Nat) : List Nat :=
  u32leBytes child_id ++ (name.take MAX_NAME_LEN ++
    List.replicate (MAX_NAME_LEN - min name.length MAX_NAME_LEN) 0) ++ [1, 0, 0, 0]

/-- Slot loop of `Vfs::find_in_dir`: scan `remaining` slots starting at
slot `i`; `some r` is an early `return` (match found: `Ok(inode_id)`, or
the corrupted-inode `NotFound`). -/
def findSlots (s : VfsState) (blk : Nat → Nat) (name : List Nat) :
    Nat → Nat → Option (Except VfsError Nat)
  | _, 0 => none
  | i, remaining + 1 =>
    if entryIsActive blk i = 1 ∧ decodeName (entryNameBytes blk i) = name then
      some (if isInodeAllocated s (entryInodeId blk i) then .ok (entryInodeId blk i)
            else .error .notFound)
    else findSlots s blk name (i + 1) remaining

/-- Block loop of `Vfs::find_in_dir` over `block_index in 0..1034`;
an absent block `break`s to the trailing `NotFound`. -/
def findInDirBlocks (s : VfsState) (inode : Inode) (name : List Nat) :
    Nat → Nat → Except VfsError Nat
  | _, 0 => .error .notFound
  | block_index, fuel + 1 =>
    match justRead s inode block_index with
    | none => .error .notFound
    | some physical_id =>
      match findSlots s (s.blocks physical_id) name 0 (BLOCK_SIZE / DIR_SIZE) with
      | some r => r
      | none => findInDirBlocks s inode name (block_index + 1) fuel

/-- `Vfs::find_in_dir`. -/
def findInDir (s : VfsState) (dir_id : Nat) (name : List Nat) : Except VfsError Nat :=
  findInDirBlocks s (getInode s dir_id) name 0 1034

/-- `Vfs::find_inode_by_path`: split on `/` (byte 47), drop empty
segments, walk from inode 0. -/
def splitPath (path : List Nat) : List (List Nat) :=
  (path.splitOn 47).filter (fun seg => ¬ seg.isEmpty)

/-- The path walk of `find_inode_by_path`. -/
def findInodeByPath (s : VfsState) (path : List Nat) : Except VfsError Nat :=
  (splitPath path).foldlM (fun current_id part => findInDir s current_id part) 0

/-- `path.rfind('/')`-based split into `(parent_path, name)` used by
`create_file` / `create_dir` / `remove`: everything before the last
slash, and everything after it (`("", path)` when there is none). -/
def splitLast (path : List Nat) : List Nat × List Nat :=
  match path.reverse.splitOn 47 with
  | [] => ([], path)
  | [_] => ([], path)
  | last :: _ => (path.take (path.length - last.length - 1), last.reverse)

/-- Parent-id resolution shared by `create_file`/`create_dir`/`remove`:
an empty parent path resolves to the root inode 0 without a lookup. -/
def resolveParent (s : VfsState) (parent_path : List Nat) : Except VfsError Nat :=
  if parent_path.isEmpty then .ok 0 else findInodeByPath s parent_path

/-- Free-slot scan of `Vfs::add_entry_to_parent` within one block: the
first of `remaining` slots from `i` whose `is_active` byte is 0. -/
def findFreeSlot (blk : Nat → Nat) : Nat → Nat → Option Nat
  | _, 0 => none
  | i, remaining + 1 =>
    if entryIsActive blk i = 0 then some i else findFreeSlot blk (i + 1) remaining

/-- Block loop of `Vfs::add_entry_to_parent` over
`block_index in 0..(10 + 1024)` using the allocating block map; writes
the entry into the first free slot, then bumps the parent's
`modified_at` and high-water `size`. -/
def addEntryLoop (parent_id : Nat) (entry : List Nat) (now : Nat) :
    VfsState → Nat → Nat → Except VfsError VfsState
  | _, _, 0 => .error .exhausted
  | s, block_index, fuel + 1 =>
    match allocateIndirectOrDirectBlocks s parent_id block_index with
    | .error e => .error e
    | .ok (s, physical_id) =>
      match findFreeSlot (s.blocks physical_id) 0 (BLOCK_SIZE / DIR_SIZE) with
      | some i =>
        let s := { s with blocks := (Function.update s.blocks physical_id
                     (writeBytes (s.blocks physical_id) (i * DIR_SIZE) entry)) }
        let parent_inode := getInode s parent_id
        let entry_end_pos := block_index * BLOCK_SIZE + (i + 1) * DIR_SIZE
        let parent_inode := { parent_inode with
          modified_at := now,
          size := if entry_end_pos > parent_inode.size then entry_end_pos else parent_inode.size }
        .ok (saveInode s parent_id parent_inode)
      | none => addEntryLoop parent_id entry now s (block_index + 1) fuel

/-- `Vfs::add_entry_to_parent`. -/
def addEntryToParent (s : VfsState) (parent_id : Nat) (name : List Nat) (child_id now : Nat) :
    Except VfsError VfsState :=
  addEntryLoop parent_id (entryBytesFor name child_id) now s 0 (10 + POINTERS_PER_BLOCK)

/-- A freshly created inode (`create_file` uses `inode_type = 0`,
`create_dir` uses `inode_type = 1`). -/
def freshInode (inode_type now : Nat) : Inode :=
  { inode_type := inode_type, is_valid := 1, size := 0, created_at := now,
    modified_at := now, direct_blocks := List.replicate 10 0, indirect_blocks := 0 }

/-- `Vfs::create_file`. -/
def createFile (s : VfsState) (path : List Nat) (now : Nat) :
    Except VfsError (VfsState × FileHandle) :=
  let (parent_path, file_name) := splitLast path
  match resolveParent s parent_path with
  | .error e => .error e
  | .ok parent_id =>
    match allocateInode s with
    | .error e => .error e
    | .ok (new_id, s) =>
      let s := saveInode s new_id (freshInode 0 now)
      match addEntryToParent s parent_id file_name new_id now with
      | .error e => .error e
      | .ok s => .ok (s, { inode_id := new_id, position := 0 })

/-- `Vfs::create_dir`. -/
def createDir (s : VfsState) (path : List Nat) (now : Nat) : Except VfsError VfsState :=
  let (parent_path, new_name) := splitLast path
  match resolveParent s parent_path with
  | .error e => .error e
  | .ok parent_id =>
    match allocateInode s with
    | .error e => .error e
    | .ok (new_id, s) =>
      let s := saveInode s new_id (freshInode 1 now)
      match addEntryToParent s parent_id new_name new_id now with
      | .error e => .error e
      | .ok s =>
        match addEntryToParent s new_id [46] new_id now with   -- "."
        | .error e => .error e
        | .ok s => addEntryToParent s new_id [46, 46] parent_id now  -- ".."

/-- `Vfs::open_file`. -/
def openFile (s : VfsState) (path : List Nat) : Except VfsError FileHandle :=
  match findInodeByPath s path with
  | .error e => .error e
  | .ok inode_id => .ok { inode_id := inode_id, position := 0 }

/-- Slot loop of `Vfs::read_dir`: the NUL-trimmed names of the live
entries of one block, in slot order. -/
def collectNames (blk : Nat → Nat) : Nat → Nat → List (List Nat)
  | _, 0 => []
  | i, remaining + 1 =>
    (if entryIsActive blk i = 1 then [decodeName (entryNameBytes blk i)] else []) ++
      collectNames blk (i + 1) remaining

/-- Block loop of `Vfs::read_dir` (`block_index in 0..1034`, `break` on
the first absent block). -/
def readDirBlocks (s : VfsState) (inode : Inode) : Nat → Nat → List (List Nat)
  | _, 0 => []
  | block_index, fuel + 1 =>
    match justRead s inode block_index with
    | none => []
    | some physical_id =>
      collectNames (s.blocks physical_id) 0 (BLOCK_SIZE / DIR_SIZE) ++
        readDirBlocks s inode (block_index + 1) fuel

/-- `Vfs::read_dir`. -/
def readDir (s : VfsState) (path : List Nat) : Except VfsError (List (List Nat)) :=
  match findInodeByPath s path with
  | .error e => .error e
  | .ok dir_id =>
    let dir_inode := getInode s dir_id
    if dir_inode.inode_type ≠ 1 then .error .notADirectory
    else .ok (readDirBlocks s dir_inode 0 1034)

/-- The rewritten 40 bytes of `Vfs::set_entry_active_status`: the parsed
entry re-encoded with its `is_active` byte replaced by `status`. -/
def entryBytesWithStatus (blk : Nat → Nat) (i status : Nat) : List Nat :=
  u32leBytes (entryInodeId blk i) ++ entryNameBytes blk i ++ [status, 0, 0, 0]

/-- Slot loop of `Vfs::set_entry_active_status`: first live entry whose
decoded name matches. -/
def findActiveSlot (blk : Nat → Nat) (name : List Nat) : Nat → Nat → Option Nat
  | _, 0 => none
  | i, remaining + 1 =>
    if entryIsActive blk i = 1 ∧ decodeName (entryNameBytes blk i) = name then some i
    else findActiveSlot blk name (i + 1) remaining

/-- Block loop of `Vfs::set_entry_active_status` (`0..(10 + 1024)`
blocks, `break` on an absent block, trailing `NotFound`). -/
def setEntryActiveBlocks (name : List Nat) (status : Nat) (inode : Inode) :
    VfsState → Nat → Nat → Except VfsError VfsState
  | _, _, 0 => .error .notFound
  | s, block_index, fuel + 1 =>
    match justRead s inode block_index with
    | none => .error .notFound
    | some physical_id =>
      match findActiveSlot (s.blocks physical_id) name 0 (BLOCK_SIZE / DIR_SIZE) with
      | some i =>
        .ok { s with blocks := (Function.update s.blocks physical_id
                (writeBytes (s.blocks physical_id) (i * DIR_SIZE)
                  (entryBytesWithStatus (s.blocks physical_id) i status))) }
      | none => setEntryActiveBlocks name status inode s (block_index + 1) fuel

/-- `Vfs::set_entry_active_status`. -/
def setEntryActiveStatus (s : VfsState) (dir_id : Nat) (name : List Nat) (status : Nat) :
    Except VfsError VfsState :=
  setEntryActiveBlocks name status (getInode s dir_id) s 0 (10 + POINTERS_PER_BLOCK)

/-- The `for i in 0..10` loop of `Vfs::remove`: release every non-zero
direct block of the (pre-loaded) target inode. -/
def removeFreeDirect (inode : Inode) (s : VfsState) : VfsState :=
  (List.range 10).foldl (fun s i =>
    if inode.direct_blocks.getD i 0 ≠ 0 then
      { s with dataBitmap := freeBit s.dataBitmap (inode.direct_blocks.getD i 0) }
    else s) s

/-- The indirect-block paragraph of `Vfs::remove`: when the pointer block
exists, release each of its 1024 non-zero pointers and then the pointer
block itself.  (The source reads the whole 4096-byte pointer block into a
buffer first; bit releases do not change block contents, so reading each
pointer in place sees the same bytes.) -/
def freeIndirectPtrs (inode : Inode) (s : VfsState) : VfsState :=
  (List.range POINTERS_PER_BLOCK).foldl (fun s k =>
    if u32leGet (s.blocks inode.indirect_blocks) (k * 4) ≠ 0 then
      { s with dataBitmap := (freeBit s.dataBitmap
          (u32leGet (s.blocks inode.indirect_blocks) (k * 4))) }
    else s) s

def removeFreeIndirect (inode : Inode) (s : VfsState) : VfsState :=
  if inode.indirect_blocks ≠ 0 then
    let s := freeIndirectPtrs inode s
    { s with dataBitmap := freeBit s.dataBitmap inode.indirect_blocks }
  else s

/-- `Vfs::remove`: release the target's non-zero direct blocks, its
indirect pointers and pointer block, release the inode bit, tombstone the
parent entry. -/
def remove (s : VfsState) (path : List Nat) : Except VfsError VfsState :=
  let (parent_path, name) := splitLast path
  match resolveParent s parent_path with
  | .error e => .error e
  | .ok parent_id =>
    match findInDir s parent_id name with
    | .error e => .error e
    | .ok inode_id =>
      let inode := getInode s inode_id
      let s := removeFreeDirect inode s
      let s := removeFreeIndirect inode s
      let s := { s with inodeBitmap := freeBit s.inodeBitmap inode_id }
      setEntryActiveStatus s parent_id name 0

/-! ### Recovery (`Vfs::open` → `recover_corrupted_inodes`) -/

/-- One iteration of the recovery loop: deallocate inode `inode_id` when
its bitmap bit is set but its record has `is_valid == 0`. -/
def recoverStep (s : VfsState) (inode_id : Nat) : VfsState :=
  if isInodeAllocated s inode_id ∧ (getInode s inode_id).is_valid = 0 then
    deallocateInode s inode_id
  else s

/-- `Vfs::recover_corrupted_inodes`: `max_inodes` is the inode-bitmap
byte length times 8; the loop runs over `1..max_inodes`. -/
def recoverCorruptedInodes (s : VfsState) : VfsState :=
  (List.range' 1 (s.inodeBitmap.length * 8 - 1)).foldl recoverStep s

/-! ### Format (`Vfs::create`).  The fresh host file is all zeros
(`set_len` after `truncate`), format zeroes the whole metadata area
again, writes the root inode, sets inode-bitmap bit 0, and inserts `.`
and `..` into the root. -/

/-- The all-zero inode record that an untouched inode-table slot decodes
to. -/
def zeroInode : Inode :=
  { inode_type := 0, is_valid := 0, size := 0, created_at := 0, modified_at := 0,
    direct_blocks := List.replicate 10 0, indirect_blocks := 0 }

/-- `Vfs::create` after the layout computation, parametrised by the two
bitmap byte lengths the layout yields (`inode_bitmap_size`,
`data_bitmap_size`, both ≥ 1). -/
def format (inodeBmLen dataBmLen now : Nat) : Except VfsError VfsState :=
  let s : VfsState :=
    { inodeBitmap := (List.replicate inodeBmLen 0).set 0 1,
      dataBitmap := List.replicate dataBmLen 0,
      inodes := Function.update (fun _ => zeroInode) 0 (freshInode 1 now),
      blocks := fun _ _ => 0 }
  match addEntryToParent s 0 [46] 0 now with        -- "."
  | .error e => .error e
  | .ok s => addEntryToParent s 0 [46, 46] 0 now    -- ".."

/-! ## Lemmas: bit-level helpers -/

theorem byteTestBit_setBitInByte (b i j : Nat) :
    byteTestBit (setBitInByte b i) j = (byteTestBit b j || j = i) := by
  simp only [byteTestBit, setBitInByte, Nat.testBit_or, Nat.shiftLeft_eq, one_mul]
  rcases eq_or_ne j i with rfl | hne
  · simp [Nat.testBit_two_pow_self]
  · simp [Nat.testBit_two_pow_of_ne (Ne.symm hne), hne]

theorem testBit_255 (j : Nat) : Nat.testBit 255 j = decide (j < 8) := by
  have h : (255 : Nat) = 2 ^ 8 - 1 := by norm_num
  rw [h, Nat.testBit_two_pow_sub_one]

theorem byteTestBit_clearBitInByte {b i : Nat} (hb : b < 256) (hi : i < 8) (j : Nat) :
    byteTestBit (clearBitInByte b i) j = (byteTestBit b j && ¬ j = i) := by
  simp only [byteTestBit, clearBitInByte, Nat.testBit_and, Nat.testBit_xor,
    Nat.shiftLeft_eq, one_mul, testBit_255]
  rcases eq_or_ne j i with rfl | hne
  · simp [Nat.testBit_two_pow_self, hi]
  · rcases Nat.lt_or_ge j 8 with hj | hj
    · simp [Nat.testBit_two_pow_of_ne (Ne.symm hne), hj, hne]
    · have h28 : (256 : Nat) = 2 ^ 8 := by norm_num
      have hbj : b.testBit j = false :=
        Nat.testBit_lt_two_pow (lt_of_lt_of_le (h28 ▸ hb) (Nat.pow_le_pow_right (by norm_num) hj))
      simp [Nat.testBit_two_pow_of_ne (Ne.symm hne), Nat.not_lt.mpr hj, hne, hbj]

theorem setBitInByte_lt_256 {b i : Nat} (hb : b < 256) (hi : i < 8) :
    setBitInByte b i < 256 := by
  have h1 : b < 2 ^ 8 := hb
  have h2 : 1 <<< i < 2 ^ 8 := by
    rw [Nat.shiftLeft_eq, one_mul]
    exact Nat.pow_lt_pow_right (by norm_num) hi
  exact Nat.or_lt_two_pow h1 h2

theorem byte_eq_255 {b : Nat} (hb : b < 256) (h : ∀ j, j < 8 → byteTestBit b j = true) :
    b = 255 := by
  apply Nat.eq_of_testBit_eq
  intro i
  rw [testBit_255]
  rcases Nat.lt_or_ge i 8 with hi | hi
  · simpa [hi] using h i hi
  · have h28 : (256 : Nat) = 2 ^ 8 := by norm_num
    have : b.testBit i = false :=
      Nat.testBit_lt_two_pow (lt_of_lt_of_le (h28 ▸ hb) (Nat.pow_le_pow_right (by norm_num) hi))
    simp [this, Nat.not_lt.mpr hi]

theorem findFreeBitInByte_some {b i : Nat} (h : findFreeBitInByte b = some i) :
    i < 8 ∧ byteTestBit b i = false ∧ ∀ j, j < i → byteTestBit b j = true := by
  unfold findFreeBitInByte at h
  split_ifs at h with h0 h1 h2 h3 h4 h5 h6 h7 <;>
    injection h with h <;> subst h <;>
    refine ⟨by omega, by simp_all, ?_⟩ <;> intro j hj <;> interval_cases j <;> simp_all

theorem findFreeBitInByte_none {b : Nat} (h : findFreeBitInByte b = none) :
    ∀ j, j < 8 → byteTestBit b j = true := by
  intro j hj
  unfold findFreeBitInByte at h
  split_ifs at h with h0 h1 h2 h3 h4 h5 h6 h7
  all_goals try cases h
  interval_cases j <;> simp_all

theorem bitGet_cons (b : Nat) (rest : List Nat) (j : Nat) :
    bitGet (b :: rest) j = if j < 8 then byteTestBit b j else bitGet rest (j - 8) := by
  unfold bitGet
  rcases Nat.lt_or_ge j 8 with hj | hj
  · rw [if_pos hj, Nat.div_eq_of_lt hj, Nat.mod_eq_of_lt hj]
    rfl
  · rw [if_neg (Nat.not_lt.mpr hj)]
    have hdiv : j / 8 = (j - 8) / 8 + 1 := by omega
    have hmod : j % 8 = (j - 8) % 8 := by omega
    rw [hdiv, hmod]
    rfl

theorem bitGet_nil (j : Nat) : bitGet [] j = false := by
  unfold bitGet byteTestBit
  simp

theorem length_filter_ne {l : List Nat} {i : Nat} (hnd : l.Nodup) (hmem : i ∈ l) :
    (l.filter (fun k => ¬ k = i)).length + 1 = l.length := by
  induction l with
  | nil => cases hmem
  | cons a t ih =>
    rcases eq_or_ne a i with rfl | hne
    · have hnot : a ∉ t := (List.nodup_cons.mp hnd).1
      have hfil : t.filter (fun k => ¬ k = a) = t :=
        List.filter_eq_self.mpr (fun x hx => by
          simp only [decide_eq_true_eq]
          exact fun hxa => hnot (hxa ▸ hx))
      simp only [List.filter_cons, decide_eq_true_eq, not_true, List.length_cons]
      simp [hfil]
      exact fun x hx hxa => hnot (hxa ▸ hx)
    · have hmem' : i ∈ t := by
        rcases List.mem_cons.mp hmem with rfl | h
        · exact absurd rfl hne
        · exact h
      have := ih (List.nodup_cons.mp hnd).2 hmem'
      simp only [List.filter_cons, decide_eq_true_eq]
      rw [if_pos (by simpa using hne)]
      simp only [List.length_cons]
      omega

/-- Behaviour of one `allocate_bit` scan, stated for an arbitrary byte
region whose bytes are in `u8` range: on success the returned index is
the lowest clear bit, exactly that bit changes (by rewriting its single
byte), and the byte range is preserved; on failure every bit of the
region is set. -/
theorem allocateBit_spec (bm : List Nat) (hb : ∀ b ∈ bm, b < 256) :
    (match allocateBit bm with
     | some r =>
        bitGet bm r.1 = false ∧ (∀ j, j < r.1 → bitGet bm j = true) ∧
        r.2.length = bm.length ∧
        bitGet r.2 r.1 = true ∧ (∀ j, j ≠ r.1 → bitGet r.2 j = bitGet bm j) ∧
        (∀ b ∈ r.2, b < 256) ∧ freeCount bm = freeCount r.2 + 1 ∧
        r.1 < 8 * bm.length ∧
        r.2 = bm.set (r.1 / 8) (setBitInByte (bm.getD (r.1 / 8) 0) (r.1 % 8))
     | none => ∀ j, j < 8 * bm.length → bitGet bm j = true) := by
  induction bm with
  | nil => simp [allocateBit]
  | cons b rest ih =>
    have hbb : b < 256 := hb b (by simp)
    have hbr : ∀ x ∈ rest, x < 256 := fun x hx => hb x (by simp [hx])
    unfold allocateBit
    rcases hcase : (if b ≠ 255 then findFreeBitInByte b else none) with _ | i
    · -- byte 255 or (impossible for a u8) no free bit: recurse
      have hall : ∀ j, j < 8 → byteTestBit b j = true := by
        split_ifs at hcase with hne
        · exact findFreeBitInByte_none hcase
        · have hb255 : b = 255 := not_not.mp hne
          subst hb255
          intro j hj
          interval_cases j <;> decide
      specialize ih hbr
      rcases hrec : allocateBit rest with _ | ⟨i', rest'⟩
      · rw [hrec] at ih
        simp only
        intro j hj
        rw [bitGet_cons]
        split_ifs with hj8
        · exact hall j hj8
        · exact ih (j - 8) (by simp at hj ⊢; omega)
      · rw [hrec] at ih
        obtain ⟨h1, h2, hlen, h3, h4, h5, h6, h7, h8⟩ := ih
        simp only at h1 h2 hlen h3 h4 h5 h6 h7 h8 ⊢
        refine ⟨?_, ?_, by simp [hlen], ?_, ?_, ?_, ?_, by simp; omega, ?_⟩
        · rw [bitGet_cons]
          simp only [Nat.add_sub_cancel]
          rw [if_neg (by omega)]
          exact h1
        · intro j hj
          rw [bitGet_cons]
          split_ifs with hj8
          · exact hall j hj8
          · exact h2 (j - 8) (by omega)
        · rw [bitGet_cons]
          simp only [Nat.add_sub_cancel]
          rw [if_neg (by omega)]
          exact h3
        · intro j hj
          rw [bitGet_cons, bitGet_cons]
          split_ifs with hj8
          · rfl
          · exact h4 (j - 8) (by omega)
        · intro x hx
          simp at hx
          rcases hx with rfl | hx
          · exact hbb
          · exact h5 x hx
        · simp only [freeCount, List.map_cons, List.sum_cons] at h6 ⊢
          omega
        · have hdiv : (i' + 8) / 8 = i' / 8 + 1 := by omega
          have hmod : (i' + 8) % 8 = i' % 8 := by omega
          rw [hdiv, hmod]
          have hgd : (b :: rest).getD (i' / 8 + 1) 0 = rest.getD (i' / 8) 0 := rfl
          rw [hgd, List.set_cons_succ]
          rw [h8]
    · -- free bit i found in byte b
      have hfind : findFreeBitInByte b = some i := by
        rcases eq_or_ne b 255 with rfl | hne
        · rw [if_neg (by simp)] at hcase
          cases hcase
        · rwa [if_pos hne] at hcase
      obtain ⟨hi8, hclear, hlow⟩ := findFreeBitInByte_some hfind
      simp only
      refine ⟨?_, ?_, by simp, ?_, ?_, ?_, ?_, by simp; omega, ?_⟩
      · rw [bitGet_cons, if_pos hi8]
        exact hclear
      · intro j hj
        rw [bitGet_cons, if_pos (by omega)]
        exact hlow j hj
      · rw [bitGet_cons, if_pos hi8, byteTestBit_setBitInByte]
        simp
      · intro j hj
        rw [bitGet_cons, bitGet_cons]
        split_ifs with hj8
        · rw [byteTestBit_setBitInByte]
          simp [hj]
        · rfl
      · intro x hx
        simp at hx
        rcases hx with rfl | hx
        · exact setBitInByte_lt_256 hbb hi8
        · exact hbr x hx
      · simp only [freeCount, List.map_cons, List.sum_cons]
        have hmem : i ∈ (List.range 8).filter (fun k => ¬ byteTestBit b k) := by
          simp only [List.mem_filter, List.mem_range, decide_eq_true_eq]
          exact ⟨hi8, by simp [hclear]⟩
        have hfe : (List.range 8).filter (fun k => ¬ byteTestBit (setBitInByte b i) k) =
            ((List.range 8).filter (fun k => ¬ byteTestBit b k)).filter (fun k => ¬ k = i) := by
          rw [List.filter_filter]
          apply List.filter_congr
          intro k _
          rw [byteTestBit_setBitInByte]
          rcases hbk : byteTestBit b k <;> rcases eq_or_ne k i with rfl | hki <;> simp_all
        have hnd : ((List.range 8).filter (fun k => ¬ byteTestBit b k)).Nodup :=
          List.Nodup.filter _ (List.nodup_range 8)
        have := length_filter_ne hnd hmem
        rw [hfe]
        omega
      · rw [Nat.div_eq_of_lt hi8, Nat.mod_eq_of_lt hi8]
        rfl

theorem allocateBit_ne_none {bm : List Nat} {r : Nat × List Nat} (h : allocateBit bm = some r)
    (hb : ∀ b ∈ bm, b < 256) : bitGet bm r.1 = false := by
  have := allocateBit_spec bm hb
  rw [h] at this
  exact this.1

/-- Concrete one-byte-bitmap state used to witness allocator claims. -/
def wStateC5 : VfsState :=
  { inodeBitmap := [1], dataBitmap := [0], inodes := fun _ => zeroInode,
    blocks := fun _ _ => 0 }

/-- **C5**: `allocate_bit` returns the lowest clear bit index of the
region, sets exactly that bit by rewriting only its containing byte, and
fails with the exhaustion error exactly when every bit of the region is
set; and on a state whose inode-bitmap bit 0 is set (as `Vfs::create`
leaves it), `allocate_inode` never returns 0. -/
theorem claim_C5 (s : VfsState) (hbytes : ∀ b ∈ s.inodeBitmap, b < 256)
    (hroot : bitGet s.inodeBitmap 0 = true) :
    (∀ bm : List Nat, (∀ b ∈ bm, b < 256) → ∀ r, allocateBit bm = some r →
       bitGet bm r.1 = false ∧ (∀ j, j < r.1 → bitGet bm j = true) ∧
       r.2 = bm.set (r.1 / 8) (setBitInByte (bm.getD (r.1 / 8) 0) (r.1 % 8)) ∧
       bitGet r.2 r.1 = true ∧ (∀ j, j ≠ r.1 → bitGet r.2 j = bitGet bm j)) ∧
    (∀ bm : List Nat, (∀ b ∈ bm, b < 256) →
       (allocateBit bm = none ↔ ∀ j, j < 8 * bm.length → bitGet bm j = true)) ∧
    (∀ r, allocateInode s = .ok r → r.1 ≠ 0) := by
  refine ⟨?_, ?_, ?_⟩
  · intro bm hb r hr
    have := allocateBit_spec bm hb
    rw [hr] at this
    obtain ⟨h1, h2, _, h3, h4, _, _, _, h8⟩ := this
    exact ⟨h1, h2, h8, h3, h4⟩
  · intro bm hb
    constructor
    · intro hnone
      have := allocateBit_spec bm hb
      rw [hnone] at this
      exact this
    · intro hall
      rcases hr : allocateBit bm with _ | r
      · rfl
      · have := allocateBit_spec bm hb
        rw [hr] at this
        obtain ⟨h1, _, _, _, _, _, _, h7, _⟩ := this
        rw [hall r.1 h7] at h1
        cases h1
  · intro r hr
    unfold allocateInode at hr
    rcases halloc : allocateBit s.inodeBitmap with _ | p <;> rw [halloc] at hr
    · cases hr
    · injection hr with hr
      have h1 := allocateBit_ne_none halloc hbytes
      intro h0
      rw [← hr] at h0
      simp only at h0
      rw [h0] at h1
      rw [hroot] at h1
      cases h1

/-- Witness for C5 at the formatted one-byte inode bitmap `[1]`. -/
theorem claim_C5_witness :
    ((∀ b ∈ wStateC5.inodeBitmap, b < 256) ∧ bitGet wStateC5.inodeBitmap 0 = true) ∧
    (∀ r, allocateInode wStateC5 = .ok r → r.1 ≠ 0) :=
  ⟨⟨by decide, by decide⟩, (claim_C5 wStateC5 (by decide) (by decide)).2.2⟩

/-! ## C4: `FileTooLarge` exactly at logical block index ≥ 1034 -/

/-- **C8**: `seek` fails with `InvalidInput` exactly when the computed
final position (absolute, relative to the current position, or relative
to the size loaded from the inode at call time) is negative — and
`InvalidInput` is its only error; on success the stored position is the
computed one (so a seek past `size` is allowed).  The model's `fseek`
returns only a handle and never touches the state, which is the
source's behaviour of mutating `self.position` alone: on failure the
position, and always the inode's `size`, are untouched. -/
theorem claim_C8 (s : VfsState) (h : FileHandle) (pos : SeekFrom) :
    (fseek s h pos = .error .invalidInput ↔ seekNewPosition s h pos < 0) ∧
    (∀ e, fseek s h pos = .error e → e = .invalidInput) ∧
    (∀ h', fseek s h pos = .ok h' →
       0 ≤ seekNewPosition s h pos ∧
       h'.inode_id = h.inode_id ∧ (h'.position : Int) = seekNewPosition s h pos) := by
  unfold fseek
  by_cases hneg : seekNewPosition s h pos < 0
  · rw [if_pos hneg]
    refine ⟨Iff.intro (fun _ => hneg) (fun _ => rfl), fun e he => ?_,
      fun h' hh => Except.noConfusion hh⟩
    injection he with he
    exact he.symm
  · rw [if_neg hneg]
    refine ⟨Iff.intro (fun hc => Except.noConfusion hc) (fun hc => absurd hc hneg),
      fun e he => Except.noConfusion he, fun h' hh => ?_⟩
    injection hh with hh
    subst hh
    refine ⟨by omega, rfl, ?_⟩
    simp only
    omega

/-- Witness for C8: a relative seek to a negative position fails, an
absolute one succeeds. -/
theorem claim_C8_witness :
    (fseek wStateC5 { inode_id := 1, position := 3 } (.current (-7)) = .error .invalidInput ↔
       seekNewPosition wStateC5 { inode_id := 1, position := 3 } (.current (-7)) < 0) ∧
    (∀ h', fseek wStateC5 { inode_id := 1, position := 3 } (.current (-7)) = .ok h' →
       0 ≤ seekNewPosition wStateC5 { inode_id := 1, position := 3 } (.current (-7)) ∧
       h'.inode_id = 1 ∧ (h'.position : Int) =
         seekNewPosition wStateC5 { inode_id := 1, position := 3 } (.current (-7))) :=
  ⟨(claim_C8 wStateC5 { inode_id := 1, position := 3 } (.current (-7))).1,
   (claim_C8 wStateC5 { inode_id := 1, position := 3 } (.current (-7))).2.2⟩

/-! ## C7: read semantics -/

/-- Byte-level effect of `free_bit`: bit `idx` is cleared, every other
bit is untouched (for a `u8`-ranged region). -/
theorem bitGet_freeBit {bm : List Nat} (hb : ∀ b ∈ bm, b < 256) (idx j : Nat) :
    bitGet (freeBit bm idx) j = (bitGet bm j && ¬ j = idx) := by
  unfold freeBit bitGet
  by_cases hib : idx / 8 < bm.length
  · by_cases hjb : j / 8 = idx / 8
    · have hbyte : bm.getD (idx / 8) 0 < 256 := by
        have : bm.getD (idx / 8) 0 ∈ bm := by
          rw [List.getD_eq_getElem?_getD, List.getElem?_eq_getElem hib]
          exact List.getElem_mem _
        exact hb _ this
      rw [hjb]
      rw [List.getD_eq_getElem?_getD, List.getElem?_set_self hib]
      simp only [Option.getD_some]
      rw [byteTestBit_clearBitInByte hbyte (Nat.mod_lt _ (by norm_num))]
      rcases eq_or_ne j idx with rfl | hne
      · simp
      · have hmod : ¬ j % 8 = idx % 8 := fun hmm => hne (by omega)
        simp [hmod, hne]
    · rw [List.getD_eq_getElem?_getD, List.getElem?_set_ne (fun hh => hjb hh.symm),
        ← List.getD_eq_getElem?_getD]
      have : ¬ j = idx := fun hh => hjb (by rw [hh])
      simp [this]
  · rw [List.set_eq_of_length_le (Nat.le_of_not_lt hib)]
    rcases eq_or_ne j idx with rfl | hne
    · have hz : bm.getD (j / 8) 0 = 0 := by
        rw [List.getD_eq_getElem?_getD, List.getElem?_eq_none (Nat.le_of_not_lt hib)]
        rfl
      rw [hz]
      simp [byteTestBit]
    · simp [hne]

/-- The recovery fold leaves every region except the inode bitmap
untouched. -/
theorem recoverFold_others (ids : List Nat) (s : VfsState) :
    (ids.foldl recoverStep s).inodes = s.inodes ∧
    (ids.foldl recoverStep s).dataBitmap = s.dataBitmap ∧
    (ids.foldl recoverStep s).blocks = s.blocks ∧
    (ids.foldl recoverStep s).inodeBitmap.length = s.inodeBitmap.length := by
  induction ids generalizing s with
  | nil => exact ⟨rfl, rfl, rfl, rfl⟩
  | cons i rest ih =>
    have hstep : (recoverStep s i).inodes = s.inodes ∧
        (recoverStep s i).dataBitmap = s.dataBitmap ∧
        (recoverStep s i).blocks = s.blocks ∧
        (recoverStep s i).inodeBitmap.length = s.inodeBitmap.length := by
      unfold recoverStep
      split_ifs with hc
      · exact ⟨rfl, rfl, rfl, by simp [deallocateInode, freeBit]⟩
      · exact ⟨rfl, rfl, rfl, rfl⟩
    obtain ⟨h1, h2, h3, h4⟩ := ih (recoverStep s i)
    rw [List.foldl_cons]
    exact ⟨h1.trans hstep.1, h2.trans hstep.2.1, h3.trans hstep.2.2.1,
      h4.trans hstep.2.2.2⟩

/-- Bits whose index is not visited by the recovery fold keep their
value. -/
theorem recoverFold_bit_not_mem {ids : List Nat} {j : Nat} (hj : j ∉ ids)
    (s : VfsState) (hb : ∀ b ∈ s.inodeBitmap, b < 256) :
    bitGet (ids.foldl recoverStep s).inodeBitmap j = bitGet s.inodeBitmap j := by
  induction ids generalizing s with
  | nil => rfl
  | cons i rest ih =>
    have hji : j ≠ i := fun hh => hj (hh ▸ List.mem_cons_self i rest)
    have hstepbytes : ∀ b ∈ (recoverStep s i).inodeBitmap, b < 256 := by
      unfold recoverStep
      split_ifs with hc
      · intro b hbmem
        unfold deallocateInode freeBit at hbmem
        simp only at hbmem
        rcases List.mem_or_eq_of_mem_set hbmem with hmem | rfl
        · exact hb b hmem
        · unfold clearBitInByte
          have : ∀ x m : Nat, x &&& m ≤ x := fun x m => Nat.and_le_left
          calc s.inodeBitmap.getD (i / 8) 0 &&& (255 ^^^ (1 <<< (i % 8))) ≤
              s.inodeBitmap.getD (i / 8) 0 := Nat.and_le_left
            _ < 256 := by
              by_cases hlen : i / 8 < s.inodeBitmap.length
              · refine hb _ ?_
                rw [List.getD_eq_getElem?_getD, List.getElem?_eq_getElem hlen]
                exact List.getElem_mem _
              · rw [List.getD_eq_getElem?_getD,
                  List.getElem?_eq_none (Nat.le_of_not_lt hlen)]
                norm_num
      · exact hb
    rw [List.foldl_cons, ih (fun hh => hj (List.mem_cons_of_mem i hh)) _ hstepbytes]
    unfold recoverStep
    split_ifs with hc
    · unfold deallocateInode
      simp only
      rw [bitGet_freeBit hb i j]
      simp [hji]
    · rfl

/-- The byte range of the inode bitmap is preserved by the recovery
fold. -/
theorem recoverFold_bytes (ids : List Nat) (s : VfsState)
    (hb : ∀ b ∈ s.inodeBitmap, b < 256) :
    ∀ b ∈ (ids.foldl recoverStep s).inodeBitmap, b < 256 := by
  induction ids generalizing s with
  | nil => exact hb
  | cons i rest ih =>
    rw [List.foldl_cons]
    refine ih _ ?_
    unfold recoverStep
    split_ifs with hc
    · intro b hbmem
      unfold deallocateInode freeBit at hbmem
      simp only at hbmem
      rcases List.mem_or_eq_of_mem_set hbmem with hmem | rfl
      · exact hb b hmem
      · calc s.inodeBitmap.getD (i / 8) 0 &&& (255 ^^^ (1 <<< (i % 8))) ≤
            s.inodeBitmap.getD (i / 8) 0 := Nat.and_le_left
          _ < 256 := by
            by_cases hlen : i / 8 < s.inodeBitmap.length
            · refine hb _ ?_
              rw [List.getD_eq_getElem?_getD, List.getElem?_eq_getElem hlen]
              exact List.getElem_mem _
            · rw [List.getD_eq_getElem?_getD,
                List.getElem?_eq_none (Nat.le_of_not_lt hlen)]
              norm_num
    · exact hb

/-- Value of bit `j` after the recovery fold visits `j` exactly once:
cleared iff it was set with an invalid inode record. -/
theorem recoverFold_bit_mem {ids : List Nat} {j : Nat} (hmem : j ∈ ids)
    (hnd : ids.Nodup) (s : VfsState) (hb : ∀ b ∈ s.inodeBitmap, b < 256) :
    bitGet (ids.foldl recoverStep s).inodeBitmap j =
      (bitGet s.inodeBitmap j && ¬ (s.inodes j).is_valid = 0) := by
  induction ids generalizing s with
  | nil => cases hmem
  | cons i rest ih =>
    rw [List.foldl_cons]
    rcases eq_or_ne i j with rfl | hne
    · have hjrest : i ∉ rest := (List.nodup_cons.mp hnd).1
      have hstepbytes : ∀ b ∈ (recoverStep s i).inodeBitmap, b < 256 :=
        recoverFold_bytes [i] s hb
      rw [recoverFold_bit_not_mem hjrest _ hstepbytes]
      unfold recoverStep isInodeAllocated getInode
      split_ifs with hc
      · unfold deallocateInode
        simp only
        rw [bitGet_freeBit hb i i]
        simp [hc.2]
      · push_neg at hc
        rcases hbit : bitGet s.inodeBitmap i
        · simp
        · have hnv := hc hbit
          simp [hnv]
    · have hmem' : j ∈ rest := by
        rcases List.mem_cons.mp hmem with rfl | hh
        · exact absurd rfl hne
        · exact hh
      have hstepbytes : ∀ b ∈ (recoverStep s i).inodeBitmap, b < 256 :=
        recoverFold_bytes [i] s hb
      rw [ih hmem' (List.nodup_cons.mp hnd).2 _ hstepbytes]
      have hinodes : (recoverStep s i).inodes = s.inodes := (recoverFold_others [i] s).1
      rw [hinodes]
      unfold recoverStep
      split_ifs with hc
      · unfold deallocateInode
        simp only
        rw [bitGet_freeBit hb i j]
        simp [hne.symm]
      · rfl

/-- The slot scan of `find_in_dir` only returns an inode id whose
inode-bitmap bit is set. -/
theorem findSlots_ok_allocated {s : VfsState} {blk : Nat → Nat} {name : List Nat}
    {i remaining : Nat} {id : Nat}
    (h : findSlots s blk name i remaining = some (.ok id)) :
    isInodeAllocated s id = true := by
  induction remaining generalizing i with
  | zero => cases h
  | succ r ih =>
    unfold findSlots at h
    split_ifs at h with hmatch halloc
    · injection h with h
      injection h with h
      rw [← h]
      exact halloc
    · injection h with h
      exact Except.noConfusion h
    · exact ih h

/-- `find_in_dir` never returns a deallocated inode id. -/
theorem findInDir_ok_allocated {s : VfsState} {dir_id : Nat} {name : List Nat} {id : Nat}
    (h : findInDir s dir_id name = .ok id) : isInodeAllocated s id = true := by
  unfold findInDir at h
  generalize hfuel : 1034 = fuel at h
  generalize hstart : 0 = start at h
  clear hfuel hstart
  induction fuel generalizing start with
  | zero => cases h
  | succ f ih =>
    unfold findInDirBlocks at h
    rcases hjr : justRead s (getInode s dir_id) start with _ | phys <;> rw [hjr] at h
    · cases h
    · dsimp only at h
      rcases hslots : findSlots s (s.blocks phys) name 0 (BLOCK_SIZE / DIR_SIZE) with _ | r <;>
        rw [hslots] at h
      · exact ih _ h
      · dsimp only at h
        subst h
        exact findSlots_ok_allocated hslots

/-- The slot scan fails (with `NotFound`) exactly on the matched entry
when its target inode bit is clear. -/
theorem findSlots_corrupted {s : VfsState} {blk : Nat → Nat} {name : List Nat}
    {i remaining : Nat}
    (hmatch : entryIsActive blk i = 1 ∧ decodeName (entryNameBytes blk i) = name)
    (hdead : isInodeAllocated s (entryInodeId blk i) = false) (hlt : i < remaining) :
    ∀ i0, i0 ≤ i → (∀ i', i0 ≤ i' → i' < i →
        ¬ (entryIsActive blk i' = 1 ∧ decodeName (entryNameBytes blk i') = name)) →
      findSlots s blk name i0 (remaining - i0) = some (.error .notFound) := by
  suffices H : ∀ d i0, i0 ≤ i → i - i0 = d →
      (∀ i', i0 ≤ i' → i' < i →
        ¬ (entryIsActive blk i' = 1 ∧ decodeName (entryNameBytes blk i') = name)) →
      findSlots s blk name i0 (remaining - i0) = some (.error .notFound) by
    intro i0 hi0 hprior
    exact H (i - i0) i0 hi0 rfl hprior
  intro d
  induction d with
  | zero =>
    intro i0 hi0 hd hprior
    have hii : i0 = i := by omega
    subst hii
    rcases hrem : remaining - i0 with _ | r
    · omega
    · unfold findSlots
      rw [if_pos hmatch]
      rw [if_neg (by simp [hdead])]
  | succ d ihd =>
    intro i0 hi0 hd hprior
    rcases hrem : remaining - i0 with _ | r
    · omega
    · unfold findSlots
      rw [if_neg (hprior i0 (le_refl _) (by omega))]
      have hr : r = remaining - (i0 + 1) := by omega
      rw [hr]
      exact ihd (i0 + 1) (by omega) (by omega) (fun i' h1 h2 => hprior i' (by omega) h2)

/-- **C2**: after `open`'s recovery pass, for every inode index `i` in
`[1, max_inodes)` (with `max_inodes` = 8 × the inode-bitmap byte length),
bit `i` is cleared exactly when it was set with `is_valid == 0`; bit 0,
out-of-range bits, every inode record, the data bitmap and all data
blocks are unchanged; and a directory lookup can only return an
inode id whose bitmap bit is set — in particular the slot scan fails
with `NotFound` on a live matching entry whose target bit is clear. -/
theorem claim_C2 (s : VfsState) (hb : ∀ b ∈ s.inodeBitmap, b < 256) :
    (∀ i, 1 ≤ i → i < 8 * s.inodeBitmap.length →
       bitGet (recoverCorruptedInodes s).inodeBitmap i =
         (bitGet s.inodeBitmap i && ¬ (s.inodes i).is_valid = 0)) ∧
    (bitGet (recoverCorruptedInodes s).inodeBitmap 0 = bitGet s.inodeBitmap 0) ∧
    (∀ i, 8 * s.inodeBitmap.length ≤ i →
       bitGet (recoverCorruptedInodes s).inodeBitmap i = bitGet s.inodeBitmap i) ∧
    (recoverCorruptedInodes s).inodes = s.inodes ∧
    (recoverCorruptedInodes s).dataBitmap = s.dataBitmap ∧
    (recoverCorruptedInodes s).blocks = s.blocks ∧
    (∀ s' : VfsState, ∀ dir_id name id, findInDir s' dir_id name = .ok id →
       isInodeAllocated s' id = true) ∧
    (∀ s' : VfsState, ∀ blk name i remaining,
       entryIsActive blk i = 1 → decodeName (entryNameBytes blk i) = name →
       isInodeAllocated s' (entryInodeId blk i) = false → i < remaining →
       (∀ i', i' < i → ¬ (entryIsActive blk i' = 1 ∧
          decodeName (entryNameBytes blk i') = name)) →
       findSlots s' blk name 0 remaining = some (.error .notFound)) := by
  have hnd : (List.range' 1 (s.inodeBitmap.length * 8 - 1)).Nodup := List.nodup_range' _ _
  refine ⟨?_, ?_, ?_, (recoverFold_others _ s).1, (recoverFold_others _ s).2.1,
    (recoverFold_others _ s).2.2.1, fun s' => fun _ _ _ hh => findInDir_ok_allocated hh, ?_⟩
  · intro i h1 h2
    unfold recoverCorruptedInodes
    have hmem : i ∈ List.range' 1 (s.inodeBitmap.length * 8 - 1) := by
      rw [List.mem_range']
      exact ⟨i - 1, by omega, by omega⟩
    exact recoverFold_bit_mem hmem hnd s hb
  · unfold recoverCorruptedInodes
    have h0 : 0 ∉ List.range' 1 (s.inodeBitmap.length * 8 - 1) := by
      intro hmm
      rw [List.mem_range'] at hmm
      obtain ⟨k, hk, hk2⟩ := hmm
      omega
    exact recoverFold_bit_not_mem h0 s hb
  · intro i hi
    unfold recoverCorruptedInodes
    have h0 : i ∉ List.range' 1 (s.inodeBitmap.length * 8 - 1) := by
      intro hmm
      rw [List.mem_range'] at hmm
      obtain ⟨k, hk, hk2⟩ := hmm
      omega
    exact recoverFold_bit_not_mem h0 s hb
  · intro s' blk name i remaining hact hname hdead hlt hprior
    have := @findSlots_corrupted s' blk name i remaining ⟨hact, hname⟩ hdead hlt 0
      (Nat.zero_le _) (fun i' _ h2 => hprior i' h2)
    simpa using this

/-- Concrete recovery witness: bits 0,1,2 set, inode 1 invalid (left
in-flight by a crash), inode 2 valid. -/
def wStateC2 : VfsState :=
  { inodeBitmap := [7], dataBitmap := [0],
    inodes := Function.update (fun _ => zeroInode) 2 (freshInode 0 5),
    blocks := fun _ _ => 0 }

/-- Witness for C2: recovery on `wStateC2` clears bit 1, keeps bits 0
and 2. -/
theorem claim_C2_witness :
    (∀ b ∈ wStateC2.inodeBitmap, b < 256) ∧
    bitGet (recoverCorruptedInodes wStateC2).inodeBitmap 1 =
      (bitGet wStateC2.inodeBitmap 1 && ¬ (wStateC2.inodes 1).is_valid = 0) ∧
    bitGet (recoverCorruptedInodes wStateC2).inodeBitmap 2 =
      (bitGet wStateC2.inodeBitmap 2 && ¬ (wStateC2.inodes 2).is_valid = 0) ∧
    bitGet (recoverCorruptedInodes wStateC2).inodeBitmap 0 = bitGet wStateC2.inodeBitmap 0 :=
  ⟨by decide, (claim_C2 wStateC2 (by decide)).1 1 (by decide) (by decide),
   (claim_C2 wStateC2 (by decide)).1 2 (by decide) (by decide),
   (claim_C2 wStateC2 (by decide)).2.1⟩

/-! ## C10: silent 32-byte name truncation -/

/-- Equality of library results is decidable (used by concrete
witnesses). -/
instance : DecidableEq (Except VfsError Nat) := fun a b =>
  match a, b with
  | .error x, .error y =>
    if h : x = y then isTrue (by rw [h]) else isFalse (fun hh => h (Except.error.inj hh))
  | .ok x, .ok y =>
    if h : x = y then isTrue (by rw [h]) else isFalse (fun hh => h (Except.ok.inj hh))
  | .error _, .ok _ => isFalse (fun hh => Except.noConfusion hh)
  | .ok _, .error _ => isFalse (fun hh => Except.noConfusion hh)

/-- The 40 stored bytes of the root's `..` entry (inode 0, active). -/
def dotdotBytes : List Nat :=
  [0, 0, 0, 0, 46, 46, 0, 0, 0, 0, 0, 0, 0, 0, 0, 0, 0, 0, 0, 0,
   0, 0, 0, 0, 0, 0, 0, 0, 0, 0, 0, 0, 0, 0, 0, 0, 1, 0, 0, 0]

/-- A small freshly formatted image: root directory (inode 0) whose data
block 1 holds a single `..` entry, data blocks 0 and 1 allocated, 130
data-bitmap bytes (≥ 1035 free data blocks). -/
def baseDir : VfsState :=
  { inodeBitmap := [1], dataBitmap := 3 :: List.replicate 129 0,
    inodes := Function.update (fun _ => zeroInode) 0
      { inode_type := 1, is_valid := 1, size := 40, created_at := 0, modified_at := 0,
        direct_blocks := [1, 0, 0, 0, 0, 0, 0, 0, 0, 0], indirect_blocks := 0 },
    blocks := fun b o => if b = 1 then dotdotBytes.getD o 0 else 0 }

/-- Extract the state of a successful `create_file` (the fallback is never
reached in the witnesses). -/
def orDefaultF (r : Except VfsError (VfsState × FileHandle)) : VfsState :=
  match r with
  | .ok p => p.1
  | .error _ =>
    { inodeBitmap := [], dataBitmap := [], inodes := fun _ => zeroInode, blocks := fun _ _ => 0 }

/-- `baseDir` after `create_file` with the 33-byte ASCII name `a…a`. -/
def stLong : VfsState := orDefaultF (createFile baseDir (List.replicate 33 97) 1)

/-- `baseDir` after `create_file` with the 33-byte name whose 32nd byte is
NUL (31 `a`s, NUL, `b`). -/
def stNul : VfsState := orDefaultF (createFile baseDir (List.replicate 31 97 ++ [0, 98]) 1)

theorem dropLeadingNul_length_le (l : List Nat) : (dropLeadingNul l).length ≤ l.length := by
  induction l with
  | nil => simp [dropLeadingNul]
  | cons a t ih =>
    cases a with
    | zero =>
      have : dropLeadingNul (0 :: t) = dropLeadingNul t := rfl
      rw [this]
      exact le_trans ih (by simp)
    | succ n => simp [dropLeadingNul]

theorem trimNul_length_le (l : List Nat) : (trimNul l).length ≤ l.length := by
  unfold trimNul
  rw [List.length_reverse]
  calc (dropLeadingNul (dropLeadingNul l).reverse).length
      ≤ (dropLeadingNul l).reverse.length := dropLeadingNul_length_le _
    _ = (dropLeadingNul l).length := List.length_reverse _
    _ ≤ l.length := dropLeadingNul_length_le l

theorem decodeName_length_le (l : List Nat) : (decodeName l).length ≤ l.length := by
  unfold decodeName
  split_ifs with hv
  · exact trimNul_length_le l
  · simp

theorem entryNameBytes_length (blk : Nat → Nat) (i : Nat) :
    (entryNameBytes blk i).length = 32 := by
  unfold entryNameBytes MAX_NAME_LEN
  rw [List.length_map, List.length_range]

/-- No directory entry can match a name longer than 32 bytes. -/
theorem findSlots_long_none {s : VfsState} {blk : Nat → Nat} {name : List Nat}
    (hlong : 32 < name.length) :
    ∀ i r, findSlots s blk name i r = none := by
  intro i r
  induction r generalizing i with
  | zero => rfl
  | succ r ih =>
    unfold findSlots
    rw [if_neg]
    · exact ih (i + 1)
    · rintro ⟨_, hname⟩
      have h1 := decodeName_length_le (entryNameBytes blk i)
      rw [entryNameBytes_length] at h1
      rw [hname] at h1
      omega

/-- **Lookup with a > 32-byte name always fails with `NotFound`.** -/
theorem findInDir_long_notFound (s : VfsState) (dir_id : Nat) {name : List Nat}
    (hlong : 32 < name.length) : findInDir s dir_id name = .error .notFound := by
  unfold findInDir
  generalize 0 = start
  generalize 1034 = fuel
  induction fuel generalizing start with
  | zero => rfl
  | succ f ih =>
    unfold findInDirBlocks
    rcases hjr : justRead s (getInode s dir_id) start with _ | phys
    · rfl
    · dsimp only
      rw [findSlots_long_none hlong]
      exact ih (start + 1)

/-- Truncation of the written entry: the encoded entry depends only on
the first 32 name bytes. -/
theorem entryBytesFor_truncate {name : List Nat} (hlen : 32 ≤ name.length) (child_id : Nat) :
    entryBytesFor name child_id = entryBytesFor (name.take 32) child_id := by
  unfold entryBytesFor MAX_NAME_LEN
  have h1 : (name.take 32).take 32 = name.take 32 := by
    rw [List.take_take]
    norm_num
  have h2 : (name.take 32).length ⊓ 32 = name.length ⊓ 32 := by
    rw [List.length_take]
    omega
  rw [h1, h2]

/-- `add_entry_to_parent` silently truncates: inserting a long name is
the same operation as inserting its 32-byte prefix. -/
theorem addEntryToParent_truncate (s : VfsState) (parent_id : Nat) {name : List Nat}
    (hlen : 32 ≤ name.length) (child_id now : Nat) :
    addEntryToParent s parent_id name child_id now =
      addEntryToParent s parent_id (name.take 32) child_id now := by
  unfold addEntryToParent
  rw [entryBytesFor_truncate hlen]

/-- Counterexample to C10 as stated: creating a 33-byte name whose 32nd
byte is NUL succeeds, but the subsequent lookup with the exact 32-byte
prefix fails with `NotFound` (the stored name is compared after trimming
NUL bytes from both ends), even though the lookup with the NUL-trimmed
prefix returns the new inode. -/
theorem claim_C10_counterexample :
    (createFile baseDir (List.replicate 31 97 ++ [0, 98]) 1).isOk = true ∧
    findInDir stNul 0 ((List.replicate 31 97 ++ [0, 98]).take 32) = .error .notFound ∧
    findInDir stNul 0 (List.replicate 31 97) = .ok 1 := by
  refine ⟨rfl, by decide, by decide⟩

/-- **C10 (amended)**: names longer than 32 bytes are silently truncated
to their first 32 bytes on insertion (no error is returned: the insertion
is literally the insertion of the prefix), and a lookup with the original
untruncated name always fails with `NotFound`.  A lookup with the 32-byte
prefix succeeds when the stored prefix decodes to itself — e.g. the
33-byte ASCII name `a…a` on `baseDir` — but not in general (see the
counterexample: a prefix ending in a NUL byte is not found). -/
theorem claim_C10 :
    (∀ s : VfsState, ∀ parent_id : Nat, ∀ name : List Nat, ∀ child_id now : Nat,
       32 ≤ name.length →
       addEntryToParent s parent_id name child_id now =
         addEntryToParent s parent_id (name.take 32) child_id now) ∧
    (∀ s : VfsState, ∀ dir_id : Nat, ∀ name : List Nat, 32 < name.length →
       findInDir s dir_id name = .error .notFound) ∧
    (createFile baseDir (List.replicate 33 97) 1).isOk = true ∧
    findInDir stLong 0 (List.replicate 33 97) = .error .notFound ∧
    findInDir stLong 0 (List.replicate 32 97) = .ok 1 := by
  refine ⟨fun s p name c now hlen => addEntryToParent_truncate s p hlen c now,
    fun s d name hlong => findInDir_long_notFound s d hlong, rfl,
    findInDir_long_notFound stLong 0 (by simp), by decide⟩

/-- Witness for C10's hypotheses at the 33-byte ASCII name. -/
theorem claim_C10_witness :
    (32 ≤ (List.replicate 33 97 : List Nat).length ∧
     32 < (List.replicate 33 97 : List Nat).length) ∧
    addEntryToParent baseDir 0 (List.replicate 33 97) 1 1 =
      addEntryToParent baseDir 0 ((List.replicate 33 97).take 32) 1 1 ∧
    findInDir baseDir 0 (List.replicate 33 97) = .error .notFound :=
  ⟨⟨by decide, by decide⟩,
   claim_C10.1 baseDir 0 (List.replicate 33 97) 1 1 (by decide),
   claim_C10.2.1 baseDir 0 (List.replicate 33 97) (by decide)⟩

/-! ## C9: `remove` releases blocks, the inode bit, and tombstones the
parent entry -/

/-- `free_bit` keeps bitmap bytes in `u8` range. -/
theorem freeBit_bytes {bm : List Nat} (hb : ∀ b ∈ bm, b < 256) (i : Nat) :
    ∀ b ∈ freeBit bm i, b < 256 := by
  intro b hbmem
  unfold freeBit at hbmem
  rcases List.mem_or_eq_of_mem_set hbmem with hmem | rfl
  · exact hb b hmem
  · calc bm.getD (i / 8) 0 &&& (255 ^^^ (1 <<< (i % 8))) ≤ bm.getD (i / 8) 0 :=
      Nat.and_le_left
    _ < 256 := by
      by_cases hlen : i / 8 < bm.length
      · refine hb _ ?_
        rw [List.getD_eq_getElem?_getD, List.getElem?_eq_getElem hlen]
        exact List.getElem_mem _
      · rw [List.getD_eq_getElem?_getD, List.getElem?_eq_none (Nat.le_of_not_lt hlen)]
        norm_num

/-- The conditional-release folds of `Vfs::remove`: every visited non-zero
id has its data-bitmap bit cleared, nothing else changes.  `g` reads the
released id from the fold state; only its `blocks` component is ever
consulted (hypothesis `hg`). -/
theorem foldFree_effects (L : List Nat) (g : VfsState → Nat → Nat)
    (hg : ∀ s₁ s₂ : VfsState, s₁.blocks = s₂.blocks → ∀ i, g s₁ i = g s₂ i)
    (s : VfsState) :
    (L.foldl (fun s i => if g s i ≠ 0 then
        { s with dataBitmap := freeBit s.dataBitmap (g s i) } else s) s).inodes = s.inodes ∧
    (L.foldl (fun s i => if g s i ≠ 0 then
        { s with dataBitmap := freeBit s.dataBitmap (g s i) } else s) s).blocks = s.blocks ∧
    (L.foldl (fun s i => if g s i ≠ 0 then
        { s with dataBitmap := freeBit s.dataBitmap (g s i) } else s) s).inodeBitmap =
      s.inodeBitmap ∧
    ((∀ b ∈ s.dataBitmap, b < 256) →
      (∀ b ∈ (L.foldl (fun s i => if g s i ≠ 0 then
          { s with dataBitmap := freeBit s.dataBitmap (g s i) } else s) s).dataBitmap, b < 256) ∧
      ∀ x, bitGet (L.foldl (fun s i => if g s i ≠ 0 then
          { s with dataBitmap := freeBit s.dataBitmap (g s i) } else s) s).dataBitmap x =
        (bitGet s.dataBitmap x && decide (¬ ∃ i ∈ L, g s i = x ∧ g s i ≠ 0))) := by
  induction L generalizing s with
  | nil =>
    refine ⟨rfl, rfl, rfl, fun hb => ⟨hb, fun x => ?_⟩⟩
    simp
  | cons i t ih =>
    rw [List.foldl_cons]
    set s₁ := (if g s i ≠ 0 then { s with dataBitmap := freeBit s.dataBitmap (g s i) } else s)
      with hs₁
    have hblocks₁ : s₁.blocks = s.blocks := by
      rw [hs₁]
      split_ifs <;> rfl
    have hgs : ∀ j, g s₁ j = g s j := hg s₁ s hblocks₁
    have hfold : t.foldl (fun s i => if g s i ≠ 0 then
        { s with dataBitmap := freeBit s.dataBitmap (g s i) } else s) s₁ =
        t.foldl (fun s' i => if g s' i ≠ 0 then
        { s' with dataBitmap := freeBit s'.dataBitmap (g s' i) } else s') s₁ := rfl
    obtain ⟨h1, h2, h3, h4⟩ := ih s₁
    refine ⟨?_, ?_, ?_, fun hb => ?_⟩
    · rw [h1, hs₁]
      split_ifs <;> rfl
    · rw [h2, hblocks₁]
    · rw [h3, hs₁]
      split_ifs <;> rfl
    · have hb₁ : ∀ b ∈ s₁.dataBitmap, b < 256 := by
        rw [hs₁]
        split_ifs
        · exact freeBit_bytes hb _
        · exact hb
      obtain ⟨hb₂, hbit⟩ := h4 hb₁
      refine ⟨hb₂, fun x => ?_⟩
      rw [hbit x]
      have hstep : bitGet s₁.dataBitmap x =
          (bitGet s.dataBitmap x && decide (¬ (g s i = x ∧ g s i ≠ 0))) := by
        rw [hs₁]
        split_ifs with hgi
        · rw [bitGet_freeBit hb (g s i) x]
          rcases eq_or_ne x (g s i) with rfl | hne
          · simp [hgi]
          · have hne' : ¬ g s i = x := fun hh => hne hh.symm
            simp [hne, hne']
        · push_neg at hgi
          simp [hgi]
      rw [hstep]
      have hiff : (∃ j ∈ t, g s₁ j = x ∧ g s₁ j ≠ 0) ↔ (∃ j ∈ t, g s j = x ∧ g s j ≠ 0) := by
        constructor
        · rintro ⟨j, hj, hjx, hjnz⟩
          exact ⟨j, hj, by rw [← hgs j]; exact hjx, by rw [← hgs j]; exact hjnz⟩
        · rintro ⟨j, hj, hjx, hjnz⟩
          exact ⟨j, hj, by rw [hgs j]; exact hjx, by rw [hgs j]; exact hjnz⟩
      have hcons : (∃ j ∈ (i :: t), g s j = x ∧ g s j ≠ 0) ↔
          ((g s i = x ∧ g s i ≠ 0) ∨ ∃ j ∈ t, g s j = x ∧ g s j ≠ 0) := by
        simp only [List.mem_cons]
        constructor
        · rintro ⟨j, (rfl | hj), hx⟩
          · exact Or.inl hx
          · exact Or.inr ⟨j, hj, hx⟩
        · rintro (hx | ⟨j, hj, hx⟩)
          · exact ⟨i, Or.inl rfl, hx⟩
          · exact ⟨j, Or.inr hj, hx⟩
      have hd2 : decide (¬ ∃ j ∈ t, g s₁ j = x ∧ g s₁ j ≠ 0) =
          decide (¬ ∃ j ∈ t, g s j = x ∧ g s j ≠ 0) :=
        decide_eq_decide.mpr (not_congr hiff)
      rw [hd2]
      have hdc : decide (¬ ∃ j ∈ (i :: t), g s j = x ∧ g s j ≠ 0) =
          decide (¬ ((g s i = x ∧ g s i ≠ 0) ∨ ∃ j ∈ t, g s j = x ∧ g s j ≠ 0)) :=
        decide_eq_decide.mpr (not_congr hcons)
      rw [hdc]
      by_cases hA : (g s i = x ∧ g s i ≠ 0) <;>
        by_cases hB : (∃ j ∈ t, g s j = x ∧ g s j ≠ 0) <;>
          simp [hA, hB]

/-- Little-endian `u32` byte roundtrip: re-encoding a decoded 4-byte
value reproduces the bytes. -/
theorem u32leByte_roundtrip {b0 b1 b2 b3 : Nat} (h0 : b0 < 256) (h1 : b1 < 256)
    (h2 : b2 < 256) (h3 : b3 < 256) :
    u32leByte (b0 + 256 * b1 + 65536 * b2 + 16777216 * b3) 0 = b0 ∧
    u32leByte (b0 + 256 * b1 + 65536 * b2 + 16777216 * b3) 1 = b1 ∧
    u32leByte (b0 + 256 * b1 + 65536 * b2 + 16777216 * b3) 2 = b2 ∧
    u32leByte (b0 + 256 * b1 + 65536 * b2 + 16777216 * b3) 3 = b3 := by
  unfold u32leByte
  norm_num
  omega

theorem removeFreeDirect_effects (inode : Inode) (s : VfsState) :
    (removeFreeDirect inode s).inodes = s.inodes ∧
    (removeFreeDirect inode s).blocks = s.blocks ∧
    (removeFreeDirect inode s).inodeBitmap = s.inodeBitmap ∧
    ((∀ b ∈ s.dataBitmap, b < 256) →
      (∀ b ∈ (removeFreeDirect inode s).dataBitmap, b < 256) ∧
      (∀ x, (∃ i ∈ List.range 10,
          inode.direct_blocks.getD i 0 = x ∧ inode.direct_blocks.getD i 0 ≠ 0) →
        bitGet (removeFreeDirect inode s).dataBitmap x = false) ∧
      (∀ x, ¬ (∃ i ∈ List.range 10,
          inode.direct_blocks.getD i 0 = x ∧ inode.direct_blocks.getD i 0 ≠ 0) →
        bitGet (removeFreeDirect inode s).dataBitmap x = bitGet s.dataBitmap x)) := by
  unfold removeFreeDirect
  obtain ⟨h1, h2, h3, h4⟩ := foldFree_effects (List.range 10)
    (fun _ i => inode.direct_blocks.getD i 0) (fun _ _ _ _ => rfl) s
  refine ⟨h1, h2, h3, fun hb => ?_⟩
  obtain ⟨hb', hbit⟩ := h4 hb
  refine ⟨hb', fun x hP => ?_, fun x hP => ?_⟩
  · rw [hbit x, decide_eq_false_iff_not.mpr (not_not_intro hP), Bool.and_false]
  · rw [hbit x, decide_eq_true hP, Bool.and_true]

theorem freeIndirectPtrs_effects (inode : Inode) (s : VfsState) :
    (freeIndirectPtrs inode s).inodes = s.inodes ∧
    (freeIndirectPtrs inode s).blocks = s.blocks ∧
    (freeIndirectPtrs inode s).inodeBitmap = s.inodeBitmap ∧
    ((∀ b ∈ s.dataBitmap, b < 256) →
      (∀ b ∈ (freeIndirectPtrs inode s).dataBitmap, b < 256) ∧
      (∀ x, (∃ k ∈ List.range POINTERS_PER_BLOCK,
          u32leGet (s.blocks inode.indirect_blocks) (k * 4) = x ∧
          u32leGet (s.blocks inode.indirect_blocks) (k * 4) ≠ 0) →
        bitGet (freeIndirectPtrs inode s).dataBitmap x = false) ∧
      (∀ x, ¬ (∃ k ∈ List.range POINTERS_PER_BLOCK,
          u32leGet (s.blocks inode.indirect_blocks) (k * 4) = x ∧
          u32leGet (s.blocks inode.indirect_blocks) (k * 4) ≠ 0) →
        bitGet (freeIndirectPtrs inode s).dataBitmap x = bitGet s.dataBitmap x)) := by
  have hg : ∀ s₁ s₂ : VfsState, s₁.blocks = s₂.blocks → ∀ k,
      u32leGet (s₁.blocks inode.indirect_blocks) (k * 4) =
      u32leGet (s₂.blocks inode.indirect_blocks) (k * 4) := by
    intro s₁ s₂ hbb k
    rw [hbb]
  unfold freeIndirectPtrs
  obtain ⟨h1, h2, h3, h4⟩ := foldFree_effects (List.range POINTERS_PER_BLOCK)
    (fun s' k => u32leGet (s'.blocks inode.indirect_blocks) (k * 4)) hg s
  refine ⟨h1, h2, h3, fun hb => ?_⟩
  obtain ⟨hb', hbit⟩ := h4 hb
  refine ⟨hb', fun x hP => ?_, fun x hP => ?_⟩
  · rw [hbit x, decide_eq_false_iff_not.mpr (not_not_intro hP), Bool.and_false]
  · rw [hbit x, decide_eq_true hP, Bool.and_true]

theorem update_dataBitmap_inodes (X : VfsState) (e : List Nat) :
    ({ X with dataBitmap := e }).inodes = X.inodes := rfl

theorem update_dataBitmap_blocks (X : VfsState) (e : List Nat) :
    ({ X with dataBitmap := e }).blocks = X.blocks := rfl

theorem update_dataBitmap_inodeBitmap (X : VfsState) (e : List Nat) :
    ({ X with dataBitmap := e }).inodeBitmap = X.inodeBitmap := rfl

theorem update_dataBitmap_dataBitmap (X : VfsState) (e : List Nat) :
    ({ X with dataBitmap := e }).dataBitmap = e := rfl

theorem update_inodeBitmap_inodes (X : VfsState) (e : List Nat) :
    ({ X with inodeBitmap := e }).inodes = X.inodes := rfl

theorem update_inodeBitmap_blocks (X : VfsState) (e : List Nat) :
    ({ X with inodeBitmap := e }).blocks = X.blocks := rfl

theorem update_inodeBitmap_dataBitmap (X : VfsState) (e : List Nat) :
    ({ X with inodeBitmap := e }).dataBitmap = X.dataBitmap := rfl

theorem update_inodeBitmap_inodeBitmap (X : VfsState) (e : List Nat) :
    ({ X with inodeBitmap := e }).inodeBitmap = e := rfl

theorem update_blocks_inodes (X : VfsState) (e : Nat → Nat → Nat) :
    ({ X with blocks := e }).inodes = X.inodes := rfl

theorem update_blocks_dataBitmap (X : VfsState) (e : Nat → Nat → Nat) :
    ({ X with blocks := e }).dataBitmap = X.dataBitmap := rfl

theorem update_blocks_inodeBitmap (X : VfsState) (e : Nat → Nat → Nat) :
    ({ X with blocks := e }).inodeBitmap = X.inodeBitmap := rfl

theorem update_blocks_blocks (X : VfsState) (e : Nat → Nat → Nat) :
    ({ X with blocks := e }).blocks = e := rfl

theorem justRead_congr {s₁ s₂ : VfsState} (h : s₁.blocks = s₂.blocks)
    (inode : Inode) (bi : Nat) : justRead s₁ inode bi = justRead s₂ inode bi := by
  unfold justRead
  rw [h]

section

attribute [local irreducible] freeIndirectPtrs

theorem removeFreeIndirect_effects (inode : Inode) (s : VfsState) :
    (removeFreeIndirect inode s).inodes = s.inodes ∧
    (removeFreeIndirect inode s).blocks = s.blocks ∧
    (removeFreeIndirect inode s).inodeBitmap = s.inodeBitmap ∧
    ((∀ b ∈ s.dataBitmap, b < 256) →
      (∀ b ∈ (removeFreeIndirect inode s).dataBitmap, b < 256) ∧
      (∀ x, (inode.indirect_blocks ≠ 0 ∧ (x = inode.indirect_blocks ∨
          ∃ k ∈ List.range POINTERS_PER_BLOCK,
            u32leGet (s.blocks inode.indirect_blocks) (k * 4) = x ∧
            u32leGet (s.blocks inode.indirect_blocks) (k * 4) ≠ 0)) →
        bitGet (removeFreeIndirect inode s).dataBitmap x = false) ∧
      (∀ x, ¬ (inode.indirect_blocks ≠ 0 ∧ (x = inode.indirect_blocks ∨
          ∃ k ∈ List.range POINTERS_PER_BLOCK,
            u32leGet (s.blocks inode.indirect_blocks) (k * 4) = x ∧
            u32leGet (s.blocks inode.indirect_blocks) (k * 4) ≠ 0)) →
        bitGet (removeFreeIndirect inode s).dataBitmap x = bitGet s.dataBitmap x)) := by
  obtain ⟨h1, h2, h3, h4⟩ := freeIndirectPtrs_effects inode s
  by_cases hz : inode.indirect_blocks ≠ 0
  · have heq : removeFreeIndirect inode s = { freeIndirectPtrs inode s with
        dataBitmap := freeBit (freeIndirectPtrs inode s).dataBitmap inode.indirect_blocks } := by
      unfold removeFreeIndirect
      rw [if_pos hz]
    rw [heq, update_dataBitmap_inodes, update_dataBitmap_blocks,
      update_dataBitmap_inodeBitmap, update_dataBitmap_dataBitmap]
    refine ⟨h1, h2, h3, fun hb => ?_⟩
    obtain ⟨hb', hrem, hkeep⟩ := h4 hb
    have hfb : ∀ b ∈ freeBit (freeIndirectPtrs inode s).dataBitmap inode.indirect_blocks,
        b < 256 := freeBit_bytes hb' inode.indirect_blocks
    refine ⟨hfb, fun x hP => ?_, fun x hP => ?_⟩
    · rw [bitGet_freeBit hb' inode.indirect_blocks x]
      rcases hP.2 with hxi | hex
      · rw [decide_eq_false_iff_not.mpr (not_not_intro hxi), Bool.and_false]
      · rw [hrem x hex, Bool.false_and]
    · have hxi : ¬ x = inode.indirect_blocks := fun h => hP ⟨hz, Or.inl h⟩
      have hex : ¬ ∃ k ∈ List.range POINTERS_PER_BLOCK,
          u32leGet (s.blocks inode.indirect_blocks) (k * 4) = x ∧
          u32leGet (s.blocks inode.indirect_blocks) (k * 4) ≠ 0 :=
        fun h => hP ⟨hz, Or.inr h⟩
      rw [bitGet_freeBit hb' inode.indirect_blocks x, hkeep x hex,
        decide_eq_true hxi, Bool.and_true]
  · have heq : removeFreeIndirect inode s = s := by
      unfold removeFreeIndirect
      rw [if_neg hz]
    rw [heq]
    exact ⟨rfl, rfl, rfl, fun hb => ⟨hb, fun x hP => absurd hP.1 hz, fun x hP => rfl⟩⟩

end

theorem findActiveSlot_some {blk : Nat → Nat} {name : List Nat} {i r slot : Nat}
    (h : findActiveSlot blk name i r = some slot) :
    entryIsActive blk slot = 1 ∧ decodeName (entryNameBytes blk slot) = name := by
  induction r generalizing i with
  | zero => cases h
  | succ r ih =>
    unfold findActiveSlot at h
    split_ifs at h with hc
    · injection h with h
      subst h
      exact hc
    · exact ih h

/-- Successful `set_entry_active_status`: the first live matching entry of
the scan is rewritten in place with the new `is_active` value, and nothing
else in the state changes. -/
theorem setEntryActiveBlocks_ok {name : List Nat} {status : Nat} {inode : Inode}
    {s s' : VfsState} {start fuel : Nat}
    (h : setEntryActiveBlocks name status inode s start fuel = .ok s') :
    ∃ bi phys slot, justRead s inode bi = some phys ∧
      entryIsActive (s.blocks phys) slot = 1 ∧
      decodeName (entryNameBytes (s.blocks phys) slot) = name ∧
      s' = { s with blocks := (Function.update s.blocks phys
               (writeBytes (s.blocks phys) (slot * DIR_SIZE)
                 (entryBytesWithStatus (s.blocks phys) slot status))) } := by
  induction fuel generalizing start with
  | zero => cases h
  | succ f ih =>
    unfold setEntryActiveBlocks at h
    rcases hjr : justRead s inode start with _ | phys <;> rw [hjr] at h
    · cases h
    · dsimp only at h
      rcases hfs : findActiveSlot (s.blocks phys) name 0 (BLOCK_SIZE / DIR_SIZE) with _ | slot <;>
        rw [hfs] at h
      · exact ih h
      · dsimp only at h
        injection h with h
        obtain ⟨hact, hname⟩ := findActiveSlot_some hfs
        exact ⟨start, phys, slot, hjr, hact, hname, h.symm⟩

/-- Length of a re-encoded directory entry. -/
theorem entryBytesWithStatus_length (blk : Nat → Nat) (i status : Nat) :
    (entryBytesWithStatus blk i status).length = 40 := by
  unfold entryBytesWithStatus u32leBytes
  rw [List.length_append, List.length_append, entryNameBytes_length]
  rfl

/-- Byte-level effect of tombstoning slot `slot`: the `is_active` byte
becomes the new status, the 32 name bytes stay in place, and the 4
`inode_id` bytes stay in place whenever they are in `u8` range. -/
theorem tombstone_bytes (blk : Nat → Nat) (slot status : Nat) :
    entryIsActive (writeBytes blk (slot * DIR_SIZE)
      (entryBytesWithStatus blk slot status)) slot = status ∧
    (∀ j, j < 32 → writeBytes blk (slot * DIR_SIZE) (entryBytesWithStatus blk slot status)
        (slot * DIR_SIZE + 4 + j) = blk (slot * DIR_SIZE + 4 + j)) ∧
    ((∀ j, j < 4 → blk (slot * DIR_SIZE + j) < 256) →
      ∀ j, j < 4 → writeBytes blk (slot * DIR_SIZE) (entryBytesWithStatus blk slot status)
        (slot * DIR_SIZE + j) = blk (slot * DIR_SIZE + j)) := by
  have hlen := entryBytesWithStatus_length blk slot status
  have hlen1 : (u32leBytes (entryInodeId blk slot)).length = 4 := rfl
  have hlen2 : (entryNameBytes blk slot).length = 32 := entryNameBytes_length blk slot
  have hlen12 : (u32leBytes (entryInodeId blk slot) ++ entryNameBytes blk slot).length = 36 := by
    rw [List.length_append, hlen1, hlen2]
  refine ⟨?_, ?_, ?_⟩
  · unfold entryIsActive writeBytes
    rw [if_pos (by rw [hlen]; omega)]
    have hsub : slot * DIR_SIZE + 36 - slot * DIR_SIZE = 36 := by omega
    rw [hsub]
    unfold entryBytesWithStatus
    rw [List.getD_eq_getElem?_getD,
      List.getElem?_append_right (le_of_eq_of_le hlen12 (by omega)), hlen12]
    rfl
  · intro j hj
    unfold writeBytes
    rw [if_pos (by rw [hlen]; omega)]
    have hsub : slot * DIR_SIZE + 4 + j - slot * DIR_SIZE = 4 + j := by omega
    rw [hsub]
    unfold entryBytesWithStatus
    rw [List.getD_eq_getElem?_getD,
      List.getElem?_append_left (lt_of_lt_of_eq (by omega : 4 + j < 36) hlen12.symm),
      List.getElem?_append_right (le_of_eq_of_le hlen1 (by omega)), hlen1]
    have hj32 : 4 + j - 4 = j := by omega
    rw [hj32]
    unfold entryNameBytes
    rw [List.getElem?_map, List.getElem?_range (by simpa [MAX_NAME_LEN] using hj)]
    rfl
  · intro hbytes j hj
    unfold writeBytes
    rw [if_pos (by rw [hlen]; omega)]
    have hsub : slot * DIR_SIZE + j - slot * DIR_SIZE = j := by omega
    rw [hsub]
    unfold entryBytesWithStatus
    rw [List.getD_eq_getElem?_getD,
      List.getElem?_append_left (lt_of_lt_of_eq (by omega : j < 36) hlen12.symm),
      List.getElem?_append_left (lt_of_lt_of_eq hj hlen1.symm)]
    have hrt := u32leByte_roundtrip (hbytes 0 (by omega)) (hbytes 1 (by omega))
      (hbytes 2 (by omega)) (hbytes 3 (by omega))
    have hid : entryInodeId blk slot = blk (slot * DIR_SIZE) +
        256 * blk (slot * DIR_SIZE + 1) + 65536 * blk (slot * DIR_SIZE + 2) +
        16777216 * blk (slot * DIR_SIZE + 3) := rfl
    interval_cases j
    · simp only [u32leBytes, List.getElem?_cons_zero, Option.getD_some]
      rw [hid]
      simpa using hrt.1
    · simp only [u32leBytes, List.getElem?_cons_succ, List.getElem?_cons_zero,
        Option.getD_some]
      rw [hid]
      simpa using hrt.2.1
    · simp only [u32leBytes, List.getElem?_cons_succ, List.getElem?_cons_zero,
        Option.getD_some]
      rw [hid]
      simpa using hrt.2.2.1
    · simp only [u32leBytes, List.getElem?_cons_succ, List.getElem?_cons_zero,
        Option.getD_some]
      rw [hid]
      simpa using hrt.2.2.2

/-- Unfolding equation of the slot loop of `Vfs::read_dir`. -/
theorem collectNames_succ (blk : Nat → Nat) (i r : Nat) :
    collectNames blk i (r + 1) =
      (if entryIsActive blk i = 1 then [decodeName (entryNameBytes blk i)] else []) ++
        collectNames blk (i + 1) r := rfl

/-- Unfolding equation of the block loop of `Vfs::read_dir`. -/
theorem readDirBlocks_succ (s : VfsState) (inode : Inode) (bi fuel : Nat) :
    readDirBlocks s inode bi (fuel + 1) =
      match justRead s inode bi with
      | none => []
      | some physical_id =>
        collectNames (s.blocks physical_id) 0 (BLOCK_SIZE / DIR_SIZE) ++
          readDirBlocks s inode (bi + 1) fuel := rfl

/-- Unfolding equation of the block loop of `Vfs::set_entry_active_status`. -/
theorem setEntryActiveBlocks_succ (name : List Nat) (status : Nat) (inode : Inode)
    (s : VfsState) (bi fuel : Nat) :
    setEntryActiveBlocks name status inode s bi (fuel + 1) =
      match justRead s inode bi with
      | none => .error .notFound
      | some physical_id =>
        match findActiveSlot (s.blocks physical_id) name 0 (BLOCK_SIZE / DIR_SIZE) with
        | some i =>
          .ok { s with blocks := (Function.update s.blocks physical_id
                  (writeBytes (s.blocks physical_id) (i * DIR_SIZE)
                    (entryBytesWithStatus (s.blocks physical_id) i status))) }
        | none => setEntryActiveBlocks name status inode s (bi + 1) fuel := rfl

/-- For the ten direct slots the block map does not read the state. -/
theorem justRead_direct (s t : VfsState) (inode : Inode) (bi : Nat) (h : bi < 10) :
    justRead s inode bi = justRead t inode bi := by
  unfold justRead
  rw [if_pos h, if_pos h]

/-- Tombstoning one 40-byte slot leaves every other slot's `is_active`
byte and name bytes in place. -/
theorem entry_write_other (blk : Nat → Nat) (slot j status : Nat) (hne : j ≠ slot) :
    entryIsActive (writeBytes blk (slot * DIR_SIZE)
        (entryBytesWithStatus blk slot status)) j = entryIsActive blk j ∧
    entryNameBytes (writeBytes blk (slot * DIR_SIZE)
        (entryBytesWithStatus blk slot status)) j = entryNameBytes blk j := by
  have hlen := entryBytesWithStatus_length blk slot status
  have hd40 : DIR_SIZE = 40 := rfl
  constructor
  · unfold entryIsActive writeBytes
    rw [hlen, hd40]
    rw [if_neg]
    rintro ⟨h1, h2⟩
    omega
  · unfold entryNameBytes writeBytes
    refine List.map_congr_left (fun k hk => ?_)
    have hk32 : k < 32 := List.mem_range.mp hk
    rw [hlen, hd40]
    rw [if_neg]
    rintro ⟨h1, h2⟩
    omega

/-- `findActiveSlot` returns the first live slot with a matching decoded
name. -/
theorem findActiveSlot_first {blk : Nat → Nat} {name : List Nat} :
    ∀ {r i slot : Nat}, findActiveSlot blk name i r = some slot →
    i ≤ slot ∧ slot < i + r ∧ entryIsActive blk slot = 1 ∧
    decodeName (entryNameBytes blk slot) = name ∧
    ∀ j, i ≤ j → j < slot →
      ¬ (entryIsActive blk j = 1 ∧ decodeName (entryNameBytes blk j) = name) := by
  intro r
  induction r with
  | zero => intro i slot h; cases h
  | succ r ih =>
    intro i slot h
    unfold findActiveSlot at h
    split_ifs at h with hc
    · injection h with h
      subst h
      exact ⟨le_rfl, by omega, hc.1, hc.2,
        fun j hj1 hj2 => absurd (Nat.lt_of_le_of_lt hj1 hj2) (Nat.lt_irrefl _)⟩
    · obtain ⟨h1, h2, h3, h4, h5⟩ := ih h
      refine ⟨by omega, by omega, h3, h4, fun j hj1 hj2 => ?_⟩
      rcases Nat.eq_or_lt_of_le hj1 with heq | hlt
      · rw [← heq]
        exact hc
      · exact h5 j hlt hj2

/-- Slot-wise agreeing blocks collect the same names. -/
theorem collectNames_congr (blk blk' : Nat → Nat) :
    ∀ r i, (∀ j, i ≤ j → j < i + r →
      entryIsActive blk' j = entryIsActive blk j ∧
      entryNameBytes blk' j = entryNameBytes blk j) →
    collectNames blk' i r = collectNames blk i r := by
  intro r
  induction r with
  | zero => intro i h; rfl
  | succ r ih =>
    intro i h
    obtain ⟨ha, hn⟩ := h i le_rfl (by omega)
    rw [collectNames_succ, collectNames_succ, ha, hn,
      ih (i + 1) (fun j hj1 hj2 => h j (by omega) (by omega))]

/-- Tombstoning the first live slot whose name decodes to `name` erases
exactly the first listed occurrence of `name`. -/
theorem collectNames_tombstone (blk : Nat → Nat) (name : List Nat) (slot : Nat)
    (hact : entryIsActive blk slot = 1)
    (hname : decodeName (entryNameBytes blk slot) = name) :
    ∀ r i, i ≤ slot → slot < i + r →
    (∀ j, i ≤ j → j < slot →
      ¬ (entryIsActive blk j = 1 ∧ decodeName (entryNameBytes blk j) = name)) →
    name ∈ collectNames blk i r ∧
    collectNames (writeBytes blk (slot * DIR_SIZE) (entryBytesWithStatus blk slot 0)) i r =
      (collectNames blk i r).erase name := by
  intro r
  induction r with
  | zero =>
    intro i h1 h2 _
    omega
  | succ r ih =>
    intro i hi hlt hfirst
    by_cases his : i = slot
    · subst his
      have h0 := (tombstone_bytes blk i 0).1
      have hcg : collectNames (writeBytes blk (i * DIR_SIZE)
          (entryBytesWithStatus blk i 0)) (i + 1) r = collectNames blk (i + 1) r :=
        collectNames_congr blk _ r (i + 1)
          (fun j hj1 hj2 => entry_write_other blk i j 0 (by omega))
      rw [collectNames_succ, collectNames_succ, if_pos hact, hname,
        if_neg (by rw [h0]; decide), hcg, List.nil_append, List.singleton_append,
        List.erase_cons_head]
      exact ⟨List.mem_cons_self _ _, rfl⟩
    · obtain ⟨hpa, hpn⟩ := entry_write_other blk slot i 0 his
      obtain ⟨hmem, htail⟩ := ih (i + 1) (by omega) (by omega)
        (fun j hj1 hj2 => hfirst j (by omega) hj2)
      rw [collectNames_succ, collectNames_succ, hpa, hpn]
      by_cases hai : entryIsActive blk i = 1
      · have hni : decodeName (entryNameBytes blk i) ≠ name :=
          fun h => hfirst i le_rfl (by omega) ⟨hai, h⟩
        rw [if_pos hai, List.singleton_append, List.singleton_append, htail,
          List.erase_cons_tail (by simp [hni])]
        exact ⟨List.mem_cons_of_mem _ hmem, rfl⟩
      · rw [if_neg hai, List.nil_append, List.nil_append, htail]
        exact ⟨hmem, rfl⟩

section

attribute [local irreducible] freeIndirectPtrs

/-- A successful `remove` decomposes into a successful parent resolution,
a successful directory lookup, and a successful tombstoning call on the
state with the target's blocks and inode bit released. -/
theorem remove_ok_parts {s : VfsState} {path parent_path name : List Nat} {s' : VfsState}
    (hsp : splitLast path = (parent_path, name))
    (hrm : remove s path = .ok s') :
    ∃ parent_id inode_id,
      resolveParent s parent_path = .ok parent_id ∧
      findInDir s parent_id name = .ok inode_id ∧
      setEntryActiveStatus
        { removeFreeIndirect (getInode s inode_id) (removeFreeDirect (getInode s inode_id) s) with
          inodeBitmap := freeBit (removeFreeIndirect (getInode s inode_id)
            (removeFreeDirect (getInode s inode_id) s)).inodeBitmap inode_id }
        parent_id name 0 = .ok s' := by
  unfold remove at hrm
  rw [hsp] at hrm
  dsimp only at hrm
  rcases hrp : resolveParent s parent_path with e | parent_id <;> rw [hrp] at hrm
  · cases hrm
  dsimp only at hrm
  rcases hfd : findInDir s parent_id name with e | inode_id <;> rw [hfd] at hrm
  · cases hrm
  dsimp only at hrm
  exact ⟨parent_id, inode_id, rfl, hfd, hrm⟩

/-- C9: for every path resolving to an existing entry (parent resolution
and the directory lookup both succeed), a successful `remove path` clears
the data-bitmap bit of every non-zero direct block of the target inode,
and — when its indirect pointer block is non-zero — the bit of every
non-zero pointer stored in it and of the pointer block itself, leaving
every other data-bitmap bit unchanged; it clears the target's
inode-bitmap bit and no other; it leaves the inode table unchanged; and
it tombstones the parent entry: some live slot whose stored name decodes
to the removed name gets its `is_active` byte set to 0, its 32 name bytes
and (for in-range bytes) its 4 `inode_id` bytes staying in place, with
every other block untouched. -/
theorem claim_C9 (s : VfsState) (path parent_path name : List Nat) (s' : VfsState)
    (hsp : splitLast path = (parent_path, name))
    (hdb : ∀ b ∈ s.dataBitmap, b < 256)
    (hib : ∀ b ∈ s.inodeBitmap, b < 256)
    (hrm : remove s path = .ok s') :
    ∃ parent_id inode_id,
      resolveParent s parent_path = .ok parent_id ∧
      findInDir s parent_id name = .ok inode_id ∧
      (∀ x, ((∃ i ∈ List.range 10,
            (getInode s inode_id).direct_blocks.getD i 0 = x ∧
            (getInode s inode_id).direct_blocks.getD i 0 ≠ 0) ∨
          ((getInode s inode_id).indirect_blocks ≠ 0 ∧
            (x = (getInode s inode_id).indirect_blocks ∨
            ∃ k ∈ List.range POINTERS_PER_BLOCK,
              u32leGet (s.blocks (getInode s inode_id).indirect_blocks) (k * 4) = x ∧
              u32leGet (s.blocks (getInode s inode_id).indirect_blocks) (k * 4) ≠ 0))) →
        bitGet s'.dataBitmap x = false) ∧
      (∀ x, ¬ ((∃ i ∈ List.range 10,
            (getInode s inode_id).direct_blocks.getD i 0 = x ∧
            (getInode s inode_id).direct_blocks.getD i 0 ≠ 0) ∨
          ((getInode s inode_id).indirect_blocks ≠ 0 ∧
            (x = (getInode s inode_id).indirect_blocks ∨
            ∃ k ∈ List.range POINTERS_PER_BLOCK,
              u32leGet (s.blocks (getInode s inode_id).indirect_blocks) (k * 4) = x ∧
              u32leGet (s.blocks (getInode s inode_id).indirect_blocks) (k * 4) ≠ 0))) →
        bitGet s'.dataBitmap x = bitGet s.dataBitmap x) ∧
      bitGet s'.inodeBitmap inode_id = false ∧
      (∀ y, ¬ y = inode_id → bitGet s'.inodeBitmap y = bitGet s.inodeBitmap y) ∧
      s'.inodes = s.inodes ∧
      ∃ bi phys slot,
        justRead s (getInode s parent_id) bi = some phys ∧
        entryIsActive (s.blocks phys) slot = 1 ∧
        decodeName (entryNameBytes (s.blocks phys) slot) = name ∧
        (∀ b, ¬ b = phys → s'.blocks b = s.blocks b) ∧
        entryIsActive (s'.blocks phys) slot = 0 ∧
        (∀ j, j < 32 → s'.blocks phys (slot * DIR_SIZE + 4 + j) =
          s.blocks phys (slot * DIR_SIZE + 4 + j)) ∧
        ((∀ j, j < 4 → s.blocks phys (slot * DIR_SIZE + j) < 256) →
          ∀ j, j < 4 → s'.blocks phys (slot * DIR_SIZE + j) =
            s.blocks phys (slot * DIR_SIZE + j)) := by
  obtain ⟨parent_id, inode_id, hrp, hfd, hrm⟩ := remove_ok_parts hsp hrm
  obtain ⟨hd1, hd2, hd3, hd4⟩ := removeFreeDirect_effects (getInode s inode_id) s
  obtain ⟨hdb1, hdrem, hdkeep⟩ := hd4 hdb
  obtain ⟨A, hA⟩ : ∃ A, removeFreeDirect (getInode s inode_id) s = A := ⟨_, rfl⟩
  rw [hA] at hrm hd1 hd2 hd3 hdb1 hdrem hdkeep
  obtain ⟨hi1, hi2, hi3, hi4⟩ := removeFreeIndirect_effects (getInode s inode_id) A
  obtain ⟨hdb2, hirem, hikeep⟩ := hi4 hdb1
  obtain ⟨B, hB⟩ : ∃ B, removeFreeIndirect (getInode s inode_id) A = B := ⟨_, rfl⟩
  rw [hB] at hrm hi1 hi2 hi3 hdb2 hirem hikeep
  rw [hd2] at hirem hikeep
  unfold setEntryActiveStatus at hrm
  obtain ⟨bi, phys, slot, hjr, hact, hname, hs'⟩ := setEntryActiveBlocks_ok hrm
  have hDi : ({ B with inodeBitmap := freeBit B.inodeBitmap inode_id } : VfsState).inodes =
      s.inodes := by
    rw [update_inodeBitmap_inodes, hi1, hd1]
  have hDb : ({ B with inodeBitmap := freeBit B.inodeBitmap inode_id } : VfsState).blocks =
      s.blocks := by
    rw [update_inodeBitmap_blocks, hi2, hd2]
  have hDd : ({ B with inodeBitmap := freeBit B.inodeBitmap inode_id } : VfsState).dataBitmap =
      B.dataBitmap := update_inodeBitmap_dataBitmap B (freeBit B.inodeBitmap inode_id)
  have hDib : ({ B with inodeBitmap := freeBit B.inodeBitmap inode_id } : VfsState).inodeBitmap =
      freeBit s.inodeBitmap inode_id := by
    rw [update_inodeBitmap_inodeBitmap, hi3, hd3]
  have hgi : getInode { B with inodeBitmap := freeBit B.inodeBitmap inode_id } parent_id =
      getInode s parent_id := by
    unfold getInode
    rw [hDi]
  rw [hgi, justRead_congr hDb] at hjr
  rw [hDb] at hact hname hs'
  have hs'd : s'.dataBitmap = B.dataBitmap := by
    rw [hs', update_blocks_dataBitmap, hDd]
  have hs'ib : s'.inodeBitmap = freeBit s.inodeBitmap inode_id := by
    rw [hs', update_blocks_inodeBitmap, hDib]
  have hs'i : s'.inodes = s.inodes := by
    rw [hs', update_blocks_inodes, hDi]
  have hs'b : s'.blocks = Function.update s.blocks phys
      (writeBytes (s.blocks phys) (slot * DIR_SIZE)
        (entryBytesWithStatus (s.blocks phys) slot 0)) := by
    rw [hs', update_blocks_blocks]
  refine ⟨parent_id, inode_id, hrp, hfd, ?_, ?_, ?_, ?_, hs'i,
    bi, phys, slot, hjr, hact, hname, ?_, ?_, ?_, ?_⟩
  · intro x hx
    rw [hs'd]
    rcases hx with hdx | hix
    · by_cases hind : (getInode s inode_id).indirect_blocks ≠ 0 ∧
          (x = (getInode s inode_id).indirect_blocks ∨
          ∃ k ∈ List.range POINTERS_PER_BLOCK,
            u32leGet (s.blocks (getInode s inode_id).indirect_blocks) (k * 4) = x ∧
            u32leGet (s.blocks (getInode s inode_id).indirect_blocks) (k * 4) ≠ 0)
      · exact hirem x hind
      · rw [hikeep x hind]
        exact hdrem x hdx
    · exact hirem x hix
  · intro x hx
    rw [hs'd, hikeep x (fun h => hx (Or.inr h)), hdkeep x (fun h => hx (Or.inl h))]
  · rw [hs'ib, bitGet_freeBit hib inode_id inode_id,
      decide_eq_false_iff_not.mpr (not_not_intro rfl), Bool.and_false]
  · intro y hy
    rw [hs'ib, bitGet_freeBit hib inode_id y, decide_eq_true hy, Bool.and_true]
  · intro b hbne
    rw [hs'b, Function.update_noteq hbne]
  · rw [hs'b, Function.update_same]
    exact (tombstone_bytes (s.blocks phys) slot 0).1
  · intro j hj
    rw [hs'b, Function.update_same]
    exact (tombstone_bytes (s.blocks phys) slot 0).2.1 j hj
  · intro hrange j hj
    rw [hs'b, Function.update_same]
    exact (tombstone_bytes (s.blocks phys) slot 0).2.2 hrange j hj


end

/-- Result extractor for `remove` results (used by concrete witnesses). -/
def orDefaultS (r : Except VfsError VfsState) : VfsState :=
  match r with
  | .ok t => t
  | .error _ => baseDir

/-- `baseDir` with one empty file `"f"` created in the root. -/
def stF : VfsState := orDefaultF (createFile baseDir [102] 1)

/-- The state after removing `"f"` again. -/
def stF9 : VfsState := orDefaultS (remove stF [102])

set_option maxRecDepth 40000 in
/-- Witness for C9: removing the file `"f"` from `stF` succeeds, and the
claim describes the resulting state. -/
theorem claim_C9_witness :
    (splitLast [102] = ([], [102]) ∧
      (∀ b ∈ stF.dataBitmap, b < 256) ∧
      (∀ b ∈ stF.inodeBitmap, b < 256) ∧
      remove stF [102] = .ok stF9) ∧
    (∃ parent_id inode_id,
      resolveParent stF [] = .ok parent_id ∧
      findInDir stF parent_id [102] = .ok inode_id ∧
      (∀ x, ((∃ i ∈ List.range 10,
            (getInode stF inode_id).direct_blocks.getD i 0 = x ∧
            (getInode stF inode_id).direct_blocks.getD i 0 ≠ 0) ∨
          ((getInode stF inode_id).indirect_blocks ≠ 0 ∧
            (x = (getInode stF inode_id).indirect_blocks ∨
            ∃ k ∈ List.range POINTERS_PER_BLOCK,
              u32leGet (stF.blocks (getInode stF inode_id).indirect_blocks) (k * 4) = x ∧
              u32leGet (stF.blocks (getInode stF inode_id).indirect_blocks) (k * 4) ≠ 0))) →
        bitGet stF9.dataBitmap x = false) ∧
      (∀ x, ¬ ((∃ i ∈ List.range 10,
            (getInode stF inode_id).direct_blocks.getD i 0 = x ∧
            (getInode stF inode_id).direct_blocks.getD i 0 ≠ 0) ∨
          ((getInode stF inode_id).indirect_blocks ≠ 0 ∧
            (x = (getInode stF inode_id).indirect_blocks ∨
            ∃ k ∈ List.range POINTERS_PER_BLOCK,
              u32leGet (stF.blocks (getInode stF inode_id).indirect_blocks) (k * 4) = x ∧
              u32leGet (stF.blocks (getInode stF inode_id).indirect_blocks) (k * 4) ≠ 0))) →
        bitGet stF9.dataBitmap x = bitGet stF.dataBitmap x) ∧
      bitGet stF9.inodeBitmap inode_id = false ∧
      (∀ y, ¬ y = inode_id → bitGet stF9.inodeBitmap y = bitGet stF.inodeBitmap y) ∧
      stF9.inodes = stF.inodes ∧
      ∃ bi phys slot,
        justRead stF (getInode stF parent_id) bi = some phys ∧
        entryIsActive (stF.blocks phys) slot = 1 ∧
        decodeName (entryNameBytes (stF.blocks phys) slot) = [102] ∧
        (∀ b, ¬ b = phys → stF9.blocks b = stF.blocks b) ∧
        entryIsActive (stF9.blocks phys) slot = 0 ∧
        (∀ j, j < 32 → stF9.blocks phys (slot * DIR_SIZE + 4 + j) =
          stF.blocks phys (slot * DIR_SIZE + 4 + j)) ∧
        ((∀ j, j < 4 → stF.blocks phys (slot * DIR_SIZE + j) < 256) →
          ∀ j, j < 4 → stF9.blocks phys (slot * DIR_SIZE + j) =
            stF.blocks phys (slot * DIR_SIZE + j))) :=
  ⟨⟨rfl, by decide, by decide, rfl⟩,
    claim_C9 stF [102] [] [102] stF9 rfl (by decide) (by decide) rfl⟩

/-- `baseDir` with one file `"a"` created in the root. -/
def stA : VfsState := orDefaultF (createFile baseDir [97] 1)

/-- `stA` with a second file of the same name `"a"` created: `create_file`
does not check for an existing entry, so both live entries coexist. -/
def stDup : VfsState := orDefaultF (createFile stA [97] 2)

/-- `stA` with the single `"a"` removed again. -/
def stA6 : VfsState := orDefaultS (remove stA [97])

set_option maxRecDepth 40000 in
/-- Counterexample to C6 as stated: creating the name `"a"` twice under
the root succeeds both times, and `read_dir` then lists the live child
name `"a"` twice, not exactly once. -/
theorem claim_C6_counterexample :
    (∃ r, createFile baseDir [97] 1 = .ok r) ∧
    (∃ r, createFile stA [97] 2 = .ok r) ∧
    readDir stDup [] = .ok [[46, 46], [97], [97]] ∧
    ([[46, 46], [97], [97]] : List (List Nat)).count [97] = 2 :=
  ⟨⟨_, rfl⟩, ⟨_, rfl⟩, rfl, by decide⟩


/-! ## C1: write/read round trip -/

theorem justRead_ext {s t : VfsState} {i1 i2 : Inode} (hd : i1.direct_blocks = i2.direct_blocks)
    (hi : i1.indirect_blocks = i2.indirect_blocks)
    (hb : s.blocks i1.indirect_blocks = t.blocks i2.indirect_blocks) (bi : Nat) :
    justRead s i1 bi = justRead t i2 bi := by
  unfold justRead
  rw [hd, hi, ← hb, hi]

theorem justRead_some_ne_zero {s : VfsState} {inode : Inode} {bi blk : Nat}
    (h : justRead s inode bi = some blk) : blk ≠ 0 := by
  unfold justRead at h
  by_cases h1 : bi < 10
  · rw [if_pos h1] at h
    dsimp only at h
    split_ifs at h with h2
    all_goals try cases h
    all_goals omega
  · rw [if_neg h1] at h
    by_cases h2 : inode.indirect_blocks = 0
    · rw [if_pos h2] at h
      cases h
    · rw [if_neg h2] at h
      dsimp only at h
      split_ifs at h with h3
      all_goals try cases h
      all_goals omega

theorem writeBytes_outside {blk : Nat → Nat} {off : Nat} {data : List Nat} {o : Nat}
    (h : o < off ∨ off + data.length ≤ o) : writeBytes blk off data o = blk o := by
  unfold writeBytes
  rw [if_neg]
  rintro ⟨h1, h2⟩
  omega

theorem writeBytes_inside {blk : Nat → Nat} {off : Nat} {data : List Nat} {o : Nat}
    (h1 : off ≤ o) (h2 : o < off + data.length) :
    writeBytes blk off data o = data.getD (o - off) 0 := by
  unfold writeBytes
  rw [if_pos ⟨h1, h2⟩]

theorem u32leBytes_length (v : Nat) : (u32leBytes v).length = 4 := rfl

theorem u32leGet_writeBytes_self (blk : Nat → Nat) (off v : Nat) (hv : v < 4294967296) :
    u32leGet (writeBytes blk off (u32leBytes v)) off = v := by
  unfold u32leGet
  rw [writeBytes_inside le_rfl (by rw [u32leBytes_length]; omega),
    writeBytes_inside (by omega) (by rw [u32leBytes_length]; omega),
    writeBytes_inside (by omega) (by rw [u32leBytes_length]; omega),
    writeBytes_inside (by omega) (by rw [u32leBytes_length]; omega)]
  have e0 : off - off = 0 := by omega
  have e1 : off + 1 - off = 1 := by omega
  have e2 : off + 2 - off = 2 := by omega
  have e3 : off + 3 - off = 3 := by omega
  rw [e0, e1, e2, e3]
  show u32leByte v 0 + 256 * u32leByte v 1 + 65536 * u32leByte v 2 + 16777216 * u32leByte v 3 = v
  unfold u32leByte
  norm_num
  omega

theorem u32leGet_writeBytes_outside {off off' : Nat} (blk : Nat → Nat) (data : List Nat)
    (hlen : data.length = 4) (h : off' + 4 ≤ off ∨ off + 4 ≤ off') :
    u32leGet (writeBytes blk off data) off' = u32leGet blk off' := by
  unfold u32leGet
  rw [writeBytes_outside (by rw [hlen]; omega), writeBytes_outside (by rw [hlen]; omega),
    writeBytes_outside (by rw [hlen]; omega), writeBytes_outside (by rw [hlen]; omega)]

theorem u32leGet_zero (off : Nat) : u32leGet (fun _ => 0) off = 0 := rfl

/-- Detailed success specification of `allocate_data_block`. -/
theorem allocateDataBlock_ok {s : VfsState} {nb : Nat} {s₂ : VfsState}
    (hbytes : ∀ b ∈ s.dataBitmap, b < 256)
    (h : allocateDataBlock s = .ok (nb, s₂)) :
    bitGet s.dataBitmap nb = false ∧
    bitGet s₂.dataBitmap nb = true ∧
    (∀ x, x ≠ nb → bitGet s₂.dataBitmap x = bitGet s.dataBitmap x) ∧
    (∀ b ∈ s₂.dataBitmap, b < 256) ∧
    s₂.dataBitmap.length = s.dataBitmap.length ∧
    nb < 8 * s.dataBitmap.length ∧
    s₂.inodes = s.inodes ∧ s₂.blocks = s.blocks ∧ s₂.inodeBitmap = s.inodeBitmap := by
  unfold allocateDataBlock at h
  rcases hB : allocateBit s.dataBitmap with _ | q <;> rw [hB] at h
  · cases h
  · injection h with h
    injection h with h1 h2
    subst h1
    have hspec := allocateBit_spec s.dataBitmap hbytes
    rw [hB] at hspec
    obtain ⟨hfree, _, hlen, hset, hother, hbytes2, _, hlt, _⟩ := hspec
    subst h2
    exact ⟨hfree, hset, fun x hx => hother x hx, hbytes2, hlen, hlt, rfl, rfl, rfl⟩

theorem getD_take_drop (B : List Nat) (p n j : Nat) (hj : j < n) :
    ((B.drop p).take n).getD j 0 = B.getD (p + j) 0 := by
  rw [List.getD_eq_getElem?_getD, List.getD_eq_getElem?_getD,
    List.getElem?_take, if_pos hj, List.getElem?_drop]


theorem range_map_getD (l : List Nat) :
    (List.range l.length).map (fun i => l.getD i 0) = l := by
  induction l with
  | nil => rfl
  | cons a t ih =>
    have hcomp : ((fun i => (a :: t).getD i 0) ∘ Nat.succ) = fun i => t.getD i 0 := by
      funext i
      rw [Function.comp_apply, List.getD_cons_succ]
    rw [List.length_cons, List.range_succ_eq_map, List.map_cons, List.map_map, hcomp, ih,
      List.getD_cons_zero]

/-- Detailed success specification of the allocating block map used by
`VfsFile::write`: the new mapping is recorded and readable, every other
logical index keeps its mapping, the returned block is either freshly
allocated (its bit was free) or was already mapped at this index, the
pointer block (fresh or old) is tracked in the bitmap, and no data block
other than the pointer block changes. -/
theorem allocOk_strong {s : VfsState} {fid bi : Nat} {s₁ : VfsState} {phys : Nat}
    (hbytes : ∀ b ∈ s.dataBitmap, b < 256)
    (hdlen : 8 * s.dataBitmap.length < 4294967296)
    (hbit0 : bitGet s.dataBitmap 0 = true)
    (hlen : (getInode s fid).direct_blocks.length = 10)
    (hind : (getInode s fid).indirect_blocks ≠ 0 →
      bitGet s.dataBitmap (getInode s fid).indirect_blocks = true)
    (hmapped : ∀ blk, justRead s (getInode s fid) bi = some blk →
      bitGet s.dataBitmap blk = true)
    (h : allocateIndirectOrDirectBlocks s fid bi = .ok (s₁, phys)) :
    (∀ x, bitGet s.dataBitmap x = true → bitGet s₁.dataBitmap x = true) ∧
    (∀ b ∈ s₁.dataBitmap, b < 256) ∧
    s₁.dataBitmap.length = s.dataBitmap.length ∧
    (getInode s₁ fid).size = (getInode s fid).size ∧
    (getInode s₁ fid).is_valid = (getInode s fid).is_valid ∧
    (getInode s₁ fid).direct_blocks.length = 10 ∧
    phys ≠ 0 ∧
    bitGet s₁.dataBitmap phys = true ∧
    justRead s₁ (getInode s₁ fid) bi = some phys ∧
    ((bitGet s.dataBitmap phys = false ∧ phys ≠ (getInode s₁ fid).indirect_blocks ∧
        justRead s (getInode s fid) bi = none) ∨
      (s₁ = s ∧ justRead s (getInode s fid) bi = some phys)) ∧
    ((getInode s fid).indirect_blocks ≠ 0 →
      (getInode s₁ fid).indirect_blocks = (getInode s fid).indirect_blocks) ∧
    ((getInode s₁ fid).indirect_blocks ≠ 0 →
      bitGet s₁.dataBitmap (getInode s₁ fid).indirect_blocks = true) ∧
    ((getInode s fid).indirect_blocks = 0 → (getInode s₁ fid).indirect_blocks ≠ 0 →
      bitGet s.dataBitmap (getInode s₁ fid).indirect_blocks = false) ∧
    (∀ bj, bj ≠ bi → justRead s₁ (getInode s₁ fid) bj = justRead s (getInode s fid) bj) ∧
    (∀ b, b ≠ (getInode s₁ fid).indirect_blocks → s₁.blocks b = s.blocks b) := by
  unfold allocateIndirectOrDirectBlocks at h
  by_cases h10 : bi < 10
  · rw [if_pos h10] at h
    dsimp only at h
    by_cases hd0 : (getInode s fid).direct_blocks.getD bi 0 = 0
    · -- fresh direct block
      rw [if_pos hd0] at h
      rcases hA : allocateDataBlock s with eA | pr <;> rw [hA] at h
      · cases h
      obtain ⟨nb, s₂⟩ := pr
      dsimp only at h
      injection h with h
      injection h with h1 h2
      subst h1
      subst h2
      obtain ⟨hfree, hset, hother, hbytes₂, hlen₂, hlt, hinodes₂, hblocks₂, _⟩ :=
        allocateDataBlock_ok hbytes hA
      have hg : getInode (saveInode s₂ fid { getInode s fid with
          direct_blocks := (getInode s fid).direct_blocks.set bi nb }) fid =
          { getInode s fid with
            direct_blocks := (getInode s fid).direct_blocks.set bi nb } := by
        simp [getInode, saveInode, Function.update_same]
      have hmono : ∀ x, bitGet s.dataBitmap x = true → bitGet s₂.dataBitmap x = true := by
        intro x hx
        rcases eq_or_ne x nb with rfl | hne
        · exact hset
        · rw [hother x hne]
          exact hx
      have hphys0 : nb ≠ 0 := by
        intro h0
        rw [h0] at hfree
        rw [hbit0] at hfree
        cases hfree
      have hindpres : ({ getInode s fid with
          direct_blocks := (getInode s fid).direct_blocks.set bi nb } :
          Inode).indirect_blocks = (getInode s fid).indirect_blocks := rfl
      refine ⟨hmono, hbytes₂, hlen₂, by rw [hg], by rw [hg],
        by rw [hg]; exact (by rw [List.length_set]; exact hlen), hphys0, hset, ?_, ?_,
        fun _ => by rw [hg], ?_, ?_, ?_, ?_⟩
      · rw [hg]
        unfold justRead
        rw [if_pos h10]
        dsimp only
        rw [List.getD_eq_getElem?_getD, List.getElem?_set_self (by rw [hlen]; exact h10)]
        rw [show ((some nb).getD 0) = nb from rfl, if_neg hphys0]
      · left
        refine ⟨hfree, ?_, ?_⟩
        · rw [hg]
          dsimp only
          by_cases hzz : (getInode s fid).indirect_blocks = 0
          · rw [hzz]
            exact hphys0
          · intro he
            rw [he] at hfree
            rw [hind hzz] at hfree
            cases hfree
        · unfold justRead
          rw [if_pos h10]
          dsimp only
          rw [if_pos hd0]
      · rw [hg]
        intro hne
        rw [hindpres] at hne ⊢
        exact hmono _ (hind hne)
      · rw [hg]
        intro hzz hne
        rw [hindpres] at hne
        rw [hzz] at hne
        cases hne rfl
      · intro bj hbj
        rw [hg]
        unfold justRead
        by_cases hbj10 : bj < 10
        · rw [if_pos hbj10, if_pos hbj10]
          dsimp only
          rw [List.getD_eq_getElem?_getD, List.getElem?_set_ne (Ne.symm hbj),
            ← List.getD_eq_getElem?_getD]
        · rw [if_neg hbj10, if_neg hbj10]
          dsimp only
          have hbk : (saveInode s₂ fid { getInode s fid with
              direct_blocks := (getInode s fid).direct_blocks.set bi nb }).blocks =
              s.blocks := hblocks₂
          rw [hbk]
      · intro b _
        exact congrFun hblocks₂ b
    · -- existing direct block
      rw [if_neg hd0] at h
      injection h with h
      injection h with h1 h2
      subst h1
      subst h2
      have hjr : justRead s (getInode s fid) bi =
          some ((getInode s fid).direct_blocks.getD bi 0) := by
        unfold justRead
        rw [if_pos h10]
        dsimp only
        rw [if_neg hd0]
      refine ⟨fun x hx => hx, hbytes, rfl, rfl, rfl, hlen, hd0, hmapped _ hjr, hjr,
        Or.inr ⟨rfl, hjr⟩, fun _ => rfl, hind, ?_, fun bj _ => rfl, fun b _ => rfl⟩
      intro hzz hne
      exact absurd hzz hne
  · rw [if_neg h10] at h
    dsimp only at h
    by_cases hbig : bi - 10 ≥ POINTERS_PER_BLOCK
    · rw [if_pos hbig] at h
      cases h
    rw [if_neg hbig] at h
    by_cases hz : (getInode s fid).indirect_blocks = 0
    · -- fresh pointer block, then fresh data block
      rw [if_pos hz] at h
      rcases hA : allocateDataBlock s with eA | pr <;> rw [hA] at h
      · cases h
      obtain ⟨npb, s₂⟩ := pr
      dsimp only at h
      obtain ⟨hfreeP, hsetP, hotherP, hbytes₂, hlen₂, hltP, hinodes₂, hblocks₂, _⟩ :=
        allocateDataBlock_ok hbytes hA
      have hmono1 : ∀ x, bitGet s.dataBitmap x = true → bitGet s₂.dataBitmap x = true := by
        intro x hx
        rcases eq_or_ne x npb with rfl | hne
        · exact hsetP
        · rw [hotherP x hne]
          exact hx
      have hnpb0 : npb ≠ 0 := by
        intro h0
        rw [h0] at hfreeP
        rw [hbit0] at hfreeP
        cases hfreeP
      rw [Function.update_same, u32leGet_zero, if_pos rfl] at h
      split at h
      · cases h
      rename_i p2 s₄ hC
      injection h with h
      injection h with h1 h2
      subst h2
      obtain ⟨SB, hC2, hSBd, hSBi, hSBb⟩ :
          ∃ SB, allocateDataBlock SB = .ok (p2, s₄) ∧ SB.dataBitmap = s₂.dataBitmap ∧
            SB.inodes = Function.update s₂.inodes fid
              { getInode s fid with indirect_blocks := npb } ∧
            SB.blocks = Function.update s₂.blocks npb (fun _ => 0) :=
        ⟨_, hC, rfl, rfl, rfl⟩
      have hbytesSB : ∀ b ∈ SB.dataBitmap, b < 256 := by
        rw [hSBd]
        exact hbytes₂
      obtain ⟨hfreeD, hsetD, hotherD, hbytes₄, hlen₄X, hltD, hinodes₄X, hblocks₄X, _⟩ :=
        allocateDataBlock_ok hbytesSB hC2
      rw [hSBd] at hfreeD hotherD hlen₄X hltD
      rw [hSBi] at hinodes₄X
      rw [hSBb] at hblocks₄X
      have hfreeD' : bitGet s₂.dataBitmap p2 = false := hfreeD
      have hotherD' : ∀ x, x ≠ p2 → bitGet s₄.dataBitmap x = bitGet s₂.dataBitmap x := hotherD
      have hlen₄ : s₄.dataBitmap.length = s₂.dataBitmap.length := hlen₄X
      have hltD' : p2 < 8 * s₂.dataBitmap.length := hltD
      have hinodes₄ : s₄.inodes = Function.update s₂.inodes fid
          { getInode s fid with indirect_blocks := npb } := hinodes₄X
      have hblocks₄ : s₄.blocks = Function.update s₂.blocks npb (fun _ => 0) := hblocks₄X
      have hs₁d : s₁.dataBitmap = s₄.dataBitmap := by
        rw [← h1, update_blocks_dataBitmap]
      have hs₁i : s₁.inodes = s₄.inodes := by
        rw [← h1, update_blocks_inodes]
      have hs₁b : s₁.blocks = Function.update s₄.blocks npb
          (writeBytes (s₄.blocks npb) ((bi - 10) * 4) (u32leBytes p2)) := by
        rw [← h1, update_blocks_blocks]
      have hg : getInode s₁ fid = { getInode s fid with indirect_blocks := npb } := by
        unfold getInode
        rw [hs₁i, hinodes₄, Function.update_same]
        rfl
      have hp2npb : p2 ≠ npb := by
        intro he
        rw [he] at hfreeD'
        rw [hsetP] at hfreeD'
        cases hfreeD'
      have hp2s : bitGet s.dataBitmap p2 = false := by
        rw [← hotherP p2 hp2npb]
        exact hfreeD'
      have hp20 : p2 ≠ 0 := by
        intro h0
        rw [h0] at hp2s
        rw [hbit0] at hp2s
        cases hp2s
      have hW : s₄.blocks npb = (fun _ => 0) := by
        rw [hblocks₄]
        exact Function.update_same _ _ _
      have hmono2 : ∀ x, bitGet s₂.dataBitmap x = true → bitGet s₄.dataBitmap x = true := by
        intro x hx
        rcases eq_or_ne x p2 with rfl | hne
        · exact hsetD
        · rw [hotherD' x hne]
          exact hx
      refine ⟨fun x hx => by rw [hs₁d]; exact hmono2 x (hmono1 x hx),
        by rw [hs₁d]; exact hbytes₄,
        by rw [hs₁d, hlen₄]; exact hlen₂,
        by rw [hg], by rw [hg], by rw [hg]; exact hlen, hp20,
        by rw [hs₁d]; exact hsetD, ?_, ?_, ?_, ?_, ?_, ?_, ?_⟩
      · rw [hg]
        unfold justRead
        rw [if_neg h10]
        dsimp only
        rw [if_neg hnpb0, hs₁b, Function.update_same, hW,
          u32leGet_writeBytes_self _ _ _ (by omega), if_neg hp20]
      · left
        refine ⟨hp2s, ?_, ?_⟩
        · rw [hg]
          exact hp2npb
        · unfold justRead
          rw [if_neg h10, if_pos hz]
      · intro hh
        exact absurd hz hh
      · rw [hg, hs₁d]
        intro _
        show bitGet s₄.dataBitmap npb = true
        rw [hotherD' npb (Ne.symm hp2npb)]
        exact hsetP
      · intro _ _
        rw [hg]
        exact hfreeP
      · intro bj hbj
        rw [hg]
        unfold justRead
        by_cases hbj10 : bj < 10
        · rw [if_pos hbj10, if_pos hbj10]
        · rw [if_neg hbj10, if_neg hbj10, if_neg hnpb0, if_pos hz]
          dsimp only
          rw [hs₁b, Function.update_same, hW,
            u32leGet_writeBytes_outside _ _ (u32leBytes_length p2) (by omega),
            u32leGet_zero, if_pos rfl]
      · intro b hbne
        rw [hg] at hbne
        rw [hs₁b, Function.update_noteq hbne, hblocks₄, Function.update_noteq hbne]
        exact congrFun hblocks₂ b
    · -- existing pointer block
      rw [if_neg hz] at h
      dsimp only at h
      by_cases hp0 : u32leGet (s.blocks (getInode s fid).indirect_blocks) ((bi - 10) * 4) = 0
      · -- fresh data block recorded in the existing pointer block
        rw [if_pos hp0] at h
        rcases hC : allocateDataBlock s with eC | pr <;> rw [hC] at h
        · cases h
        obtain ⟨p2, s₄⟩ := pr
        dsimp only at h
        injection h with h
        injection h with h1 h2
        subst h2
        obtain ⟨hfree, hset, hother, hbytes₄, hlen₄, hlt, hinodes₄, hblocks₄, _⟩ :=
          allocateDataBlock_ok hbytes hC
        have hs₁d : s₁.dataBitmap = s₄.dataBitmap := by
          rw [← h1, update_blocks_dataBitmap]
        have hs₁i : s₁.inodes = s₄.inodes := by
          rw [← h1, update_blocks_inodes]
        have hs₁b : s₁.blocks = Function.update s₄.blocks
            (getInode s fid).indirect_blocks
            (writeBytes (s₄.blocks (getInode s fid).indirect_blocks) ((bi - 10) * 4)
              (u32leBytes p2)) := by
          rw [← h1, update_blocks_blocks]
        have hg : getInode s₁ fid = getInode s fid := by
          unfold getInode
          rw [hs₁i, hinodes₄]
        have hp20 : p2 ≠ 0 := by
          intro h0
          rw [h0] at hfree
          rw [hbit0] at hfree
          cases hfree
        have hp2ind : p2 ≠ (getInode s fid).indirect_blocks := by
          intro he
          rw [he] at hfree
          rw [hind hz] at hfree
          cases hfree
        have hmono : ∀ x, bitGet s.dataBitmap x = true → bitGet s₄.dataBitmap x = true := by
          intro x hx
          rcases eq_or_ne x p2 with rfl | hne
          · exact hset
          · rw [hother x hne]
            exact hx
        refine ⟨fun x hx => by rw [hs₁d]; exact hmono x hx,
          by rw [hs₁d]; exact hbytes₄,
          by rw [hs₁d]; exact hlen₄,
          by rw [hg], by rw [hg], by rw [hg]; exact hlen, hp20,
          by rw [hs₁d]; exact hset, ?_, ?_, ?_, ?_, ?_, ?_, ?_⟩
        · rw [hg]
          unfold justRead
          rw [if_neg h10, if_neg hz]
          dsimp only
          rw [hs₁b, Function.update_same,
            u32leGet_writeBytes_self _ _ _ (by omega), if_neg hp20]
        · left
          refine ⟨hfree, ?_, ?_⟩
          · rw [hg]
            exact hp2ind
          · unfold justRead
            rw [if_neg h10, if_neg hz]
            dsimp only
            rw [if_pos hp0]
        · rw [hg]
          exact fun _ => rfl
        · rw [hg, hs₁d]
          intro hne
          exact hmono _ (hind hne)
        · intro hzz
          exact absurd hzz hz
        · intro bj hbj
          rw [hg]
          unfold justRead
          by_cases hbj10 : bj < 10
          · rw [if_pos hbj10, if_pos hbj10]
          · rw [if_neg hbj10, if_neg hbj10, if_neg hz, if_neg hz]
            dsimp only
            rw [hs₁b, Function.update_same,
              u32leGet_writeBytes_outside _ _ (u32leBytes_length p2) (by omega),
              show s₄.blocks (getInode s fid).indirect_blocks =
                s.blocks (getInode s fid).indirect_blocks from congrFun hblocks₄ _]
        · intro b hbne
          rw [hg] at hbne
          rw [hs₁b, Function.update_noteq hbne]
          exact congrFun hblocks₄ b
      · -- pointer already present
        rw [if_neg hp0] at h
        injection h with h
        injection h with h1 h2
        subst h1
        subst h2
        have hjr : justRead s (getInode s fid) bi =
            some (u32leGet (s.blocks (getInode s fid).indirect_blocks) ((bi - 10) * 4)) := by
          unfold justRead
          rw [if_neg h10, if_neg hz]
          dsimp only
          rw [if_neg hp0]
        exact ⟨fun x hx => hx, hbytes, rfl, rfl, rfl, hlen, hp0, hmapped _ hjr, hjr,
          Or.inr ⟨rfl, hjr⟩, fun _ => rfl, hind, fun hzz => absurd hzz hz,
          fun bj _ => rfl, fun b _ => rfl⟩

/-- Full success specification of one `VfsFile::write` call, including
the final inode record: the torn-write window closes with `is_valid`
back at 1, the size is bumped to the high-water mark, and only the
target block (and the block map's pointer block) change. -/
theorem fwrite_ok (s : VfsState) (h : FileHandle) (buf : List Nat) (now : Nat)
    (hne : buf ≠ []) (s' : VfsState) (h' : FileHandle) (n : Nat)
    (hw : fwrite s h buf now = .ok (s', h', n)) :
    n = min (BLOCK_SIZE - h.position % BLOCK_SIZE) buf.length ∧
    h'.inode_id = h.inode_id ∧ h'.position = h.position + n ∧
    ∃ s₁ phys,
      allocateIndirectOrDirectBlocks
        (if (getInode s h.inode_id).is_valid = 1 then
           saveInode s h.inode_id { getInode s h.inode_id with is_valid := 0 } else s)
        h.inode_id (h.position / BLOCK_SIZE) = .ok (s₁, phys) ∧
      s'.blocks = Function.update s₁.blocks phys
        (writeBytes (s₁.blocks phys) (h.position % BLOCK_SIZE) (buf.take n)) ∧
      s'.dataBitmap = s₁.dataBitmap ∧
      s'.inodeBitmap = s₁.inodeBitmap ∧
      (∀ id, id ≠ h.inode_id → s'.inodes id = s₁.inodes id) ∧
      getInode s' h.inode_id = { getInode s₁ h.inode_id with
        size := if h.position + n > (getInode s₁ h.inode_id).size then h.position + n
                else (getInode s₁ h.inode_id).size,
        modified_at := now, is_valid := 1 } := by
  unfold fwrite at hw
  rw [if_neg (by simpa using hne)] at hw
  dsimp only at hw
  rcases hA : allocateIndirectOrDirectBlocks
      (if (getInode s h.inode_id).is_valid = 1 then
         saveInode s h.inode_id { getInode s h.inode_id with is_valid := 0 } else s)
      h.inode_id (h.position / BLOCK_SIZE) with e | pr
  · rw [hA] at hw
    cases hw
  · obtain ⟨s₁, phys⟩ := pr
    rw [hA] at hw
    dsimp only at hw
    injection hw with hw
    injection hw with hw1 hw2
    injection hw2 with hw2 hw3
    subst hw1
    subst hw2
    subst hw3
    refine ⟨rfl, rfl, rfl, s₁, phys, hA ▸ rfl, rfl, rfl, rfl, fun id hid => ?_, ?_⟩
    · simp only [saveInode]
      rw [Function.update_noteq hid]
    · simp only [getInode, saveInode, Function.update_same]

/-- One iteration of the write loop preserves the invariant: a successful
non-empty `write` of the remaining bytes `B.drop p` advances the frontier
by `n = min(4096 - p mod 4096, |B| - p) ≥ 1` bytes of `B`. -/
theorem fwrite_step {fid : Nat} {B : List Nat} {s : VfsState} {h : FileHandle} {p now : Nat}
    {s' : VfsState} {h' : FileHandle} {n : Nat}
    (hW : WInv fid B s p) (hid : h.inode_id = fid) (hpos : h.position = p)
    (hp : p < B.length)
    (hw : fwrite s h (B.drop p) now = .ok (s', h', n)) :
    WInv fid B s' (p + n) ∧ h'.inode_id = fid ∧ h'.position = p + n ∧
    1 ≤ n ∧ p + n ≤ B.length := by
  obtain ⟨hsize, hvalid, hdirlen, hbit0, hbytes, hdlen, hindbit, hnone, hmapped, hcontent⟩ := hW
  have hBS : BLOCK_SIZE = 4096 := rfl
  have hbufne : B.drop p ≠ [] := by
    intro he
    have hlen0 := congrArg List.length he
    rw [List.length_drop, List.length_nil] at hlen0
    omega
  obtain ⟨hn, hid', hpos', s₁, phys, hal, hs'b, hs'd, hs'ib, hs'others, hs'inode⟩ :=
    fwrite_ok s h (B.drop p) now hbufne s' h' n hw
  rw [hid] at hid' hal hs'others hs'inode
  rw [hpos] at hn hpos' hal hs'b hs'inode
  rw [if_pos hvalid] at hal
  obtain ⟨s₀, hs₀⟩ : ∃ t, saveInode s fid { getInode s fid with is_valid := 0 } = t := ⟨_, rfl⟩
  rw [hs₀] at hal
  have hs₀d : s₀.dataBitmap = s.dataBitmap := by
    rw [← hs₀]
    rfl
  have hs₀b : s₀.blocks = s.blocks := by
    rw [← hs₀]
    rfl
  have hg₀ : getInode s₀ fid = { getInode s fid with is_valid := 0 } := by
    rw [← hs₀]
    simp [getInode, saveInode, Function.update_same]
  have hjr₀ : ∀ bj, justRead s₀ (getInode s₀ fid) bj = justRead s (getInode s fid) bj := by
    intro bj
    refine justRead_ext ?_ ?_ ?_ bj
    · rw [hg₀]
    · rw [hg₀]
    · rw [hg₀, hs₀b]
  have hbytes₀ : ∀ b ∈ s₀.dataBitmap, b < 256 := by
    rw [hs₀d]
    exact hbytes
  have hdlen₀ : 8 * s₀.dataBitmap.length < 4294967296 := by
    rw [hs₀d]
    exact hdlen
  have hbit0₀ : bitGet s₀.dataBitmap 0 = true := by
    rw [hs₀d]
    exact hbit0
  have hdir₀ : (getInode s₀ fid).direct_blocks.length = 10 := by
    rw [hg₀]
    exact hdirlen
  have hind₀ : (getInode s₀ fid).indirect_blocks ≠ 0 →
      bitGet s₀.dataBitmap (getInode s₀ fid).indirect_blocks = true := by
    rw [hg₀, hs₀d]
    exact hindbit
  have hbile : (p / BLOCK_SIZE) * BLOCK_SIZE ≤ p := by
    rw [hBS]
    omega
  have hmapped₀ : ∀ blk, justRead s₀ (getInode s₀ fid) (p / BLOCK_SIZE) = some blk →
      bitGet s₀.dataBitmap blk = true := by
    intro blk hb
    rw [hjr₀] at hb
    rw [hs₀d]
    by_cases hlt : (p / BLOCK_SIZE) * BLOCK_SIZE < p
    · obtain ⟨blk', hjr', hbit', _, _⟩ := hmapped _ hlt
      rw [hjr'] at hb
      injection hb with hb
      rw [← hb]
      exact hbit'
    · rw [hnone _ (by omega)] at hb
      cases hb
  obtain ⟨hmono₁, hbytes₁, hlen₁, hsize₁, hvalid₁, hdir₁, hphys0, hbitphys, hjrbi, hfresh,
    hindpres₁, hindbit₁, hindfresh₁, hjrothers₁, hblockspres₁⟩ :=
    allocOk_strong hbytes₀ hdlen₀ hbit0₀ hdir₀ hind₀ hmapped₀ hal
  rw [hs₀d] at hmono₁ hfresh hindfresh₁
  rw [hjr₀] at hfresh
  have hs1size : (getInode s₁ fid).size = p := by
    rw [hsize₁, hg₀]
    exact hsize
  have hindpres : (getInode s fid).indirect_blocks ≠ 0 →
      (getInode s₁ fid).indirect_blocks = (getInode s fid).indirect_blocks := by
    rw [hg₀] at hindpres₁
    exact hindpres₁
  have hindfresh : (getInode s fid).indirect_blocks = 0 →
      (getInode s₁ fid).indirect_blocks ≠ 0 →
      bitGet s.dataBitmap (getInode s₁ fid).indirect_blocks = false := by
    rw [hg₀] at hindfresh₁
    exact hindfresh₁
  have hjrothers : ∀ bj, bj ≠ p / BLOCK_SIZE →
      justRead s₁ (getInode s₁ fid) bj = justRead s (getInode s fid) bj :=
    fun bj hbj => (hjrothers₁ bj hbj).trans (hjr₀ bj)
  have hblockspres : ∀ b, b ≠ (getInode s₁ fid).indirect_blocks →
      s₁.blocks b = s.blocks b :=
    fun b hb => (hblockspres₁ b hb).trans (congrFun hs₀b b)
  have hn1 : 1 ≤ n := by
    rw [hn, List.length_drop, hBS]
    omega
  have hpn : p + n ≤ B.length := by
    rw [hn, List.length_drop]
    omega
  have hnblock : p % BLOCK_SIZE + n ≤ BLOCK_SIZE := by
    rw [hn, hBS]
    omega
  have hphysind : phys ≠ (getInode s₁ fid).indirect_blocks := by
    rcases hfresh with ⟨hf, hne, hno⟩ | ⟨hidq, hjr⟩
    · exact hne
    · have hbi_lt : (p / BLOCK_SIZE) * BLOCK_SIZE < p := by
        by_contra hge
        rw [hnone _ (by omega)] at hjr
        cases hjr
      obtain ⟨blk', hjr', hbit', hne', hdist'⟩ := hmapped _ hbi_lt
      rw [hjr'] at hjr
      injection hjr with hjr
      rw [hidq, hg₀, ← hjr]
      exact hne'
  have hjrs' : ∀ bj, justRead s' (getInode s' fid) bj = justRead s₁ (getInode s₁ fid) bj := by
    intro bj
    refine justRead_ext ?_ ?_ ?_ bj
    · rw [hs'inode]
    · rw [hs'inode]
    · rw [hs'inode, hs'b]
      exact Function.update_noteq (Ne.symm hphysind) _ _
  have hblk_ne_ind : ∀ blk, bitGet s.dataBitmap blk = true → blk ≠ 0 →
      blk ≠ (getInode s fid).indirect_blocks →
      blk ≠ (getInode s₁ fid).indirect_blocks := by
    intro blk hbitb hblk0 hbne he
    by_cases hz : (getInode s fid).indirect_blocks = 0
    · by_cases hz₁ : (getInode s₁ fid).indirect_blocks = 0
      · rw [hz₁] at he
        exact hblk0 he
      · have hf := hindfresh hz hz₁
        rw [← he] at hf
        rw [hbitb] at hf
        cases hf
    · rw [hindpres hz] at he
      exact hbne he
  refine ⟨⟨?_, ?_, ?_, ?_, ?_, ?_, ?_, ?_, ?_, ?_⟩, hid', hpos', hn1, hpn⟩
  · -- size
    rw [hs'inode]
    show (if p + n > (getInode s₁ fid).size then p + n else (getInode s₁ fid).size) = p + n
    rw [hs1size, if_pos (by omega)]
  · -- is_valid
    rw [hs'inode]
  · -- direct length
    rw [hs'inode]
    exact hdir₁
  · -- bit 0
    rw [hs'd]
    exact hmono₁ 0 hbit0
  · -- bytes
    rw [hs'd]
    exact hbytes₁
  · -- bitmap length
    rw [hs'd, hlen₁, hs₀d]
    exact hdlen
  · -- indirect bit
    rw [hs'inode, hs'd]
    exact hindbit₁
  · -- unmapped beyond the frontier
    intro bj hbj
    have hbjne : bj ≠ p / BLOCK_SIZE := by
      rw [hBS] at hbj ⊢
      omega
    rw [hjrs' bj, hjrothers bj hbjne]
    refine hnone bj ?_
    rw [hBS] at hbj ⊢
    omega
  · -- mapped below the frontier, distinct, allocated
    intro bi' hbi'
    by_cases hbieq : bi' = p / BLOCK_SIZE
    · subst hbieq
      refine ⟨phys, ?_, ?_, ?_, ?_⟩
      · rw [hjrs' _]
        exact hjrbi
      · rw [hs'd]
        exact hbitphys
      · rw [hs'inode]
        exact hphysind
      · intro bj blkj hbj hjrj
        rw [hjrs' bj, hjrothers bj hbj] at hjrj
        by_cases hbjlt : bj * BLOCK_SIZE < p
        · obtain ⟨blkj', hjrj', hbitj', hnej', hdistj'⟩ := hmapped bj hbjlt
          rw [hjrj'] at hjrj
          injection hjrj with hjrj
          rw [← hjrj]
          rcases hfresh with ⟨hf, _, _⟩ | ⟨hidq, hjr⟩
          · intro he
            rw [he] at hbitj'
            rw [hbitj'] at hf
            cases hf
          · exact Ne.symm (hdistj' (p / BLOCK_SIZE) phys (Ne.symm hbj) hjr)
        · rw [hnone bj (by omega)] at hjrj
          cases hjrj
    · have hbi'lt : bi' * BLOCK_SIZE < p := by
        rw [hBS] at hbi' hbieq ⊢
        rw [hBS] at hnblock
        omega
      obtain ⟨blk, hjr', hbit', hne', hdist'⟩ := hmapped bi' hbi'lt
      refine ⟨blk, ?_, ?_, ?_, ?_⟩
      · rw [hjrs' bi', hjrothers bi' hbieq]
        exact hjr'
      · rw [hs'd]
        exact hmono₁ blk hbit'
      · rw [hs'inode]
        exact hblk_ne_ind blk hbit' (justRead_some_ne_zero hjr') hne'
      · intro bj blkj hbj hjrj
        rw [hjrs' bj] at hjrj
        by_cases hbjcur : bj = p / BLOCK_SIZE
        · rw [hbjcur, hjrbi] at hjrj
          injection hjrj with hjrj
          rw [← hjrj]
          rcases hfresh with ⟨hf, _, _⟩ | ⟨hidq, hjr⟩
          · intro he
            rw [he] at hf
            rw [hbit'] at hf
            cases hf
          · exact hdist' (p / BLOCK_SIZE) phys (Ne.symm hbieq) hjr
        · rw [hjrothers bj hbjcur] at hjrj
          exact hdist' bj blkj hbj hjrj
  · -- content
    intro j hj
    unfold fileByte
    rw [hjrs' (j / BLOCK_SIZE)]
    by_cases hjp : j < p
    · -- previously written bytes
      have hbjlt : (j / BLOCK_SIZE) * BLOCK_SIZE < p := by
        rw [hBS]
        omega
      obtain ⟨blk, hjr', hbit', hne', hdist'⟩ := hmapped (j / BLOCK_SIZE) hbjlt
      have hval := hcontent j hjp
      unfold fileByte at hval
      rw [hjr'] at hval
      dsimp only at hval
      by_cases hbjcur : j / BLOCK_SIZE = p / BLOCK_SIZE
      · rcases hfresh with ⟨hf, hne, hno⟩ | ⟨hidq, hjr⟩
        · rw [hbjcur, hno] at hjr'
          cases hjr'
        · rw [hbjcur] at hjr'
          rw [hjr] at hjr'
          injection hjr' with hblkeq
          rw [hbjcur, hjrbi]
          dsimp only
          rw [hs'b, Function.update_same,
            writeBytes_outside (Or.inl (by rw [hBS] at hbjcur ⊢; omega))]
          have hs1bs : s₁.blocks = s.blocks := by
            rw [hidq, hs₀b]
          rw [hs1bs, hblkeq]
          exact hval
      · rw [hjrothers (j / BLOCK_SIZE) hbjcur, hjr']
        dsimp only
        have hblkphys : blk ≠ phys := by
          rcases hfresh with ⟨hf, _, _⟩ | ⟨hidq, hjr⟩
          · intro he
            rw [he] at hbit'
            rw [hbit'] at hf
            cases hf
          · exact Ne.symm (hdist' (p / BLOCK_SIZE) phys (fun hh => hbjcur hh.symm) hjr)
        rw [hs'b, Function.update_noteq hblkphys,
          hblockspres blk (hblk_ne_ind blk hbit' (justRead_some_ne_zero hjr') hne')]
        exact hval
    · -- freshly written bytes
      have hbjeq : j / BLOCK_SIZE = p / BLOCK_SIZE := by
        rw [hBS]
        rw [hBS] at hnblock
        omega
      rw [hbjeq, hjrbi]
      dsimp only
      rw [hs'b, Function.update_same]
      have hjylen : ((B.drop p).take n).length = n := by
        rw [List.length_take, List.length_drop]
        have hn' := hn
        rw [hBS] at hn'
        omega
      rw [writeBytes_inside (by rw [hBS] at hbjeq ⊢; omega)
        (by rw [hjylen]; rw [hBS] at hbjeq ⊢; omega)]
      have harg : j % BLOCK_SIZE - p % BLOCK_SIZE = j - p := by
        rw [hBS]
        rw [hBS] at hbjeq
        omega
      rw [harg, getD_take_drop B p n (j - p) (by omega),
        show p + (j - p) = j from by omega]

/-- Iterating `write` until the buffer is exhausted ends with the invariant
at the full length and the handle positioned at the end of the file. -/
theorem writeAll_ok {fid : Nat} {B : List Nat} :
    ∀ (fuel : Nat) (s : VfsState) (h : FileHandle) (p now : Nat)
      (s' : VfsState) (h' : FileHandle),
    WInv fid B s p → h.inode_id = fid → h.position = p → p ≤ B.length →
    writeAll fuel s h (B.drop p) now = .ok (s', h') →
    WInv fid B s' B.length ∧ h'.inode_id = fid ∧ h'.position = B.length := by
  intro fuel
  induction fuel with
  | zero =>
    intro s h p now s' h' hW hid hpos hple hw
    cases hd : B.drop p with
    | nil =>
      have hpeq : p = B.length := by
        have hl := congrArg List.length hd
        rw [List.length_drop, List.length_nil] at hl
        omega
      rw [hd] at hw
      simp only [writeAll, Except.ok.injEq, Prod.mk.injEq] at hw
      obtain ⟨hs, hh⟩ := hw
      subst hs
      subst hh
      rw [← hpeq]
      exact ⟨hW, hid, hpos⟩
    | cons b bs =>
      rw [hd] at hw
      simp only [writeAll] at hw
      cases hw
  | succ fuel ih =>
    intro s h p now s' h' hW hid hpos hple hw
    cases hd : B.drop p with
    | nil =>
      have hpeq : p = B.length := by
        have hl := congrArg List.length hd
        rw [List.length_drop, List.length_nil] at hl
        omega
      rw [hd] at hw
      simp only [writeAll, Except.ok.injEq, Prod.mk.injEq] at hw
      obtain ⟨hs, hh⟩ := hw
      subst hs
      subst hh
      rw [← hpeq]
      exact ⟨hW, hid, hpos⟩
    | cons b bs =>
      have hplt : p < B.length := by
        have hl := congrArg List.length hd
        rw [List.length_drop, List.length_cons] at hl
        omega
      rw [hd] at hw
      simp only [writeAll] at hw
      rcases hfw : fwrite s h (b :: bs) now with e | ⟨s₂, h₂, n⟩
      · rw [hfw] at hw
        dsimp only at hw
        cases hw
      · rw [hfw] at hw
        dsimp only at hw
        rw [← hd] at hfw
        obtain ⟨hW₂, hid₂, hpos₂, hn1, hpn⟩ := fwrite_step hW hid hpos hplt hfw
        rw [← hd, List.drop_drop] at hw
        exact ih s₂ h₂ (p + n) now s' h' hW₂ hid₂ hpos₂ hpn hw

/-- One `read` call with a 4096-byte buffer at position `p < |B|` of the
fully written file returns the next `min(4096 - p mod 4096, |B| - p)`
bytes of `B` and advances the position by that amount. -/
theorem fread_chunk {fid : Nat} {B : List Nat} {s : VfsState} {h : FileHandle} {p : Nat}
    (hW : WInv fid B s B.length) (hid : h.inode_id = fid) (hpos : h.position = p)
    (hp : p < B.length) :
    fread s h BLOCK_SIZE =
      ({ h with position := p + min (BLOCK_SIZE - p % BLOCK_SIZE) (B.length - p) },
       (List.range (min (BLOCK_SIZE - p % BLOCK_SIZE) (B.length - p))).map
         (fun i => B.getD (p + i) 0)) := by
  obtain ⟨hsize, hvalid, hdirlen, hbit0, hbytes, hdlen, hindbit, hnone, hmapped, hcontent⟩ := hW
  have hBS : BLOCK_SIZE = 4096 := rfl
  have hbile : (p / BLOCK_SIZE) * BLOCK_SIZE ≤ p := by
    rw [hBS]
    omega
  obtain ⟨blk, hjr, hbit', hne', hdist'⟩ := hmapped (p / BLOCK_SIZE) (by omega)
  unfold fread
  rw [if_neg (by decide : ¬(BLOCK_SIZE = 0))]
  dsimp only
  rw [hid, hpos, hsize, if_neg (by omega : ¬(p ≥ B.length)), hjr]
  dsimp only
  rw [show min (min (BLOCK_SIZE - p % BLOCK_SIZE) (B.length - p)) BLOCK_SIZE
      = min (BLOCK_SIZE - p % BLOCK_SIZE) (B.length - p) from by rw [hBS]; omega]
  refine congrArg (Prod.mk _) ?_
  refine List.map_congr_left ?_
  intro i hi
  rw [List.mem_range] at hi
  have hcont := hcontent (p + i) (by rw [hBS] at hi; omega)
  unfold fileByte at hcont
  rw [show (p + i) / BLOCK_SIZE = p / BLOCK_SIZE from by rw [hBS] at hi ⊢; omega,
    hjr] at hcont
  dsimp only at hcont
  rw [show (p + i) % BLOCK_SIZE = p % BLOCK_SIZE + i from by rw [hBS] at hi ⊢; omega] at hcont
  exact hcont

/-- `read_to_end`'s loop over 4096-byte `read` calls, started at position
`p` of the fully written file with enough fuel, appends exactly the bytes
of `B` from `p` on. -/
theorem readToEnd_spec {fid : Nat} {B : List Nat} {s : VfsState}
    (hW : WInv fid B s B.length) :
    ∀ (fuel : Nat) (h : FileHandle) (p : Nat) (acc : List Nat),
    h.inode_id = fid → h.position = p → p ≤ B.length → B.length - p < fuel →
    readToEnd fuel s h acc =
      acc ++ (List.range (B.length - p)).map (fun i => B.getD (p + i) 0) := by
  have hW' := hW
  obtain ⟨hsize, hvalid, hdirlen, hbit0, hbytes, hdlen, hindbit, hnone, hmapped, hcontent⟩ := hW'
  have hBS : BLOCK_SIZE = 4096 := rfl
  intro fuel
  induction fuel with
  | zero =>
    intro h p acc hid hpos hple hfuel
    exact absurd hfuel (Nat.not_lt_zero _)
  | succ fuel ih =>
    intro h p acc hid hpos hple hfuel
    by_cases hp : p < B.length
    · have hfr := fread_chunk hW hid hpos hp
      obtain ⟨R, hRdef⟩ : ∃ R, min (BLOCK_SIZE - p % BLOCK_SIZE) (B.length - p) = R :=
        ⟨_, rfl⟩
      rw [hRdef] at hfr
      have hR1 : 1 ≤ R := by
        rw [← hRdef, hBS]
        omega
      have hRle : p + R ≤ B.length := by
        rw [← hRdef, hBS]
        omega
      simp only [readToEnd]
      rw [hfr]
      dsimp only
      have hcond : ¬(((List.range R).map (fun i => B.getD (p + i) 0)).isEmpty = true) := by
        cases hRc : R with
        | zero => omega
        | succ m => simp [List.range_succ]
      rw [if_neg hcond]
      rw [ih { h with position := p + R } (p + R)
        (acc ++ (List.range R).map (fun i => B.getD (p + i) 0)) hid rfl hRle (by omega)]
      rw [List.append_assoc]
      congr 1
      rw [show B.length - p = R + (B.length - (p + R)) from by omega, List.range_add,
        List.map_append, List.map_map]
      congr 1
      refine List.map_congr_left ?_
      intro i _
      show B.getD (p + R + i) 0 = B.getD (p + (R + i)) 0
      rw [Nat.add_assoc]
    · have hfr : fread s h BLOCK_SIZE = (h, []) := by
        unfold fread
        rw [if_neg (by decide : ¬(BLOCK_SIZE = 0))]
        dsimp only
        rw [hid, hpos, hsize, if_pos (by omega : p ≥ B.length)]
      rw [show B.length - p = 0 from by omega]
      simp [readToEnd, hfr]

/-- `save_inode` leaves every other inode record unchanged. -/
theorem saveInode_inodes_noteq (t : VfsState) (pid : Nat) (P : Inode) {id : Nat}
    (hidne : id ≠ pid) : (saveInode t pid P).inodes id = t.inodes id := by
  simp only [saveInode]
  exact Function.update_noteq hidne _ _

/-- Effects of the allocating block map visible outside the owning inode:
data-bitmap bits only get set, bitmap bytes stay bytes, the bitmap length
and the inode bitmap are unchanged, and no other inode record changes. -/
theorem allocIODB_weak {s : VfsState} {pid bi : Nat} {s₁ : VfsState} {phys : Nat}
    (hbytes : ∀ b ∈ s.dataBitmap, b < 256)
    (h : allocateIndirectOrDirectBlocks s pid bi = .ok (s₁, phys)) :
    (∀ x, bitGet s.dataBitmap x = true → bitGet s₁.dataBitmap x = true) ∧
    (∀ b ∈ s₁.dataBitmap, b < 256) ∧
    s₁.dataBitmap.length = s.dataBitmap.length ∧
    (∀ id, id ≠ pid → s₁.inodes id = s.inodes id) ∧
    s₁.inodeBitmap = s.inodeBitmap := by
  unfold allocateIndirectOrDirectBlocks at h
  by_cases h10 : bi < 10
  · rw [if_pos h10] at h
    dsimp only at h
    by_cases hd0 : (getInode s pid).direct_blocks.getD bi 0 = 0
    · rw [if_pos hd0] at h
      rcases hA : allocateDataBlock s with eA | pr <;> rw [hA] at h
      · cases h
      obtain ⟨nb, s₂⟩ := pr
      dsimp only at h
      injection h with h
      injection h with h1 h2
      obtain ⟨hfree, hset, hother, hbytes₂, hlen₂, hlt, hinodes₂, hblocks₂, hib₂⟩ :=
        allocateDataBlock_ok hbytes hA
      have hs₁d : s₁.dataBitmap = s₂.dataBitmap := by
        rw [← h1]
        rfl
      have hs₁ib : s₁.inodeBitmap = s₂.inodeBitmap := by
        rw [← h1]
        rfl
      refine ⟨?_, ?_, ?_, ?_, ?_⟩
      · intro x hx
        rw [hs₁d]
        rcases eq_or_ne x nb with rfl | hne
        · exact hset
        · rw [hother x hne]
          exact hx
      · rw [hs₁d]
        exact hbytes₂
      · rw [hs₁d]
        exact hlen₂
      · intro id hidne
        rw [← h1]
        show Function.update s₂.inodes pid _ id = s.inodes id
        rw [Function.update_noteq hidne, hinodes₂]
      · rw [hs₁ib]
        exact hib₂
    · rw [if_neg hd0] at h
      injection h with h
      injection h with h1 h2
      subst h1
      exact ⟨fun x hx => hx, hbytes, rfl, fun id _ => rfl, rfl⟩
  · rw [if_neg h10] at h
    dsimp only at h
    by_cases hbig : bi - 10 ≥ POINTERS_PER_BLOCK
    · rw [if_pos hbig] at h
      cases h
    rw [if_neg hbig] at h
    by_cases hz : (getInode s pid).indirect_blocks = 0
    · -- fresh pointer block, then fresh data block
      rw [if_pos hz] at h
      rcases hA : allocateDataBlock s with eA | pr <;> rw [hA] at h
      · cases h
      obtain ⟨npb, s₂⟩ := pr
      dsimp only at h
      obtain ⟨hfreeP, hsetP, hotherP, hbytes₂, hlen₂, hltP, hinodes₂, hblocks₂, hib₂⟩ :=
        allocateDataBlock_ok hbytes hA
      rw [Function.update_same, u32leGet_zero, if_pos rfl] at h
      split at h
      · cases h
      rename_i p2 s₄ hC
      injection h with h
      injection h with h1 h2
      obtain ⟨SB, hC2, hSBd, hSBi, hSBib⟩ :
          ∃ SB, allocateDataBlock SB = .ok (p2, s₄) ∧ SB.dataBitmap = s₂.dataBitmap ∧
            (∀ id, id ≠ pid → SB.inodes id = s₂.inodes id) ∧
            SB.inodeBitmap = s₂.inodeBitmap :=
        ⟨_, hC, rfl, fun id hidne => Function.update_noteq hidne _ _, rfl⟩
      obtain ⟨hfreeD, hsetD, hotherD, hbytes₄, hlen₄, hltD, hinodes₄, hblocks₄, hib₄⟩ :=
        allocateDataBlock_ok (by rw [hSBd]; exact hbytes₂) hC2
      have hs₁d : s₁.dataBitmap = s₄.dataBitmap := by
        rw [← h1, update_blocks_dataBitmap]
      have hs₁i : s₁.inodes = s₄.inodes := by
        rw [← h1, update_blocks_inodes]
      have hs₁ib : s₁.inodeBitmap = s₄.inodeBitmap := by
        rw [← h1, update_blocks_inodeBitmap]
      refine ⟨?_, ?_, ?_, ?_, ?_⟩
      · intro x hx
        rw [hs₁d]
        rcases eq_or_ne x p2 with rfl | hne
        · exact hsetD
        · rw [hotherD x hne, hSBd]
          rcases eq_or_ne x npb with rfl | hne2
          · exact hsetP
          · rw [hotherP x hne2]
            exact hx
      · rw [hs₁d]
        exact hbytes₄
      · rw [hs₁d, hlen₄, hSBd]
        exact hlen₂
      · intro id hidne
        rw [hs₁i, congrFun hinodes₄ id, hSBi id hidne, hinodes₂]
      · rw [hs₁ib, hib₄, hSBib]
        exact hib₂
    · rw [if_neg hz] at h
      dsimp only at h
      by_cases hp0 : u32leGet (s.blocks (getInode s pid).indirect_blocks) ((bi - 10) * 4) = 0
      · rw [if_pos hp0] at h
        rcases hC : allocateDataBlock s with eC | pr <;> rw [hC] at h
        · cases h
        obtain ⟨p2, s₄⟩ := pr
        dsimp only at h
        injection h with h
        injection h with h1 h2
        obtain ⟨hfree, hset, hother, hbytes₄, hlen₄, hlt, hinodes₄, hblocks₄, hib₄⟩ :=
          allocateDataBlock_ok hbytes hC
        have hs₁d : s₁.dataBitmap = s₄.dataBitmap := by
          rw [← h1, update_blocks_dataBitmap]
        have hs₁i : s₁.inodes = s₄.inodes := by
          rw [← h1, update_blocks_inodes]
        have hs₁ib : s₁.inodeBitmap = s₄.inodeBitmap := by
          rw [← h1, update_blocks_inodeBitmap]
        refine ⟨?_, ?_, ?_, ?_, ?_⟩
        · intro x hx
          rw [hs₁d]
          rcases eq_or_ne x p2 with rfl | hne
          · exact hset
          · rw [hother x hne]
            exact hx
        · rw [hs₁d]
          exact hbytes₄
        · rw [hs₁d]
          exact hlen₄
        · intro id _
          rw [hs₁i, hinodes₄]
        · rw [hs₁ib]
          exact hib₄
      · rw [if_neg hp0] at h
        injection h with h
        injection h with h1 h2
        subst h1
        exact ⟨fun x hx => hx, hbytes, rfl, fun id _ => rfl, rfl⟩

/-- `add_entry_to_parent`'s block loop only sets data-bitmap bits, keeps
bitmap bytes and length intact, leaves the inode bitmap alone and changes
no inode record other than the parent's. -/
theorem addEntryLoop_effects {pid : Nat} {entry : List Nat} {now : Nat} :
    ∀ (fuel : Nat) (s : VfsState) (bi : Nat) (s' : VfsState),
    (∀ b ∈ s.dataBitmap, b < 256) →
    addEntryLoop pid entry now s bi fuel = .ok s' →
    (∀ x, bitGet s.dataBitmap x = true → bitGet s'.dataBitmap x = true) ∧
    (∀ b ∈ s'.dataBitmap, b < 256) ∧
    s'.dataBitmap.length = s.dataBitmap.length ∧
    (∀ id, id ≠ pid → s'.inodes id = s.inodes id) ∧
    s'.inodeBitmap = s.inodeBitmap := by
  intro fuel
  induction fuel with
  | zero =>
    intro s bi s' hbytes h
    cases h
  | succ fuel ih =>
    intro s bi s' hbytes h
    simp only [addEntryLoop] at h
    rcases hA : allocateIndirectOrDirectBlocks s pid bi with e | ⟨s₂, phys⟩ <;> rw [hA] at h
    · dsimp only at h
      cases h
    · dsimp only at h
      obtain ⟨hmono₂, hbytes₂, hlen₂, hinodes₂, hib₂⟩ := allocIODB_weak hbytes hA
      rcases hF : findFreeSlot (s₂.blocks phys) 0 (BLOCK_SIZE / DIR_SIZE) with _ | i <;>
        rw [hF] at h
      · dsimp only at h
        obtain ⟨hmono₃, hbytes₃, hlen₃, hinodes₃, hib₃⟩ := ih s₂ (bi + 1) s' hbytes₂ h
        exact ⟨fun x hx => hmono₃ x (hmono₂ x hx), hbytes₃, hlen₃.trans hlen₂,
          fun id hidne => (hinodes₃ id hidne).trans (hinodes₂ id hidne), hib₃.trans hib₂⟩
      · dsimp only at h
        injection h with h1
        refine ⟨?_, ?_, ?_, ?_, ?_⟩
        · intro x hx
          rw [show s'.dataBitmap = s₂.dataBitmap from by rw [← h1]; rfl]
          exact hmono₂ x hx
        · rw [show s'.dataBitmap = s₂.dataBitmap from by rw [← h1]; rfl]
          exact hbytes₂
        · rw [show s'.dataBitmap = s₂.dataBitmap from by rw [← h1]; rfl]
          exact hlen₂
        · intro id hidne
          rw [← h1, saveInode_inodes_noteq _ _ _ hidne]
          exact hinodes₂ id hidne
        · rw [show s'.inodeBitmap = s₂.inodeBitmap from by rw [← h1]; rfl]
          exact hib₂

/-- A freshly created inode maps no logical block: all direct slots are 0
and there is no indirect block. -/
theorem justRead_fresh (s : VfsState) (it now bj : Nat) :
    justRead s (freshInode it now) bj = none := by
  unfold justRead freshInode
  by_cases hbj : bj < 10
  · rw [if_pos hbj]
    dsimp only
    rw [show (List.replicate 10 (0 : Nat)).getD bj 0 = 0 from by
      rw [List.getD_eq_getElem?_getD, List.getElem?_replicate, if_pos hbj]
      rfl]
    rw [if_pos rfl]
  · rw [if_neg hbj, if_pos rfl]

/-- A successful `create_file` on a well-formed image returns a handle at
position 0 onto a fresh inode, and only grows the data bitmap
allocation. -/
theorem createFile_ok {s : VfsState} {path : List Nat} {now : Nat}
    {s₁ : VfsState} {h₁ : FileHandle}
    (hibytes : ∀ b ∈ s.inodeBitmap, b < 256)
    (hdbytes : ∀ b ∈ s.dataBitmap, b < 256)
    (hparent : ∀ pid, resolveParent s (splitLast path).1 = .ok pid →
      bitGet s.inodeBitmap pid = true)
    (hcf : createFile s path now = .ok (s₁, h₁)) :
    h₁.position = 0 ∧
    getInode s₁ h₁.inode_id = freshInode 0 now ∧
    (∀ x, bitGet s.dataBitmap x = true → bitGet s₁.dataBitmap x = true) ∧
    (∀ b ∈ s₁.dataBitmap, b < 256) ∧
    s₁.dataBitmap.length = s.dataBitmap.length := by
  unfold createFile at hcf
  rcases hsp : splitLast path with ⟨pp, fn⟩
  rw [hsp] at hcf
  dsimp only at hcf
  rcases hrp : resolveParent s pp with e | parent_id <;> rw [hrp] at hcf
  · cases hcf
  dsimp only at hcf
  rcases hai : allocateInode s with e | pr <;> rw [hai] at hcf
  · cases hcf
  obtain ⟨new_id, s₂⟩ := pr
  dsimp only at hcf
  unfold allocateInode at hai
  rcases hab : allocateBit s.inodeBitmap with _ | q <;> rw [hab] at hai
  · cases hai
  obtain ⟨i, bm⟩ := q
  dsimp only at hai
  injection hai with hai
  injection hai with hI1 hI2
  subst hI1
  subst hI2
  have hspec := allocateBit_spec s.inodeBitmap hibytes
  rw [hab] at hspec
  dsimp only at hspec
  obtain ⟨hfreei, hspec2⟩ := hspec
  have hpar : bitGet s.inodeBitmap parent_id = true :=
    hparent parent_id (by rw [hsp]; exact hrp)
  have hpne : i ≠ parent_id := by
    intro he
    rw [he] at hfreei
    rw [hpar] at hfreei
    cases hfreei
  rcases hae : addEntryToParent (saveInode { s with inodeBitmap := bm } i
      (freshInode 0 now)) parent_id fn i now with e | s₄ <;> rw [hae] at hcf
  · cases hcf
  dsimp only at hcf
  injection hcf with hcf
  injection hcf with hA hB
  subst hA
  subst hB
  unfold addEntryToParent at hae
  obtain ⟨hmono₄, hbytes₄, hlen₄, hinodes₄, hib₄⟩ :=
    addEntryLoop_effects _ (saveInode { s with inodeBitmap := bm } i (freshInode 0 now)) 0
      s₄ hdbytes hae
  refine ⟨rfl, ?_, ?_, hbytes₄, hlen₄⟩
  · show s₄.inodes i = freshInode 0 now
    rw [hinodes₄ i hpne]
    simp only [saveInode, Function.update_same]
  · intro x hx
    exact hmono₄ x hx

/-- C1: for every path `P` and byte string `B` of length at most
`1034 * 4096`, on a well-formed image (the bitmap regions are byte lists,
the reserved bit 0 of the data bitmap is set, the data bitmap addresses
fewer than `2^32` blocks, and any inode the parent path resolves to is
allocated), a successful `create_file` at `P`, followed by a successful
`write_all` of `B` through the returned stream (looping on short writes),
a seek back to position 0, and a `read_to_end`, returns exactly the bytes
`B`. -/
theorem claim_C1 {s : VfsState} {path B : List Nat} {now now₂ : Nat} {fuel : Nat}
    {s₁ : VfsState} {h₁ : FileHandle} {s₂ : VfsState} {h₂ h₃ : FileHandle}
    (hibytes : ∀ b ∈ s.inodeBitmap, b < 256)
    (hdbytes : ∀ b ∈ s.dataBitmap, b < 256)
    (hbit0 : bitGet s.dataBitmap 0 = true)
    (hdlen : 8 * s.dataBitmap.length < 4294967296)
    (hparent : ∀ pid, resolveParent s (splitLast path).1 = .ok pid →
      bitGet s.inodeBitmap pid = true)
    (hBlen : B.length ≤ 1034 * 4096)
    (hcf : createFile s path now = .ok (s₁, h₁))
    (hwa : writeAll fuel s₁ h₁ B now₂ = .ok (s₂, h₂))
    (hsk : fseek s₂ h₂ (.start 0) = .ok h₃) :
    readToEnd (B.length + 1) s₂ h₃ [] = B := by
  obtain ⟨hpos₁, hg₁, hmono₁, hbytes₁, hlen₁⟩ := createFile_ok hibytes hdbytes hparent hcf
  have hW₀ : WInv h₁.inode_id B s₁ 0 := by
    refine ⟨?_, ?_, ?_, ?_, hbytes₁, ?_, ?_, ?_, ?_, ?_⟩
    · rw [hg₁]
      rfl
    · rw [hg₁]
      rfl
    · rw [hg₁]
      exact List.length_replicate 10 0
    · exact hmono₁ 0 hbit0
    · rw [hlen₁]
      exact hdlen
    · rw [hg₁]
      intro habs
      exact absurd rfl habs
    · intro bj _
      rw [hg₁]
      exact justRead_fresh s₁ 0 now bj
    · intro bi hbi
      exact absurd hbi (Nat.not_lt_zero _)
    · intro j hj
      exact absurd hj (Nat.not_lt_zero _)
  rw [show B = B.drop 0 from (List.drop_zero B).symm] at hwa
  obtain ⟨hW₂, hid₂, hpos₂⟩ :=
    writeAll_ok fuel s₁ h₁ 0 now₂ s₂ h₂ hW₀ rfl hpos₁ (Nat.zero_le _) hwa
  have hskeq : fseek s₂ h₂ (.start 0) = .ok { h₂ with position := 0 } := rfl
  rw [hskeq] at hsk
  injection hsk with hsk
  rw [readToEnd_spec hW₂ (B.length + 1) h₃ 0 [] (by rw [← hsk]; exact hid₂)
    (by rw [← hsk]) (Nat.zero_le _) (by omega)]
  simp only [List.nil_append, Nat.sub_zero, Nat.zero_add]
  exact range_map_getD B

/-- `baseDir` after `create_file` of the file `"w"`, with the returned
handle. -/
def cfW : VfsState × FileHandle :=
  match createFile baseDir [119] 5 with
  | .ok p => p
  | .error _ => (baseDir, { inode_id := 0, position := 0 })

/-- The state and handle after `write_all [7, 8]` on the fresh file. -/
def waW : VfsState × FileHandle :=
  match writeAll 2 cfW.1 cfW.2 [7, 8] 6 with
  | .ok p => p
  | .error _ => (baseDir, { inode_id := 0, position := 0 })

/-- The handle after seeking back to the start. -/
def skW : FileHandle :=
  match fseek waW.1 waW.2 (.start 0) with
  | .ok h => h
  | .error _ => { inode_id := 0, position := 0 }

set_option maxRecDepth 40000 in
/-- Witness for C1: on the concrete root image, creating `"w"`, writing
`[7, 8]`, seeking to 0 and reading to end returns `[7, 8]`. -/
theorem claim_C1_witness :
    ((∀ b ∈ baseDir.inodeBitmap, b < 256) ∧
      (∀ b ∈ baseDir.dataBitmap, b < 256) ∧
      bitGet baseDir.dataBitmap 0 = true ∧
      8 * baseDir.dataBitmap.length < 4294967296 ∧
      [7, 8].length ≤ 1034 * 4096 ∧
      createFile baseDir [119] 5 = .ok (cfW.1, cfW.2) ∧
      writeAll 2 cfW.1 cfW.2 [7, 8] 6 = .ok (waW.1, waW.2) ∧
      fseek waW.1 waW.2 (.start 0) = .ok skW) ∧
    readToEnd ([7, 8].length + 1) waW.1 skW [] = [7, 8] :=
  ⟨⟨by decide, by decide, by decide, by decide, by decide, rfl, rfl, rfl⟩,
    @claim_C1 baseDir [119] [7, 8] 5 6 2 cfW.1 cfW.2 waW.1 waW.2 skW
      (by decide) (by decide) (by decide) (by decide)
      (fun pid hp => by
        injection hp with hp
        subst hp
        decide)
      (by decide) rfl rfl rfl⟩

/-! ## C6: the directory listing and its change under `remove` -/

/-- The listing the amended claim C6 describes, built from its words:
scanning the directory's blocks in order until the first unmapped index,
every live (`is_active == 1`) slot contributes its NUL-trimmed decoded
name, once per live slot, in slot order. -/
def specLiveNames (s : VfsState) (inode : Inode) : Nat → Nat → List (List Nat)
  | _, 0 => []
  | bi, fuel + 1 =>
    match justRead s inode bi with
    | none => []
    | some phys =>
      ((List.range (BLOCK_SIZE / DIR_SIZE)).filter
          (fun j => entryIsActive (s.blocks phys) j = 1)).map
        (fun j => decodeName (entryNameBytes (s.blocks phys) j)) ++
        specLiveNames s inode (bi + 1) fuel

/-- Unfolding equation of `specLiveNames`. -/
theorem specLiveNames_succ (s : VfsState) (inode : Inode) (bi fuel : Nat) :
    specLiveNames s inode bi (fuel + 1) =
      match justRead s inode bi with
      | none => []
      | some phys =>
        ((List.range (BLOCK_SIZE / DIR_SIZE)).filter
            (fun j => entryIsActive (s.blocks phys) j = 1)).map
          (fun j => decodeName (entryNameBytes (s.blocks phys) j)) ++
          specLiveNames s inode (bi + 1) fuel := rfl

/-- The slot loop of `read_dir` lists the decoded name of every live slot
of the scanned range, once per live slot, in slot order. -/
theorem collectNames_filter_map (blk : Nat → Nat) :
    ∀ r i, collectNames blk i r =
      ((List.range' i r).filter (fun j => entryIsActive blk j = 1)).map
        (fun j => decodeName (entryNameBytes blk j)) := by
  intro r
  induction r with
  | zero => intro i; rfl
  | succ r ih =>
    intro i
    rw [collectNames_succ, show List.range' i (r + 1) = i :: List.range' (i + 1) r from rfl,
      ih (i + 1)]
    by_cases hai : entryIsActive blk i = 1
    · simp [List.filter_cons, hai]
    · simp [List.filter_cons, hai]

/-- `read_dir`'s block loop produces exactly the listing described by the
amended claim. -/
theorem readDirBlocks_specLiveNames (s : VfsState) (inode : Inode) :
    ∀ fuel bi, readDirBlocks s inode bi fuel = specLiveNames s inode bi fuel := by
  intro fuel
  induction fuel with
  | zero => intro bi; rfl
  | succ fuel ih =>
    intro bi
    rw [readDirBlocks_succ, specLiveNames_succ]
    rcases hjr : justRead s inode bi with _ | phys
    · rfl
    · dsimp only
      rw [collectNames_filter_map (s.blocks phys) (BLOCK_SIZE / DIR_SIZE) 0,
        ← List.range_eq_range', ih (bi + 1)]

/-- A block without a live matching slot contributes no copy of the name
to the listing. -/
theorem findActiveSlot_none_not_mem {blk : Nat → Nat} {name : List Nat} :
    ∀ r i, findActiveSlot blk name i r = none → name ∉ collectNames blk i r := by
  intro r
  induction r with
  | zero =>
    intro i _ hmem
    rw [show collectNames blk i 0 = ([] : List (List Nat)) from rfl] at hmem
    cases hmem
  | succ r ih =>
    intro i h hmem
    unfold findActiveSlot at h
    rw [collectNames_succ] at hmem
    by_cases hc : entryIsActive blk i = 1 ∧ decodeName (entryNameBytes blk i) = name
    · rw [if_pos hc] at h
      cases h
    · rw [if_neg hc] at h
      rcases List.mem_append.mp hmem with h1 | h2
      · by_cases hai : entryIsActive blk i = 1
        · rw [if_pos hai] at h1
          exact hc ⟨hai, (List.mem_singleton.mp h1).symm⟩
        · rw [if_neg hai] at h1
          cases h1
      · exact ih (i + 1) h h2

/-- Successful `set_entry_active_status`, with the scan structure: the
rewritten block is the first scanned block holding a live matching slot,
and every block before it is mapped and holds no live matching slot. -/
theorem setEntryActiveBlocks_first {name : List Nat} {status : Nat} {inode : Inode}
    {s : VfsState} :
    ∀ fuel start {s'}, setEntryActiveBlocks name status inode s start fuel = .ok s' →
    ∃ bi phys slot, start ≤ bi ∧ bi < start + fuel ∧
      justRead s inode bi = some phys ∧
      findActiveSlot (s.blocks phys) name 0 (BLOCK_SIZE / DIR_SIZE) = some slot ∧
      (∀ bj, start ≤ bj → bj < bi → ∃ physj, justRead s inode bj = some physj ∧
        findActiveSlot (s.blocks physj) name 0 (BLOCK_SIZE / DIR_SIZE) = none) ∧
      s' = { s with blocks := (Function.update s.blocks phys
               (writeBytes (s.blocks phys) (slot * DIR_SIZE)
                 (entryBytesWithStatus (s.blocks phys) slot status))) } := by
  intro fuel
  induction fuel with
  | zero =>
    intro start s' h
    cases h
  | succ f ih =>
    intro start s' h
    unfold setEntryActiveBlocks at h
    rcases hjr : justRead s inode start with _ | phys <;> rw [hjr] at h
    · cases h
    · dsimp only at h
      rcases hfs : findActiveSlot (s.blocks phys) name 0 (BLOCK_SIZE / DIR_SIZE) with _ | slot <;>
        rw [hfs] at h
      · obtain ⟨bi, phys2, slot, hle, hub, hjr2, hfs2, hpre, hs'⟩ := ih (start + 1) h
        refine ⟨bi, phys2, slot, by omega, by omega, hjr2, hfs2, ?_, hs'⟩
        intro bj hbj1 hbj2
        rcases Nat.eq_or_lt_of_le hbj1 with heq | hlt
        · refine ⟨phys, ?_, ?_⟩
          · rw [← heq]
            exact hjr
          · exact hfs
        · exact hpre bj hlt hbj2
      · dsimp only at h
        injection h with h
        exact ⟨start, phys, slot, le_rfl, by omega, hjr, hfs,
          fun bj hbj1 hbj2 => absurd (Nat.lt_of_le_of_lt hbj1 hbj2) (Nat.lt_irrefl _),
          h.symm⟩

/-- The block loop of `read_dir` is unchanged between two states that
agree on the block map of the directory and on every mapped block. -/
theorem readDirBlocks_frame {s t : VfsState} {P : Inode}
    (hjr : ∀ bj, justRead t P bj = justRead s P bj) :
    ∀ fuel start, (∀ bj b, start ≤ bj → justRead s P bj = some b →
      t.blocks b = s.blocks b) →
    readDirBlocks t P start fuel = readDirBlocks s P start fuel := by
  intro fuel
  induction fuel with
  | zero => intro start _; rfl
  | succ f ih =>
    intro start hb
    rw [readDirBlocks_succ, readDirBlocks_succ, hjr start]
    rcases hjrs : justRead s P start with _ | b
    · rfl
    · dsimp only
      rw [hb start b le_rfl hjrs,
        ih (start + 1) (fun bj bb hbj hjrb => hb bj bb (by omega) hjrb)]

/-- Tombstoning the first live matching slot of the first matching block
erases exactly the first listed occurrence of the name from the block
loop's listing, provided the directory's block map is injective. -/
theorem readDirBlocks_erase {s t : VfsState} {P : Inode} {name : List Nat} {phys slot : Nat}
    (hjr : ∀ bj, justRead t P bj = justRead s P bj)
    (hblocks : ∀ b, b ≠ phys → t.blocks b = s.blocks b)
    (hphysblk : t.blocks phys = writeBytes (s.blocks phys) (slot * DIR_SIZE)
      (entryBytesWithStatus (s.blocks phys) slot 0))
    (hfa : findActiveSlot (s.blocks phys) name 0 (BLOCK_SIZE / DIR_SIZE) = some slot)
    (hinj : ∀ bj bk b, justRead s P bj = some b → justRead s P bk = some b → bj = bk) :
    ∀ fuel start bi, start ≤ bi → bi < start + fuel →
    justRead s P bi = some phys →
    (∀ bj, start ≤ bj → bj < bi → ∃ physj, justRead s P bj = some physj ∧
      findActiveSlot (s.blocks physj) name 0 (BLOCK_SIZE / DIR_SIZE) = none) →
    name ∈ readDirBlocks s P start fuel ∧
    readDirBlocks t P start fuel = (readDirBlocks s P start fuel).erase name := by
  intro fuel
  induction fuel with
  | zero =>
    intro start bi h1 h2 _ _
    omega
  | succ f ih =>
    intro start bi h1 h2 hjrbi hpre
    obtain ⟨hsl0, hsl102, hact, hname, hfirst⟩ := findActiveSlot_first hfa
    rcases Nat.eq_or_lt_of_le h1 with heq | hlt
    · subst heq
      rw [readDirBlocks_succ, readDirBlocks_succ, hjr start, hjrbi]
      dsimp only
      obtain ⟨hmem, hcol⟩ := collectNames_tombstone (s.blocks phys) name slot hact hname
        (BLOCK_SIZE / DIR_SIZE) 0 hsl0 hsl102 (fun j hj1 hj2 => hfirst j hj1 hj2)
      have htail : readDirBlocks t P (start + 1) f = readDirBlocks s P (start + 1) f := by
        refine readDirBlocks_frame hjr f (start + 1) ?_
        intro bj b hbj hjrb
        refine hblocks b ?_
        intro hbe
        subst hbe
        exact absurd (hinj bj start b hjrb hjrbi) (by omega)
      rw [hphysblk, hcol, htail, List.erase_append_left _ hmem]
      exact ⟨List.mem_append_left _ hmem, rfl⟩
    · obtain ⟨physj, hjrj, hfnone⟩ := hpre start le_rfl hlt
      have hpne : physj ≠ phys := by
        intro he
        rw [he, hfa] at hfnone
        cases hfnone
      rw [readDirBlocks_succ, readDirBlocks_succ, hjr start, hjrj]
      dsimp only
      rw [hblocks physj hpne]
      obtain ⟨hmem, heq2⟩ := ih (start + 1) bi (by omega) (by omega) hjrbi
        (fun bj hbj1 hbj2 => hpre bj (by omega) hbj2)
      have hnot : name ∉ collectNames (s.blocks physj) 0 (BLOCK_SIZE / DIR_SIZE) :=
        findActiveSlot_none_not_mem (BLOCK_SIZE / DIR_SIZE) 0 hfnone
      rw [heq2, List.erase_append_right _ hnot]
      exact ⟨List.mem_append_right _ hmem, rfl⟩

section

attribute [local irreducible] freeIndirectPtrs

/-- C6 (amended): for every path whose parent component resolves to a
directory inode whose block map is injective and does not alias its own
pointer block (true on every reachable image), and whose parent stays
resolvable at its own path afterwards (automatic for the root),
`read_dir` on the parent lists the NUL-trimmed decoded name of every live
(`is_active == 1`) entry in scan order, once per live slot, and after a
successful `remove` of the path it lists exactly the previous names with
the first occurrence of the removed name erased; later duplicates of that
name remain listed.  (`read_dir` lists one name per live slot, so the
claim's original per-name uniqueness fails, see the counterexample.) -/
theorem claim_C6 (s : VfsState) (path parent_path name : List Nat) (parent_id : Nat)
    (s' : VfsState)
    (hsp : splitLast path = (parent_path, name))
    (hrp : resolveParent s parent_path = .ok parent_id)
    (htype : (getInode s parent_id).inode_type = 1)
    (hnoalias : ∀ bj b, justRead s (getInode s parent_id) bj = some b →
      b ≠ (getInode s parent_id).indirect_blocks)
    (hinj : ∀ bj bk b, justRead s (getInode s parent_id) bj = some b →
      justRead s (getInode s parent_id) bk = some b → bj = bk)
    (hrm : remove s path = .ok s')
    (hfip' : findInodeByPath s' parent_path = .ok parent_id) :
    ∃ L, readDir s parent_path = .ok L ∧
      L = specLiveNames s (getInode s parent_id) 0 1034 ∧
      name ∈ L ∧
      readDir s' parent_path = .ok (L.erase name) := by
  obtain ⟨parent_id', inode_id, hrp', hfd, hrm2⟩ := remove_ok_parts hsp hrm
  rw [hrp] at hrp'
  injection hrp' with hpe
  subst hpe
  have hfip : findInodeByPath s parent_path = .ok parent_id := by
    by_cases hpe2 : parent_path.isEmpty
    · have hnil : parent_path = [] := by
        cases parent_path with
        | nil => rfl
        | cons a l => cases hpe2
      subst hnil
      have h0 : parent_id = 0 := by
        unfold resolveParent at hrp
        rw [if_pos (show ([] : List Nat).isEmpty = true from rfl)] at hrp
        injection hrp with hrp
        exact hrp.symm
      rw [h0]
      rfl
    · unfold resolveParent at hrp
      rw [if_neg hpe2] at hrp
      exact hrp
  obtain ⟨hd1', hd2', hd3', _⟩ := removeFreeDirect_effects (getInode s inode_id) s
  obtain ⟨A, hA⟩ : ∃ A, removeFreeDirect (getInode s inode_id) s = A := ⟨_, rfl⟩
  rw [hA] at hrm2 hd1' hd2' hd3'
  obtain ⟨hi1', hi2', hi3', _⟩ := removeFreeIndirect_effects (getInode s inode_id) A
  obtain ⟨B, hB⟩ : ∃ B, removeFreeIndirect (getInode s inode_id) A = B := ⟨_, rfl⟩
  rw [hB] at hrm2 hi1' hi2' hi3'
  obtain ⟨D, hD⟩ : ∃ D, ({ B with inodeBitmap := freeBit B.inodeBitmap inode_id } :
      VfsState) = D := ⟨_, rfl⟩
  rw [hD] at hrm2
  have hDi : D.inodes = s.inodes := by
    rw [← hD, update_inodeBitmap_inodes, hi1', hd1']
  have hDb : D.blocks = s.blocks := by
    rw [← hD, update_inodeBitmap_blocks, hi2', hd2']
  have hgi : getInode D parent_id = getInode s parent_id := by
    unfold getInode
    rw [hDi]
  unfold setEntryActiveStatus at hrm2
  rw [hgi] at hrm2
  obtain ⟨bi, phys, slot, hbile, hbiub, hjrD, hfaD, hpreD, hs'eq⟩ :=
    setEntryActiveBlocks_first _ _ hrm2
  rw [hDb] at hfaD
  have hjrbi : justRead s (getInode s parent_id) bi = some phys :=
    (justRead_congr hDb (getInode s parent_id) bi).symm.trans hjrD
  have hpre : ∀ bj, bj < bi → ∃ physj,
      justRead s (getInode s parent_id) bj = some physj ∧
      findActiveSlot (s.blocks physj) name 0 (BLOCK_SIZE / DIR_SIZE) = none := by
    intro bj hbj
    obtain ⟨physj, hj1, hj2⟩ := hpreD bj (Nat.zero_le _) hbj
    rw [hDb] at hj2
    exact ⟨physj, (justRead_congr hDb (getInode s parent_id) bj).symm.trans hj1, hj2⟩
  have hs'b : s'.blocks = Function.update s.blocks phys
      (writeBytes (s.blocks phys) (slot * DIR_SIZE)
        (entryBytesWithStatus (s.blocks phys) slot 0)) := by
    rw [hs'eq, update_blocks_blocks, hDb]
  have hs'i : s'.inodes = s.inodes := by
    rw [hs'eq, update_blocks_inodes, hDi]
  have hgP : getInode s' parent_id = getInode s parent_id := by
    unfold getInode
    rw [hs'i]
  have hindne : (getInode s parent_id).indirect_blocks ≠ phys := by
    by_cases hz : (getInode s parent_id).indirect_blocks = 0
    · rw [hz]
      exact (justRead_some_ne_zero hjrbi).symm
    · exact fun he => hnoalias bi phys hjrbi he.symm
  have hjr' : ∀ bj, justRead s' (getInode s parent_id) bj =
      justRead s (getInode s parent_id) bj := by
    intro bj
    refine justRead_ext rfl rfl ?_ bj
    rw [hs'b]
    exact Function.update_noteq hindne _ _
  have hbother : ∀ b, b ≠ phys → s'.blocks b = s.blocks b := by
    intro b hb
    rw [hs'b]
    exact Function.update_noteq hb _ _
  have hphysblk : s'.blocks phys = writeBytes (s.blocks phys) (slot * DIR_SIZE)
      (entryBytesWithStatus (s.blocks phys) slot 0) := by
    rw [hs'b]
    exact Function.update_same _ _ _
  obtain ⟨hmem, herase⟩ := readDirBlocks_erase hjr' hbother hphysblk hfaD hinj
    1034 0 bi (Nat.zero_le _) hbiub hjrbi (fun bj _ hbj => hpre bj hbj)
  refine ⟨readDirBlocks s (getInode s parent_id) 0 1034, ?_,
    readDirBlocks_specLiveNames s (getInode s parent_id) 1034 0, hmem, ?_⟩
  · unfold readDir
    rw [hfip]
    dsimp only
    rw [if_neg (by rw [htype]; decide)]
  · unfold readDir
    rw [hfip']
    dsimp only
    rw [hgP, if_neg (by rw [htype]; decide), herase]

end

/-- The block map of the root directory of `stA`: logical block 0 is
physical block 1 and every other index is unmapped. -/
theorem stA_justRead_char (bj : Nat) :
    justRead stA (getInode stA 0) bj = if bj = 0 then some 1 else none := by
  have hdv : (getInode stA 0).direct_blocks = [1, 0, 0, 0, 0, 0, 0, 0, 0, 0] := by decide
  have hind : (getInode stA 0).indirect_blocks = 0 := by decide
  unfold justRead
  rw [hdv, hind]
  by_cases h10 : bj < 10
  · rw [if_pos h10]
    interval_cases bj <;> decide
  · rw [if_neg h10, if_pos rfl, if_neg (by omega : ¬ bj = 0)]

set_option maxRecDepth 40000 in
/-- Witness for C6 (amended): removing `"a"` from `stA` erases the first
listed occurrence of `"a"` from the root listing, which lists one name
per live slot. -/
theorem claim_C6_witness :
    (splitLast [97] = ([], [97]) ∧
      resolveParent stA [] = .ok 0 ∧
      (getInode stA 0).inode_type = 1 ∧
      remove stA [97] = .ok stA6 ∧
      findInodeByPath stA6 [] = .ok 0) ∧
    (∃ L, readDir stA [] = .ok L ∧
      L = specLiveNames stA (getInode stA 0) 0 1034 ∧
      [97] ∈ L ∧
      readDir stA6 [] = .ok (L.erase [97])) :=
  ⟨⟨rfl, rfl, by decide, rfl, rfl⟩,
    claim_C6 stA [97] [] [97] 0 stA6 rfl rfl (by decide)
      (fun bj b hjr => by
        rw [stA_justRead_char bj] at hjr
        by_cases hb0 : bj = 0
        · rw [if_pos hb0] at hjr
          injection hjr with hjr
          subst hjr
          decide
        · rw [if_neg hb0] at hjr
          cases hjr)
      (fun bj bk b h1 h2 => by
        rw [stA_justRead_char bj] at h1
        rw [stA_justRead_char bk] at h2
        by_cases hb1 : bj = 0
        · by_cases hb2 : bk = 0
          · rw [hb1, hb2]
          · rw [if_neg hb2] at h2
            cases h2
        · rw [if_neg hb1] at h1
          cases h1)
      rfl rfl⟩

end Vfs
